import Mathlib

set_option linter.unusedVariables false
set_option linter.unreachableTactic false
set_option linter.unusedTactic false

/-! Verification development for the TOML DOM layer of the taplo repository
(file src/taplo/src/dom.rs).  The Rust source is shallowly embedded: lossless
syntax trees are plain inductive trees, the DOM node types mirror the Rust
structs, and the lift / merge / normalize / span passes of RootNode::cast are
translated as (fuelled, where the Rust recursion is not structural) functions.
Rust panics are modelled explicitly as a failure value, and exhaustion of the
embedding fuel is kept distinct from them. -/

namespace TaploDom

/-- Syntax kinds used by the DOM layer (from taplo's syntax module, exactly the
kinds matched in src/taplo/src/dom.rs plus the trivia kinds). -/
inductive SyntaxKind where
  | ROOT | TABLE_HEADER | TABLE_ARRAY_HEADER | ENTRY | KEY | VALUE
  | STRING | STRING_LITERAL | MULTI_LINE_STRING | MULTI_LINE_STRING_LITERAL
  | INTEGER | INTEGER_HEX | INTEGER_OCT | INTEGER_BIN
  | FLOAT | BOOL | DATE | ARRAY | INLINE_TABLE
  | IDENT | EQ | PERIOD | COMMA | WHITESPACE | COMMENT
  | BRACKET_START | BRACKET_END
deriving DecidableEq

/-- Lossless syntax elements (rowan's NodeOrToken): a token carries its text
and start offset, a node carries its kind, its text range and its children. -/
inductive Stx where
  | tok (kind : SyntaxKind) (start : Nat) (text : String)
  | node (kind : SyntaxKind) (start stop : Nat) (children : List Stx)

namespace Stx

/-- Kind of a syntax element (rowan kind()). -/
def kind : Stx → SyntaxKind
  | .tok k _ _ => k
  | .node k _ _ _ => k

/-- Start offset of the element's text range. -/
def startOff : Stx → Nat
  | .tok _ s _ => s
  | .node _ s _ _ => s

/-- End offset of the element's text range (for a token, start + length). -/
def endOff : Stx → Nat
  | .tok _ s t => s + t.length
  | .node _ _ e _ => e

/-- Whether the element is a node (as opposed to a token). -/
def isNode : Stx → Bool
  | .tok _ _ _ => false
  | .node _ _ _ _ => true

/-- Children including tokens (children_with_tokens()); empty for a token. -/
def childrenWithTokens : Stx → List Stx
  | .tok _ _ _ => []
  | .node _ _ _ cs => cs

/-- Node children only (rowan children()). -/
def childNodes (s : Stx) : List Stx :=
  s.childrenWithTokens.filter isNode

/-- First node child (rowan first_child()). -/
def firstChildNode (s : Stx) : Option Stx :=
  s.childrenWithTokens.find? isNode

/-- First child or token (rowan first_child_or_token()). -/
def firstChildOrToken (s : Stx) : Option Stx :=
  s.childrenWithTokens.head?

/-- Second node child: first_child().next_sibling() in rowan terms. -/
def secondChildNode (s : Stx) : Option Stx :=
  s.childNodes.get? 1

/-- Text of a token; empty for a node (the full node text is textStr below). -/
def tokText : Stx → String
  | .tok _ _ t => t
  | .node _ _ _ _ => ""

end Stx

/-! Key nodes (dom.rs:1250-1271).  The idents vector holds the IDENT tokens of
the key; visibility masks avoid cloning the vector when keys are sliced. -/

/-- KeyNode (dom.rs:1250): masked view over a shared ident-token vector plus
the array-of-tables index. -/
structure KeyNode where
  stx : Stx
  maskLeft : Nat
  maskRight : Nat
  maskVisible : Nat
  idents : List Stx
  index : Nat

namespace KeyNode

/-- Whether a character opens a quoted key segment. -/
def isQuoteChar (c : Char) : Bool := c == '"' || c == '\''

/-- Strip one level of surrounding quotes from an ident's text, exactly as
KeyNode::keys_str (dom.rs:1284) does: escapes are NOT processed. -/
def stripQuotes (s : String) : String :=
  match s.toList with
  | c :: _ => if isQuoteChar c then String.mk ((s.toList.drop 1).dropLast) else s
  | [] => s

/-- The visible ident tokens (dom.rs:1274, KeyNode::idents). -/
def visIdents (k : KeyNode) : List Stx :=
  (k.idents.take (k.idents.length - k.maskRight)).drop k.maskLeft

/-- KeyNode::key_count (dom.rs:1280). -/
def keyCount (k : KeyNode) : Nat := k.maskVisible

/-- KeyNode::keys_str (dom.rs:1284): visible segment strings, quotes stripped. -/
def keysStr (k : KeyNode) : List String :=
  k.visIdents.map (fun t => stripQuotes t.tokText)

/-- KeyNode::is_part_of (dom.rs:1303). -/
def isPartOf (k other : KeyNode) : Bool :=
  if other.maskVisible < k.maskVisible then false
  else (k.keysStr.zip other.keysStr).all (fun p => p.1 == p.2)

/-- KeyNode::contains (dom.rs:1319). -/
def containsK (k other : KeyNode) : Bool := isPartOf other k

/-- KeyNode::outer (dom.rs:1326): retain n idents from the left; at least one
ident always remains.  checked_sub(n).unwrap_or_default() is Nat subtraction. -/
def outer (k : KeyNode) (n : Nat) : KeyNode :=
  let skip := Nat.min (k.maskVisible - 1) (k.maskVisible - n)
  { k with maskRight := k.maskRight + skip, maskVisible := k.maskVisible - skip }

/-- KeyNode::inner (dom.rs:1339): skip n idents from the left; at least one
ident always remains. -/
def inner (k : KeyNode) (n : Nat) : KeyNode :=
  let skip := Nat.min (k.maskVisible - 1) n
  { k with maskLeft := k.maskLeft + skip, maskVisible := k.maskVisible - skip }

/-- KeyNode::common_prefix_count (dom.rs:1347): leading matching segments. -/
def commonPrefixCount (k other : KeyNode) : Nat :=
  (k.keysStr.zip other.keysStr).takeWhile (fun p => p.1 == p.2) |>.length

/-- KeyNode::eq_keys (dom.rs:1361): equality that ignores the index. -/
def eqKeys (k other : KeyNode) : Bool :=
  k.keyCount == other.keyCount && isPartOf k other

/-- KeyNode::with_prefix (dom.rs:1367): prepend other's visible idents and
inherit other's index; the masks are reset. -/
def withPrefix (k other : KeyNode) : KeyNode :=
  let newIdents := other.visIdents ++ k.visIdents
  { stx := k.stx, maskLeft := 0, maskRight := 0, maskVisible := newIdents.length,
    idents := newIdents, index := other.index }

/-- KeyNode::without_prefix (dom.rs:1383). -/
def withoutPrefix (k other : KeyNode) : KeyNode :=
  let count := commonPrefixCount k other
  if 0 < count then inner k count else k

/-- KeyNode::with_index (dom.rs:1393). -/
def withIndex (k : KeyNode) (i : Nat) : KeyNode := { k with index := i }

/-- KeyNode::prefix (dom.rs:1398): drop the last segment. -/
def prefixKey (k : KeyNode) : KeyNode := outer k (k.keyCount - 1)

/-- KeyNode::last (dom.rs:1403): keep only the last segment. -/
def lastKey (k : KeyNode) : KeyNode := inner k k.keyCount

/-- impl PartialEq for KeyNode (dom.rs:1422): eq_keys plus equal index. -/
def keyEqB (k other : KeyNode) : Bool :=
  eqKeys k other && k.index == other.index

/-- Data fed to the hasher by impl Hash for KeyNode (dom.rs:1431): the
quote-stripped visible segment strings in order, then the index. -/
def keyHashData (k : KeyNode) : List String × Nat := (k.keysStr, k.index)

/-- Mask consistency: the invariant maintained by every key produced by the
program (the masks partition the ident vector and at least one ident is
visible). -/
def Wf (k : KeyNode) : Prop :=
  k.maskLeft + k.maskVisible + k.maskRight = k.idents.length ∧ 1 ≤ k.maskVisible

instance (k : KeyNode) : Decidable (Wf k) := by unfold Wf; infer_instance

theorem visIdents_length_of_wf (k : KeyNode) (h : Wf k) :
    k.visIdents.length = k.maskVisible := by
  rcases h with ⟨hsum, hvis⟩
  simp only [visIdents, List.length_drop, List.length_take]
  omega

theorem keysStr_length_of_wf (k : KeyNode) (h : Wf k) :
    k.keysStr.length = k.maskVisible := by
  simp [keysStr, visIdents_length_of_wf k h]

end KeyNode

/-! Basic facts about the key comparison functions. -/

theorem zip_self_all_beq (l : List String) :
    ((l.zip l).all fun p => p.1 == p.2) = true := by
  induction l with
  | nil => simp
  | cons a l ih => simp [ih]

theorem zip_all_beq_iff_isPrefixOf (l1 : List String) : ∀ l2 : List String,
    l1.length ≤ l2.length →
    (((l1.zip l2).all fun p => p.1 == p.2) = true ↔ l1 <+: l2) := by
  induction l1 with
  | nil => intro l2 h; simp
  | cons a l1 ih =>
    intro l2 h
    cases l2 with
    | nil => simp at h
    | cons b l2 =>
      simp only [List.zip_cons_cons, List.all_cons, Bool.and_eq_true, beq_iff_eq,
        List.cons_prefix_cons]
      have := ih l2 (by simpa using h)
      tauto

theorem isPartOf_eq_true (a b : KeyNode) :
    KeyNode.isPartOf a b = true ↔
      a.maskVisible ≤ b.maskVisible ∧
        ((a.keysStr.zip b.keysStr).all fun p => p.1 == p.2) = true := by
  unfold KeyNode.isPartOf
  by_cases h : b.maskVisible < a.maskVisible
  · simp only [if_pos h]
    constructor
    · intro hh; simp at hh
    · intro ⟨h1, _⟩; omega
  · simp only [if_neg h]
    constructor
    · intro hh; exact ⟨by omega, hh⟩
    · intro ⟨_, h2⟩; exact h2

theorem isPartOf_iff_isPrefixOf (a b : KeyNode) (ha : a.Wf) (hb : b.Wf) :
    KeyNode.isPartOf a b = true ↔ a.keysStr <+: b.keysStr := by
  rw [isPartOf_eq_true]
  have la := KeyNode.keysStr_length_of_wf a ha
  have lb := KeyNode.keysStr_length_of_wf b hb
  constructor
  · intro ⟨h1, h2⟩
    exact (zip_all_beq_iff_isPrefixOf _ _ (by omega)).1 h2
  · intro h
    have hlen := h.length_le
    exact ⟨by omega, (zip_all_beq_iff_isPrefixOf _ _ (by omega)).2 h⟩

/-- Helper for building concrete keys in witnesses: a single-run key whose
segments are the given raw token texts. -/
def mkIdent (s : String) : Stx := .tok .IDENT 0 s

/-- Helper for building concrete keys: all idents visible, given index. -/
def mkKey (segs : List String) (idx : Nat) : KeyNode :=
  { stx := .node .KEY 0 0 (segs.map mkIdent), maskLeft := 0, maskRight := 0,
    maskVisible := segs.length, idents := segs.map mkIdent, index := idx }

/-- C7: Key::is_part_of is reflexive, transitive (for mask-consistent keys,
which is an invariant of every key the program builds) and antisymmetric with
respect to eq_keys. -/
theorem claim_c7 :
    (∀ k : KeyNode, KeyNode.isPartOf k k = true)
    ∧ (∀ a b c : KeyNode, a.Wf → b.Wf → c.Wf → KeyNode.isPartOf a b = true →
        KeyNode.isPartOf b c = true → KeyNode.isPartOf a c = true)
    ∧ (∀ a b : KeyNode, KeyNode.isPartOf a b = true →
        KeyNode.isPartOf b a = true → KeyNode.eqKeys a b = true) := by
  refine ⟨?_, ?_, ?_⟩
  · intro k
    rw [isPartOf_eq_true]
    exact ⟨le_refl _, zip_self_all_beq _⟩
  · intro a b c ha hb hc h1 h2
    rw [isPartOf_iff_isPrefixOf a b ha hb] at h1
    rw [isPartOf_iff_isPrefixOf b c hb hc] at h2
    rw [isPartOf_iff_isPrefixOf a c ha hc]
    exact h1.trans h2
  · intro a b h1 h2
    have h1' := (isPartOf_eq_true a b).1 h1
    have h2' := (isPartOf_eq_true b a).1 h2
    have hmv : a.maskVisible = b.maskVisible := le_antisymm h1'.1 h2'.1
    simp [KeyNode.eqKeys, KeyNode.keyCount, hmv, h1]

/-- Witness for C7 at concrete keys: transitivity applied to a, a.b, a.b.c. -/
theorem claim_c7_witness :
    KeyNode.isPartOf (mkKey ["a"] 0) (mkKey ["a", "b", "c"] 0) = true :=
  claim_c7.2.1 (mkKey ["a"] 0) (mkKey ["a", "b"] 0) (mkKey ["a", "b", "c"] 0)
    (by decide) (by decide) (by decide) (by decide) (by decide)

theorem takeWhile_zip_append (l1 l2 : List String) :
    ((((l1 ++ l2).zip l1).takeWhile fun p => p.1 == p.2).length) = l1.length := by
  induction l1 with
  | nil => simp
  | cons a l1 ih => simpa using ih

theorem keysStr_withPrefix (k p : KeyNode) :
    (k.withPrefix p).keysStr = p.keysStr ++ k.keysStr := by
  simp [KeyNode.withPrefix, KeyNode.keysStr, KeyNode.visIdents]

theorem visIdents_inner (k : KeyNode) (n : Nat) :
    (KeyNode.inner k n).visIdents =
      k.visIdents.drop (Nat.min (k.maskVisible - 1) n) := by
  simp only [KeyNode.inner, KeyNode.visIdents, List.drop_drop]
  try congr 1
  try omega

theorem keysStr_inner (k : KeyNode) (n : Nat) :
    (KeyNode.inner k n).keysStr =
      k.keysStr.drop (Nat.min (k.maskVisible - 1) n) := by
  simp [KeyNode.keysStr, visIdents_inner, List.map_drop]

/-- C8: with_prefix followed by without_prefix with the same prefix is the
identity on the visible segment sequence (for mask-consistent keys). -/
theorem claim_c8 (k p : KeyNode) (hk : k.Wf) (hp : p.Wf) :
    ((k.withPrefix p).withoutPrefix p).keysStr = k.keysStr := by
  have hkl : k.visIdents.length = k.maskVisible := KeyNode.visIdents_length_of_wf k hk
  have hpl : p.visIdents.length = p.maskVisible := KeyNode.visIdents_length_of_wf p hp
  have hstrs : (k.withPrefix p).keysStr = p.keysStr ++ k.keysStr := keysStr_withPrefix k p
  have hcnt : KeyNode.commonPrefixCount (k.withPrefix p) p = p.maskVisible := by
    unfold KeyNode.commonPrefixCount
    rw [hstrs, takeWhile_zip_append]
    exact KeyNode.keysStr_length_of_wf p hp
  have hmv : (k.withPrefix p).maskVisible = p.maskVisible + k.maskVisible := by
    simp [KeyNode.withPrefix, hkl, hpl]
  have h2 : (k.withPrefix p).withoutPrefix p =
      KeyNode.inner (k.withPrefix p) p.maskVisible := by
    simp only [KeyNode.withoutPrefix, hcnt]
    have hpos : 0 < p.maskVisible := hp.2
    rw [if_pos hpos]
  have hskip : Nat.min ((k.withPrefix p).maskVisible - 1) p.maskVisible
      = p.maskVisible := by
    rw [hmv]
    have := hk.2
    show min (p.maskVisible + k.maskVisible - 1) p.maskVisible = p.maskVisible
    omega
  rw [h2, keysStr_inner, hskip, hstrs]
  have hplen : p.keysStr.length = p.maskVisible := KeyNode.keysStr_length_of_wf p hp
  rw [← hplen, List.drop_left]

/-! Key equality and hashing (C6).  The spec speaks about "unescaped" segment
strings; the unescape routine (crate::util::unescape) is not among the
provided sources, so it is modelled from the spec below in order to state the
claim. -/

/-- Value of one hexadecimal digit. -/
def hexVal (c : Char) : Option Nat :=
  let n := c.toNat
  if 48 ≤ n ∧ n ≤ 57 then some (n - 48)
  else if 97 ≤ n ∧ n ≤ 102 then some (n - 87)
  else if 65 ≤ n ∧ n ≤ 70 then some (n - 55)
  else none

/-- Accumulate hexadecimal digits into a number. -/
def hexAgg (ds : List Char) : Option Nat :=
  ds.foldl
    (fun acc c => do
      let a ← acc
      let v ← hexVal c
      pure (a * 16 + v))
    (some 0)

/-- Modelled from the spec: TOML basic-string unescaping, the function
crate::util::unescape used by the DOM (src/taplo/src/util.rs is not among the
provided sources; spec 4.5 says strings are unescaped, malformed escapes
yield no node).  The standard TOML escapes are handled. -/
def unescapeChars : List Char → Option (List Char)
  | [] => some []
  | '\\' :: rest =>
    match rest with
    | 'b' :: r => (unescapeChars r).map (fun l => Char.ofNat 8 :: l)
    | 't' :: r => (unescapeChars r).map (fun l => '\t' :: l)
    | 'n' :: r => (unescapeChars r).map (fun l => '\n' :: l)
    | 'f' :: r => (unescapeChars r).map (fun l => Char.ofNat 12 :: l)
    | 'r' :: r => (unescapeChars r).map (fun l => '\r' :: l)
    | '"' :: r => (unescapeChars r).map (fun l => '"' :: l)
    | '\\' :: r => (unescapeChars r).map (fun l => '\\' :: l)
    | 'u' :: a :: b :: c :: d :: r => do
        let n ← hexAgg [a, b, c, d]
        if n.isValidChar then (unescapeChars r).map (fun l => Char.ofNat n :: l)
        else none
    | 'U' :: a :: b :: c :: d :: e :: f :: g :: h :: r => do
        let n ← hexAgg [a, b, c, d, e, f, g, h]
        if n.isValidChar then (unescapeChars r).map (fun l => Char.ofNat n :: l)
        else none
    | _ => none
  | c :: rest => (unescapeChars rest).map (fun l => c :: l)

/-- Modelled from the spec: the unescaped string value of one visible key
segment (spec 3 and 9: key equality "compares unescaped string segments").  A
bare segment is its own value, a literal-quoted segment is the text between
the quotes, and a basic-quoted segment is additionally unescaped. -/
def segmentUnescaped (s : String) : Option String :=
  match s.toList with
  | c :: _ =>
    if c == '"' then (unescapeChars ((s.toList.drop 1).dropLast)).map String.mk
    else if c == '\'' then some (String.mk ((s.toList.drop 1).dropLast))
    else some s
  | [] => some s

/-- The visible segment sequence of a key as unescaped strings (the spec's
reading of keys_str). -/
def keysStrUnescaped (k : KeyNode) : List (Option String) :=
  k.visIdents.map (fun t => segmentUnescaped t.tokText)

/-- A key whose only segment is the basic string "a\tb" written with a
backslash escape. -/
def c6KeyEsc : KeyNode := mkKey ["\"a\\tb\""] 0

/-- A key whose only segment is the basic string "a\tb" written with a
literal tab character. -/
def c6KeyTab : KeyNode := mkKey ["\"a\tb\""] 0

/-- C6 counterexample: the quoted segments "a\tb" (backslash escape) and
"a<TAB>b" (literal tab) are equal as unescaped strings and the keys have equal
index, yet PartialEq for KeyNode (which compares the quote-stripped raw token
text, without unescaping) returns false; the claimed equivalence fails. -/
theorem claim_c6_counterexample :
    ¬ (KeyNode.keyEqB c6KeyEsc c6KeyTab = true ↔
        (keysStrUnescaped c6KeyEsc = keysStrUnescaped c6KeyTab ∧
          c6KeyEsc.index = c6KeyTab.index)) := by decide

/-- C6 (amended): two KeyNode values compare equal iff their visible segment
sequences are equal as quote-stripped raw strings (escapes are not processed)
and their index fields are equal; the hash input is exactly those
quote-stripped strings in order followed by the index, so equal keys hash
equally. -/
theorem claim_c6 (k1 k2 : KeyNode) (h1 : k1.Wf) (h2 : k2.Wf) :
    (KeyNode.keyEqB k1 k2 = true ↔
      (k1.keysStr = k2.keysStr ∧ k1.index = k2.index))
    ∧ (KeyNode.keyEqB k1 k2 = true →
        KeyNode.keyHashData k1 = KeyNode.keyHashData k2) := by
  have l1 := KeyNode.keysStr_length_of_wf k1 h1
  have l2 := KeyNode.keysStr_length_of_wf k2 h2
  have heq : KeyNode.keyEqB k1 k2 = true ↔
      (k1.keysStr = k2.keysStr ∧ k1.index = k2.index) := by
    unfold KeyNode.keyEqB KeyNode.eqKeys KeyNode.keyCount
    simp only [Bool.and_eq_true, beq_iff_eq]
    constructor
    · intro ⟨⟨hmv, hpo⟩, hidx⟩
      have hpre := (isPartOf_iff_isPrefixOf k1 k2 h1 h2).1 hpo
      exact ⟨hpre.eq_of_length (by omega), hidx⟩
    · intro ⟨hs, hidx⟩
      have hlen : k1.keysStr.length = k2.keysStr.length := by rw [hs]
      refine ⟨⟨by omega, ?_⟩, hidx⟩
      exact (isPartOf_iff_isPrefixOf k1 k2 h1 h2).2 (hs ▸ List.prefix_refl _)
  refine ⟨heq, fun hb => ?_⟩
  obtain ⟨hs, hidx⟩ := heq.1 hb
  simp [KeyNode.keyHashData, hs, hidx]

/-- Witness for C6 (amended) at concrete keys. -/
theorem claim_c6_witness :
    (KeyNode.keyEqB (mkKey ["a", "b"] 1) (mkKey ["a", "b"] 1) = true ↔
      ((mkKey ["a", "b"] 1).keysStr = (mkKey ["a", "b"] 1).keysStr ∧
        (mkKey ["a", "b"] 1).index = (mkKey ["a", "b"] 1).index))
    ∧ (KeyNode.keyEqB (mkKey ["a", "b"] 1) (mkKey ["a", "b"] 1) = true →
        KeyNode.keyHashData (mkKey ["a", "b"] 1) =
          KeyNode.keyHashData (mkKey ["a", "b"] 1)) :=
  claim_c6 (mkKey ["a", "b"] 1) (mkKey ["a", "b"] 1) (by decide) (by decide)

/-- Witness for C8 at concrete keys. -/
theorem claim_c8_witness :
    (((mkKey ["x", "y"] 0).withPrefix (mkKey ["p"] 3)).withoutPrefix
        (mkKey ["p"] 3)).keysStr = (mkKey ["x", "y"] 0).keysStr :=
  claim_c8 (mkKey ["x", "y"] 0) (mkKey ["p"] 3) (by decide) (by decide)

/-! The DOM node types (dom.rs).  TableNode / ArrayNode / EntryNode /
ValueNode are mutually recursive; Entries is the plain entry list inside a
table or the root. -/

/-- IntegerRepr (dom.rs:1599). -/
inductive IntegerRepr where
  | Dec | Bin | Oct | Hex
deriving DecidableEq

/-- StringKind (dom.rs:1657). -/
inductive StringKind where
  | Basic | MultiLine | Literal | MultiLineLiteral
deriving DecidableEq

mutual
/-- ValueNode (dom.rs:1482). -/
inductive ValueNode where
  | bool (stx : Stx)
  | str (stx : Stx) (kind : StringKind) (content : String)
  | int (stx : Stx) (repr : IntegerRepr)
  | float (stx : Stx)
  | date (stx : Stx)
  | array (a : ArrayNode)
  | table (t : TableNode)
  | invalid (stx : Option Stx)
  | empty
/-- ArrayNode (dom.rs:996): tables is the array-of-tables flag. -/
inductive ArrayNode where
  | mk (stx : Stx) (tables : Bool) (items : List ValueNode)
      (nextHeaderStart : Option Nat)
/-- TableNode (dom.rs:487): array marks membership of an array-of-tables,
pseudo marks synthesized tables. -/
inductive TableNode where
  | mk (stx : Stx) (array : Bool) (pseudo : Bool) (nextEntry : Option Nat)
      (entries : List EntryNode)
/-- EntryNode (dom.rs:1132). -/
inductive EntryNode where
  | mk (stx : Stx) (key : KeyNode) (value : ValueNode) (nextEntry : Option Nat)
end

namespace ArrayNode

/-- Syntax of the array. -/
def stx : ArrayNode → Stx | .mk s _ _ _ => s

/-- ArrayNode::is_array_of_tables (dom.rs:1031). -/
def tables : ArrayNode → Bool | .mk _ t _ _ => t

/-- Items of the array. -/
def items : ArrayNode → List ValueNode | .mk _ _ i _ => i

/-- The next_header_start offset. -/
def nextHeaderStart : ArrayNode → Option Nat | .mk _ _ _ n => n

end ArrayNode

namespace TableNode

/-- Syntax of the table. -/
def stx : TableNode → Stx | .mk s _ _ _ _ => s

/-- TableNode::is_part_of_array (dom.rs:516). -/
def array : TableNode → Bool | .mk _ a _ _ _ => a

/-- TableNode::is_pseudo (dom.rs:527). -/
def pseudo : TableNode → Bool | .mk _ _ p _ _ => p

/-- The next_entry offset. -/
def nextEntry : TableNode → Option Nat | .mk _ _ _ n _ => n

/-- Entries of the table. -/
def entries : TableNode → List EntryNode | .mk _ _ _ _ e => e

/-- TableNode::is_inline (dom.rs:520). -/
def isInline (t : TableNode) : Bool := t.stx.kind == .INLINE_TABLE

end TableNode

namespace EntryNode

/-- Syntax of the entry. -/
def stx : EntryNode → Stx | .mk s _ _ _ => s

/-- EntryNode::key (dom.rs:1144). -/
def key : EntryNode → KeyNode | .mk _ k _ _ => k

/-- EntryNode::value (dom.rs:1148). -/
def value : EntryNode → ValueNode | .mk _ _ v _ => v

/-- The next_entry offset. -/
def nextEntry : EntryNode → Option Nat | .mk _ _ _ n => n

/-- Replace the key (Rust field assignment entry.key = ...). -/
def withKey (e : EntryNode) (k : KeyNode) : EntryNode :=
  .mk e.stx k e.value e.nextEntry

/-- Replace the value (Rust field assignment entry.value = ...). -/
def withValue (e : EntryNode) (v : ValueNode) : EntryNode :=
  .mk e.stx e.key v e.nextEntry

end EntryNode

/-- Whether a value is a table belonging to an array of tables (the test
matched repeatedly in RootNode::cast, dom.rs:297 and 439). -/
def isTableArrayV : ValueNode → Bool
  | .table t => t.array
  | _ => false

/-- Error (dom.rs:1770).  Spanned carries the text range as start / stop. -/
inductive Error where
  | duplicateKey (first second : KeyNode)
  | expectedTableArray (target key : KeyNode)
  | expectedTable (target key : KeyNode)
  | topLevelTableDefined (table key : KeyNode)
  | inlineTable (target key : KeyNode)
  | spanned (start stop : Nat) (message : String)
  | generic (message : String)

/-- Failures of the embedding: a Rust panic, or exhaustion of the fuel that
makes the non-structural Rust recursion total in Lean. -/
inductive Fail where
  | panic (msg : String)
  | fuelOut
deriving DecidableEq

/-- Result monad of the embedding. -/
abbrev R (α : Type) : Type := Except Fail α

/-- RootNode (dom.rs:201). -/
structure RootNode where
  stx : Stx
  errors : List Error
  entries : List EntryNode

/-! Generic structural invariants over the DOM: a bundle of shallow per-node
conditions, closed recursively over the tree. -/

/-- Shallow per-node conditions: on entry keys, on the Empty value, on an
array's tables flag and items, and on a table's array and pseudo flags. -/
structure NodePred where
  key : KeyNode → Prop
  emptyOk : Prop
  arr : Bool → List ValueNode → Prop
  tbl : Bool → Bool → Prop

mutual
/-- The bundled conditions hold everywhere inside a value. -/
inductive VOk (P : NodePred) : ValueNode → Prop where
  | bool (s) : VOk P (.bool s)
  | str (s k c) : VOk P (.str s k c)
  | int (s r) : VOk P (.int s r)
  | float (s) : VOk P (.float s)
  | date (s) : VOk P (.date s)
  | invalid (o) : VOk P (.invalid o)
  | empty : P.emptyOk → VOk P .empty
  | array (s tb items nh) : P.arr tb items → ItemsOk P items →
      VOk P (.array (.mk s tb items nh))
  | table (s ar ps ne es) : P.tbl ar ps → EsOk P es →
      VOk P (.table (.mk s ar ps ne es))
/-- The bundled conditions hold in every item of the list. -/
inductive ItemsOk (P : NodePred) : List ValueNode → Prop where
  | nil : ItemsOk P []
  | cons {v vs} : VOk P v → ItemsOk P vs → ItemsOk P (v :: vs)
/-- The bundled conditions hold in every entry of the list. -/
inductive EsOk (P : NodePred) : List EntryNode → Prop where
  | nil : EsOk P []
  | cons {e es} : EOk P e → EsOk P es → EsOk P (e :: es)
/-- The bundled conditions hold for the entry's key and inside its value. -/
inductive EOk (P : NodePred) : EntryNode → Prop where
  | mk (s k v ne) : P.key k → VOk P v → EOk P (.mk s k v ne)
end

theorem esOk_iff_forall {P : NodePred} : ∀ {es : List EntryNode},
    EsOk P es ↔ ∀ e ∈ es, EOk P e := by
  intro es
  induction es with
  | nil => exact ⟨fun _ => by simp, fun _ => .nil⟩
  | cons e es ih =>
    constructor
    · intro h
      cases h with
      | cons he hes =>
        intro x hx
        rcases List.mem_cons.1 hx with h | h
        · exact h ▸ he
        · exact ih.1 hes x h
    · intro h
      exact .cons (h e (by simp)) (ih.2 fun x hx => h x (by simp [hx]))

theorem itemsOk_iff_forall {P : NodePred} : ∀ {vs : List ValueNode},
    ItemsOk P vs ↔ ∀ v ∈ vs, VOk P v := by
  intro vs
  induction vs with
  | nil => exact ⟨fun _ => by simp, fun _ => .nil⟩
  | cons v vs ih =>
    constructor
    · intro h
      cases h with
      | cons hv hvs =>
        intro x hx
        rcases List.mem_cons.1 hx with h | h
        · exact h ▸ hv
        · exact ih.1 hvs x h
    · intro h
      exact .cons (h v (by simp)) (ih.2 fun x hx => h x (by simp [hx]))

theorem eok_key {P : NodePred} {e : EntryNode} (h : EOk P e) : P.key e.key := by
  cases h with
  | mk s k v ne hk hv => exact hk

theorem eok_value {P : NodePred} {e : EntryNode} (h : EOk P e) : VOk P e.value := by
  cases h with
  | mk s k v ne hk hv => exact hv

theorem eok_mk' {P : NodePred} {e : EntryNode} (hk : P.key e.key)
    (hv : VOk P e.value) : EOk P e := by
  cases e with
  | mk s k v ne => exact .mk s k v ne hk hv

/-- Pointwise implication of the shallow conditions. -/
structure NodePredLE (P Q : NodePred) : Prop where
  key : ∀ k, P.key k → Q.key k
  emptyOk : P.emptyOk → Q.emptyOk
  arr : ∀ tb its, P.arr tb its → Q.arr tb its
  tbl : ∀ a p, P.tbl a p → Q.tbl a p

mutual
/-- Monotonicity of VOk in the predicate bundle. -/
def vOkMono {P Q : NodePred} (h : NodePredLE P Q) :
    ∀ {v : ValueNode}, VOk P v → VOk Q v
  | _, .bool s => .bool s
  | _, .str s k c => .str s k c
  | _, .int s r => .int s r
  | _, .float s => .float s
  | _, .date s => .date s
  | _, .invalid o => .invalid o
  | _, .empty he => .empty (h.emptyOk he)
  | _, .array s tb items nh ha hits => .array s tb items nh (h.arr tb items ha) (itemsOkMono h hits)
  | _, .table s ar ps ne es ht hes => .table s ar ps ne es (h.tbl ar ps ht) (esOkMono h hes)
/-- Monotonicity of ItemsOk in the predicate bundle. -/
def itemsOkMono {P Q : NodePred} (h : NodePredLE P Q) :
    ∀ {vs : List ValueNode}, ItemsOk P vs → ItemsOk Q vs
  | _, .nil => .nil
  | _, .cons hv hvs => .cons (vOkMono h hv) (itemsOkMono h hvs)
/-- Monotonicity of EsOk in the predicate bundle. -/
def esOkMono {P Q : NodePred} (h : NodePredLE P Q) :
    ∀ {es : List EntryNode}, EsOk P es → EsOk Q es
  | _, .nil => .nil
  | _, .cons he hes => .cons (eOkMono h he) (esOkMono h hes)
/-- Monotonicity of EOk in the predicate bundle. -/
def eOkMono {P Q : NodePred} (h : NodePredLE P Q) :
    ∀ {e : EntryNode}, EOk P e → EOk Q e
  | _, .mk s k v ne hk hv => .mk s k v ne (h.key k hk) (vOkMono h hv)
end

/-! The Cast implementations (dom.rs): from syntax elements to DOM nodes. -/

/-- Rust element.into_node().unwrap() / as_node().unwrap(): panics on a token. -/
def asNode (s : Stx) : R Stx :=
  match s with
  | .node _ _ _ _ => pure s
  | .tok _ _ _ => throw (.panic "into_node on a token")

/-- Rust element.into_token().unwrap() / as_token().unwrap(): panics on a node. -/
def asToken (s : Stx) : R Stx :=
  match s with
  | .tok _ _ _ => pure s
  | .node _ _ _ _ => throw (.panic "into_token on a node")

/-- impl Cast for KeyNode (dom.rs:1446): collect the IDENT tokens; None when
the element is not a KEY node or holds no idents. -/
def castKey (s : Stx) : Option KeyNode :=
  match s with
  | .node .KEY start stop cs =>
    let i := cs.filter (fun c => !c.isNode && c.kind == SyntaxKind.IDENT)
    if i.isEmpty then none
    else some ⟨.node .KEY start stop cs, 0, 0, i.length, i, 0⟩
  | _ => none

/-- impl Cast for IntegerNode (dom.rs:1633), fused with the ValueNode
constructor application of dom_inner / ValueNode::cast. -/
def castInteger (s : Stx) : R (Option ValueNode) :=
  match s.kind with
  | .INTEGER => do let t ← asToken s; pure (some (.int t .Dec))
  | .INTEGER_BIN => do let t ← asToken s; pure (some (.int t .Bin))
  | .INTEGER_HEX => do let t ← asToken s; pure (some (.int t .Hex))
  | .INTEGER_OCT => do let t ← asToken s; pure (some (.int t .Oct))
  | _ => pure none

/-- Modelled from the spec: util::StringExt::remove_prefix (src/taplo/src/
util.rs is not among the provided sources): strip a prefix when present. -/
def removePrefixStr (s pre : String) : String :=
  if pre.isPrefixOf s then s.drop pre.length else s

/-- Modelled from the spec: util::StringExt::remove_suffix: strip a suffix
when present. -/
def removeSuffixStr (s suf : String) : String :=
  if suf.data.isSuffixOf s.data then s.dropRight suf.length else s

/-- String unescaping lifted to String (modelled from the spec, see
unescapeChars). -/
def unescapeStr (s : String) : Option String :=
  (unescapeChars s.toList).map String.mk

/-- impl Cast for StringNode (dom.rs:1698), fused with the ValueNode
constructor application: the delimiters are stripped, basic strings are
unescaped, multi-line variants drop one leading newline. -/
def castString (s : Stx) : R (Option ValueNode) :=
  match s.kind with
  | .STRING => do
      let t ← asToken s
      match unescapeStr (removeSuffixStr (removePrefixStr t.tokText "\"") "\"") with
      | some c => pure (some (.str t .Basic c))
      | none => pure none
  | .MULTI_LINE_STRING => do
      let t ← asToken s
      match unescapeStr (removePrefixStr
          (removeSuffixStr (removePrefixStr t.tokText "\"\"\"") "\"\"\"") "\n") with
      | some c => pure (some (.str t .MultiLine c))
      | none => pure none
  | .STRING_LITERAL => do
      let t ← asToken s
      pure (some (.str t .Literal
        (removeSuffixStr (removePrefixStr t.tokText "\x27") "\x27")))
  | .MULTI_LINE_STRING_LITERAL => do
      let t ← asToken s
      pure (some (.str t .MultiLineLiteral
        (removePrefixStr (removeSuffixStr
          (removePrefixStr t.tokText "\x27\x27\x27") "\x27\x27\x27") "\n")))
  | _ => pure none

/-- Modelled from the spec: the BoolNode cast produced by the dom_primitives
macro (src/taplo/src/dom/macros.rs is not among the provided sources); per
spec 4.5 booleans carry only their syntax handle. -/
def castBool (s : Stx) : R (Option ValueNode) :=
  match s.kind with
  | .BOOL => do let t ← asToken s; pure (some (.bool t))
  | _ => pure none

/-- Modelled from the spec: the FloatNode cast produced by the dom_primitives
macro; floats carry only their syntax handle. -/
def castFloat (s : Stx) : R (Option ValueNode) :=
  match s.kind with
  | .FLOAT => do let t ← asToken s; pure (some (.float t))
  | _ => pure none

/-- Modelled from the spec: the DateNode cast produced by the dom_primitives
macro; dates carry only their syntax handle. -/
def castDate (s : Stx) : R (Option ValueNode) :=
  match s.kind with
  | .DATE => do let t ← asToken s; pure (some (.date t))
  | _ => pure none

mutual

/-- impl Cast for ValueNode (dom.rs:1571): look at the first child or token of
a VALUE node; anything unrecognized becomes Invalid carrying the element. -/
def castValue : Nat → Stx → R (Option ValueNode)
  | 0, _ => throw .fuelOut
  | f + 1, s =>
    if s.kind = .VALUE then
      match s with
      | .tok _ _ _ => pure (some (.invalid (some s)))
      | .node k start stop cs =>
        match cs.head? with
        | none => pure (some (.invalid (some (.node k start stop cs))))
        | some c => do
          let r ← castValueInner f c
          match r with
          | some v => pure (some v)
          | none => pure (some (.invalid (some (.node k start stop cs))))
    else pure none

/-- The kind dispatch inside ValueNode::cast (dom.rs:1581-1593). -/
def castValueInner : Nat → Stx → R (Option ValueNode)
  | 0, _ => throw .fuelOut
  | f + 1, c =>
    match c.kind with
    | .INLINE_TABLE => do pure ((← castTable f c).map ValueNode.table)
    | .ARRAY => do pure ((← castArray f c).map ValueNode.array)
    | .BOOL => castBool c
    | .STRING | .STRING_LITERAL | .MULTI_LINE_STRING
    | .MULTI_LINE_STRING_LITERAL => castString c
    | .INTEGER | .INTEGER_BIN | .INTEGER_HEX | .INTEGER_OCT =>
        castInteger c
    | .FLOAT => castFloat c
    | .DATE => castDate c
    | _ => pure none

/-- impl Cast for ArrayNode (dom.rs:1106): an ARRAY node collects casts of its
children; a TABLE_ARRAY_HEADER becomes an empty non-tables array. -/
def castArray : Nat → Stx → R (Option ArrayNode)
  | 0, _ => throw .fuelOut
  | f + 1, s =>
    match s.kind with
    | .ARRAY => do
        let n ← asNode s
        let items ← castValuesList f n.childrenWithTokens
        pure (some (.mk n false items none))
    | .TABLE_ARRAY_HEADER => do
        let n ← asNode s
        pure (some (.mk n false [] none))
    | _ => pure none

/-- impl Cast for TableNode (dom.rs:552): headers must hold a castable key and
start with no entries; inline tables collect their entries. -/
def castTable : Nat → Stx → R (Option TableNode)
  | 0, _ => throw .fuelOut
  | f + 1, s =>
    match s.kind with
    | .TABLE_HEADER | .TABLE_ARRAY_HEADER => do
        let n ← asNode s
        match n.firstChildNode.bind castKey with
        | none => pure none
        | some _ =>
            pure (some (.mk n (n.kind == SyntaxKind.TABLE_ARRAY_HEADER) false none []))
    | .INLINE_TABLE => do
        let n ← asNode s
        let es ← castEntriesList f n.childrenWithTokens
        pure (some (.mk n false false none es))
    | _ => pure none

/-- impl Cast for EntryNode (dom.rs:1218): needs a castable key; a missing or
uncastable value yields Invalid(None). -/
def castEntry : Nat → Stx → R (Option EntryNode)
  | 0, _ => throw .fuelOut
  | f + 1, s =>
    if s.kind = .ENTRY then do
      let n ← asNode s
      match n.firstChildOrToken.bind castKey with
      | none => pure none
      | some k => do
          let v ←
            (match n.secondChildNode with
              | none => pure none
              | some vn => castValue f vn)
          pure (some (.mk n k (v.getD (.invalid none)) none))
    else pure none

/-- filter_map(Cast::cast) for values in ArrayNode::cast. -/
def castValuesList : Nat → List Stx → R (List ValueNode)
  | 0, _ => throw .fuelOut
  | f + 1, [] => pure []
  | f + 1, c :: cs => do
      let v? ← castValue f c
      let rest ← castValuesList f cs
      match v? with
      | some v => pure (v :: rest)
      | none => pure rest

/-- filter_map(Cast::cast) for entries in TableNode::cast (inline tables). -/
def castEntriesList : Nat → List Stx → R (List EntryNode)
  | 0, _ => throw .fuelOut
  | f + 1, [] => pure []
  | f + 1, c :: cs => do
      let e? ← castEntry f c
      let rest ← castEntriesList f cs
      match e? with
      | some e => pure (e :: rest)
      | none => pure rest

end

/-! Text ranges (used by RootNode::cast only to build the Spanned error for a
keyless header; ok_or evaluates its argument eagerly, so the range of every
header table is computed). -/

/-- Cover of two ranges (rowan TextRange::cover). -/
def coverR (r1 r2 : Nat × Nat) : Nat × Nat := (min r1.1 r2.1, max r1.2 r2.2)

/-- Extend a range so it contains an offset (rowan cover_offset). -/
def coverOff (r : Nat × Nat) (o : Nat) : Nat × Nat := (min r.1 o, max r.2 o)

/-- KeyNode::text_range (dom.rs:1414): fold of the visible ident ranges;
panics when no ident is visible. -/
def keyTextRange (k : KeyNode) : R (Nat × Nat) :=
  match k.visIdents with
  | [] => throw (.panic "idents next unwrap")
  | t0 :: _ =>
      pure (k.visIdents.foldl (fun r t => coverR r (t.startOff, t.endOff))
        (t0.startOff, t0.endOff))

mutual

/-- ValueNode::text_range (dom.rs:1534); panics on Empty. -/
def valueTextRange : ValueNode → R (Nat × Nat)
  | .bool s => pure (s.startOff, s.endOff)
  | .str s _ _ => pure (s.startOff, s.endOff)
  | .int s _ => pure (s.startOff, s.endOff)
  | .float s => pure (s.startOff, s.endOff)
  | .date s => pure (s.startOff, s.endOff)
  | .array a => arrayTextRange a
  | .table t => tableTextRange t
  | .invalid o =>
      pure (match o with
        | some n => (n.startOff, n.endOff)
        | none => (0, 0))
  | .empty => throw (.panic "empty value")

/-- ArrayNode::text_range (dom.rs:1091). -/
def arrayTextRange : ArrayNode → R (Nat × Nat)
  | .mk s tb items nh => do
      let r ← itemsCover items (s.startOff, s.endOff)
      pure (match nh with
        | some o => coverOff r o
        | none => r)

/-- Fold of item ranges into a range. -/
def itemsCover : List ValueNode → Nat × Nat → R (Nat × Nat)
  | [], r => pure r
  | v :: vs, r => do
      let rv ← valueTextRange v
      itemsCover vs (coverR r rv)

/-- TableNode::text_range (dom.rs:537). -/
def tableTextRange : TableNode → R (Nat × Nat)
  | .mk s ar ps ne es => do
      let er ← entriesTRGo es none
      let r :=
        match er with
        | some r2 => coverR (s.startOff, s.endOff) r2
        | none => (s.startOff, s.endOff)
      pure (match ne with
        | some o => coverOff r o
        | none => r)

/-- Entries::text_range (dom.rs:608): the first entry contributes its key
range, later entries contribute their value ranges. -/
def entriesTRGo : List EntryNode → Option (Nat × Nat) → R (Option (Nat × Nat))
  | [], r => pure r
  | .mk s k v ne :: es, r =>
      match r with
      | none => do
          let kr ← keyTextRange k
          entriesTRGo es (some kr)
      | some r0 => do
          let vr ← valueTextRange v
          entriesTRGo es (some (coverR r0 vr))

end

/-! The lift pass of RootNode::cast (dom.rs:236-416): a single walk over the
root's children, collecting a keyed entry list, per-entry prefixes, the
per-index table registry and the error buffer. -/

/-- The IndexMap from full key to entry: an insertion-ordered association
list.  insert of an already present key (KeyNode PartialEq) keeps the original
key and position and replaces the value, as indexmap does. -/
def insertIM : List (KeyNode × EntryNode) → KeyNode → EntryNode →
    List (KeyNode × EntryNode)
  | [], k, e => [(k, e)]
  | (k0, e0) :: rest, k, e =>
    if KeyNode.keyEqB k0 k then (k0, e) :: rest
    else (k0, e0) :: insertIM rest k e

/-- IndexMap::get by full key equality. -/
def getIM (m : List (KeyNode × EntryNode)) (k : KeyNode) : Option EntryNode :=
  (m.find? (fun p => KeyNode.keyEqB p.1 k)).map (fun p => p.2)

/-- entries.iter().rev().find with eq_keys (dom.rs:292). -/
def findRevEqKeys (m : List (KeyNode × EntryNode)) (k : KeyNode) :
    Option (KeyNode × EntryNode) :=
  m.reverse.find? (fun p => KeyNode.eqKeys p.1 k)

/-- State of the lift loop over the root's children. -/
structure LiftState where
  entries : List (KeyNode × EntryNode)
  prefixes : List (Option KeyNode)
  pfx : Option KeyNode
  tables : List (List KeyNode)
  errors : List Error

/-- The initial lift state. -/
def initState : LiftState := ⟨[], [], none, [], []⟩

/-- The scan for entries clashing with a freshly seen header (dom.rs:341-352):
enumerate().rev().skip(1) visits indices len-2 down to 0; prefixes.get(i) is
unwrapped. -/
def topScanGo (entries : List (KeyNode × EntryNode))
    (prefixes : List (Option KeyNode)) (key : KeyNode) : Nat → R (List Error)
  | 0 => pure []
  | i + 1 => do
      let ke ←
        match entries.get? i with
        | some p => pure p
        | none => throw (.panic "entries index out of range")
      let pfxi ←
        match prefixes.get? i with
        | some p => pure p
        | none => throw (.panic "prefixes get unwrap")
      let rest ← topScanGo entries prefixes key i
      let here :=
        match pfxi with
        | some p =>
          if KeyNode.containsK ke.1 key &&
              decide (KeyNode.commonPrefixCount p key < key.keyCount) then
            [Error.topLevelTableDefined key ke.2.key]
          else []
        | none => []
      pure (here ++ rest)

/-- Append this header's key to the per-index registry (dom.rs:354-358);
tables[key.index] panics when the index is beyond the length. -/
def pushTables (tables : List (List KeyNode)) (key : KeyNode) :
    R (List (List KeyNode)) :=
  if tables.length = key.index then pure (tables ++ [[key]])
  else
    match tables.get? key.index with
    | some g => pure (tables.set key.index (g ++ [key]))
    | none => throw (.panic "tables index out of bounds")

/-- The key under which an ENTRY child is inserted (dom.rs:369-372): the
entry key prefixed with the current table prefix, when there is one. -/
def liftInsertKey (pfx : Option KeyNode) (entry : EntryNode) : KeyNode :=
  match pfx with
  | none => entry.key
  | some p => entry.key.withPrefix p

/-- The collision handling for one header (dom.rs:296-339): returns the
updated entry map, the errors emitted by the collision check, and the key the
header ends up with (index bumped when appended to an array of tables). -/
def liftHeaderDecision (entries : List (KeyNode × EntryNode)) (t : TableNode)
    (key0 : KeyNode) : List (KeyNode × EntryNode) × List Error × KeyNode :=
  match findRevEqKeys entries key0 with
  | some (ek, ee) =>
      let exArr := isTableArrayV ee.value
      if exArr && !t.array then
        (entries, [Error.expectedTableArray ee.key key0], key0)
      else if !exArr && t.array then
        (entries, [Error.expectedTableArray key0 ee.key], key0)
      else if !exArr && !t.array then
        (entries, [Error.duplicateKey ee.key key0], key0)
      else
        let k2 := key0.withIndex (ek.index + 1)
        (insertIM entries k2 (.mk t.stx k2 (.table t) none), [], k2)
  | none =>
      (insertIM entries key0 (.mk t.stx key0 (.table t) none), [], key0)

/-- One iteration of the lift loop (the body of the for loop in
RootNode::cast, dom.rs:266-416). -/
def liftChild (f : Nat) (st : LiftState) (child : Stx) : R LiftState :=
  match child.kind with
  | .TABLE_HEADER | .TABLE_ARRAY_HEADER => do
      match ← castTable f child with
      | none => pure st
      | some t => do
          let trange ← tableTextRange t
          match t.stx.firstChildNode.bind castKey with
          | none =>
              pure { st with
                errors := st.errors ++ [.spanned trange.1 trange.2 "table has no key"] }
          | some key0 => do
              let dec := liftHeaderDecision st.entries t key0
              let scanErrs ← topScanGo dec.1 st.prefixes dec.2.2 (dec.1.length - 1)
              let tables2 ← pushTables st.tables dec.2.2
              pure { entries := dec.1
                     prefixes := st.prefixes ++ [none]
                     pfx := some dec.2.2
                     tables := tables2
                     errors := st.errors ++ dec.2.1 ++ scanErrs }
  | .ENTRY => do
      match ← castEntry f child with
      | none => pure st
      | some entry => do
          let insertKey := liftInsertKey st.pfx entry
          let tce ←
            (match st.pfx with
              | none => pure none
              | some p =>
                  match st.tables.get? insertKey.index with
                  | none => pure none
                  | some g =>
                      match g.find? (fun tk =>
                          KeyNode.containsK (insertKey.withoutPrefix p)
                            (tk.withoutPrefix p)) with
                      | none => pure none
                      | some tk => do
                          match g.getLast? with
                          | none => throw (.panic "last unwrap")
                          | some lastT =>
                              pure (if KeyNode.keyEqB tk lastT then none else some tk))
          match tce with
          | some tk =>
              pure { st with errors := st.errors ++ [.topLevelTableDefined tk entry.key] }
          | none =>
              match getIM st.entries insertKey with
              | some existing =>
                  pure { st with
                    errors := st.errors ++ [.duplicateKey existing.key entry.key] }
              | none =>
                  pure { st with
                         prefixes := st.prefixes ++ [st.pfx]
                         entries := insertIM st.entries insertKey entry }
  | _ => pure st

/-- The whole lift loop over the root's children. -/
def liftPass (f : Nat) : List Stx → LiftState → R LiftState
  | [], st => pure st
  | c :: cs, st => do liftPass f cs (← liftChild f st c)

/-- In-place update of one list element, used where the Rust indexes a Vec
whose bound was just checked. -/
def listModify {α : Type} (l : List α) (i : Nat) (g : α → α) : List α :=
  match l.get? i with
  | some x => l.set i (g x)
  | none => l

/-- Group the entries by key index (dom.rs:419-432): a fold that appends a
fresh group when the current length is not beyond the entry's index and
otherwise pushes into the group at the index. -/
def groupByIndex (entries : List (KeyNode × EntryNode)) :
    List (List (KeyNode × EntryNode)) :=
  entries.foldl
    (fun all ke =>
      if all.length < ke.1.index + 1 then all ++ [[ke]]
      else listModify all ke.1.index (fun g => g ++ [ke]))
    []

/-- The additional check after the lift loop (dom.rs:434-462): because of the
break at the end of the first inner iteration, only the first entry of the
first nonempty group is examined, and only when that group has index 0. -/
def extraChecks (grouped : List (List (KeyNode × EntryNode))) : List Error :=
  match grouped with
  | (ke :: rest) :: _ =>
      if isTableArrayV ke.2.value then []
      else
        match (ke :: rest).find? (fun ke2 =>
            match ke2.2.value with
            | .table t => KeyNode.isPartOf ke2.1 ke.1 && t.array
            | _ => false) with
        | some ke2 => [.expectedTableArray ke2.1 ke.1]
        | none => []
  | _ => []

/-- Entries::from_map (dom.rs:708): each entry takes the map key as its key. -/
def fromMap (m : List (KeyNode × EntryNode)) : List EntryNode :=
  m.map (fun ke => ke.2.withKey ke.1)

/-! The merge pass (dom.rs:719-965). -/

/-- Result of Entries::merge_entry: Ok(merged) or Err(error). -/
inductive MergeStep where
  | ok (merged : Bool)
  | err (e : Error)

/-- The transformation applied when an entry is inserted unmerged
(dom.rs:763-778): a table flagged as array member becomes a one-element
Array with tables = true holding the table with array = false. -/
def arrayTransform : ValueNode → ValueNode
  | .table (.mk s true ps ne es) =>
      .array (.mk s true [.table (.mk s false ps ne es)] none)
  | v => v

mutual

/-- Entries::merge (dom.rs:731): zero each key's index, try to merge every
entry into the already collected ones, insert unmerged entries with the
array-of-tables transformation. -/
def mergeEntries : Nat → List EntryNode → List Error →
    R (List EntryNode × List Error)
  | 0, _, _ => throw .fuelOut
  | f + 1, es, errs => mergeLoop f es [] errs

/-- The outer for loop of Entries::merge. -/
def mergeLoop : Nat → List EntryNode → List EntryNode → List Error →
    R (List EntryNode × List Error)
  | 0, _, _, _ => throw .fuelOut
  | f + 1, [], acc, errs => pure (acc, errs)
  | f + 1, e :: rest, acc, errs => do
      let e2 := e.withKey (e.key.withIndex 0)
      let (acc2, inserted, errs2) ← mergeInto f acc e2 errs
      let acc3 :=
        if inserted then acc2 ++ [e2.withValue (arrayTransform e2.value)]
        else acc2
      mergeLoop f rest acc3 errs2

/-- The inner for loop of Entries::merge over new_entries: returns the
updated accumulated list, whether the entry still needs inserting, and the
error buffer (an Err pushes its error and stops the scan). -/
def mergeInto : Nat → List EntryNode → EntryNode → List Error →
    R (List EntryNode × Bool × List Error)
  | 0, _, _, _ => throw .fuelOut
  | f + 1, [], e, errs => pure ([], true, errs)
  | f + 1, x :: xs, e, errs => do
      let (x2, errs2, step) ← mergeEntry f x e errs
      match step with
      | .ok true => pure (x2 :: xs, false, errs2)
      | .ok false => do
          let (xs2, ins, errs3) ← mergeInto f xs e errs2
          pure (x2 :: xs2, ins, errs3)
      | .err er => pure (x2 :: xs, false, errs2 ++ [er])

/-- Entries::merge_entry (dom.rs:832): try to merge new into old; returns the
updated old entry, the error buffer and Ok(merged) / Err(e). -/
def mergeEntry : Nat → EntryNode → EntryNode → List Error →
    R (EntryNode × List Error × MergeStep)
  | 0, _, _, _ => throw .fuelOut
  | f + 1, oldE, newE, errs => do
      let oldKey := oldE.key
      let newKey := newE.key
      if KeyNode.isPartOf oldKey newKey then
        match oldE.value with
        | .table t =>
            if t.isInline then
              pure (oldE, errs, .err (.inlineTable oldE.key newE.key))
            else do
              let toInsert := newE.withKey (newKey.withoutPrefix oldKey)
              let (merged, errs2) ← mergeEntries f (t.entries ++ [toInsert]) errs
              pure (oldE.withValue
                (.table (.mk t.stx t.array t.pseudo t.nextEntry merged)),
                errs2, .ok true)
        | .array oldArr =>
            if !oldArr.tables then
              pure (oldE, errs, .err (.expectedTableArray oldE.key newE.key))
            else
              match newE.value with
              | .table newT =>
                  if KeyNode.eqKeys oldKey newKey && newT.array then
                    let newT2 := TableNode.mk newT.stx false newT.pseudo
                      newT.nextEntry newT.entries
                    pure (oldE.withValue (.array (.mk oldArr.stx oldArr.tables
                      (oldArr.items ++ [.table newT2]) oldArr.nextHeaderStart)),
                      errs, .ok true)
                  else
                    mergeIntoLastItem f oldE oldArr newE oldKey newKey errs
              | .empty => throw (.panic "empty value")
              | _ => mergeIntoLastItem f oldE oldArr newE oldKey newKey errs
        | .empty => throw (.panic "empty value")
        | _ => pure (oldE, errs, .err (.expectedTable oldE.key newE.key))
      else if KeyNode.isPartOf newKey oldKey then do
        let (newOld, errs2, step) ← mergeEntry f newE oldE errs
        match step with
        | .ok true => pure (newOld, errs2, .ok true)
        | .ok false => pure (oldE, errs2, .ok false)
        | .err er => pure (oldE, errs2, .err er)
      else
        let cc := KeyNode.commonPrefixCount oldE.key newE.key
        if 0 < cc then
          let common := KeyNode.outer oldE.key cc
          let a := oldE.withKey (oldE.key.withoutPrefix common)
          let b := newE.withKey (newE.key.withoutPrefix common)
          pure (.mk oldE.stx common
            (.table (.mk oldE.stx false true none [a, b])) oldE.nextEntry,
            errs, .ok true)
        else
          pure (oldE, errs, .ok false)

/-- The shared descent into the last item of an array of tables
(dom.rs:880-912): push the stripped entry into the last item's entries and
re-merge; panics when the last item is missing or not a table. -/
def mergeIntoLastItem : Nat → EntryNode → ArrayNode → EntryNode → KeyNode →
    KeyNode → List Error → R (EntryNode × List Error × MergeStep)
  | 0, _, _, _, _, _, _ => throw .fuelOut
  | f + 1, oldE, oldArr, newE, oldKey, newKey, errs =>
      match oldArr.items.getLast? with
      | some (.table arrT) => do
          let toInsert := newE.withKey (newKey.withoutPrefix oldKey)
          let (merged, errs2) ← mergeEntries f (arrT.entries ++ [toInsert]) errs
          let arrT2 := TableNode.mk arrT.stx arrT.array arrT.pseudo
            arrT.nextEntry merged
          pure (oldE.withValue (.array (.mk oldArr.stx oldArr.tables
            (oldArr.items.dropLast ++ [.table arrT2]) oldArr.nextHeaderStart)),
            errs2, .ok true)
      | some _ => throw (.panic "expected array of tables")
      | none => throw (.panic "expected array of tables")

end

/-! The normalize pass (dom.rs:789-822 and 1167-1200). -/

/-- One iteration of the while loop of EntryNode::normalize (dom.rs:1168):
wrap the value into a pseudo-table keyed by the last segment and keep the
prefix as the entry key. -/
def entryNormStep (e : EntryNode) : EntryNode :=
  let newKey := e.key.prefixKey
  let innerKey := e.key.lastKey
  let isArrayTable := isTableArrayV e.value
  let innerEntry := EntryNode.mk e.stx innerKey e.value none
  EntryNode.mk e.stx newKey
    (.table (.mk innerKey.stx isArrayTable true none [innerEntry])) e.nextEntry

/-- The while key_count() > 1 loop of EntryNode::normalize; each step lowers
the visible count by one, so the initial count is enough fuel. -/
def entryNormLoop : Nat → EntryNode → EntryNode
  | 0, e => e
  | n + 1, e => if 1 < e.key.keyCount then entryNormLoop n (entryNormStep e) else e

mutual

/-- Entries::normalize (dom.rs:789): normalize each entry, then descend into
the (freshly wrapped) value, into tables and into tables inside arrays. -/
def normEs : Nat → List EntryNode → R (List EntryNode)
  | 0, _ => throw .fuelOut
  | f + 1, [] => pure []
  | f + 1, e :: es => do
      let e2 ← normE f e
      let rest ← normEs f es
      pure (e2 :: rest)

/-- Normalization of a single entry: the while loop, then the descent. -/
def normE : Nat → EntryNode → R EntryNode
  | 0, _ => throw .fuelOut
  | f + 1, e => do
      let e2 := entryNormLoop e.key.keyCount e
      let v2 ← normV f e2.value
      pure (e2.withValue v2)

/-- Descent of the normalize worklist into a value. -/
def normV : Nat → ValueNode → R ValueNode
  | 0, _ => throw .fuelOut
  | f + 1, .table (.mk s a p ne es) => do
      let es2 ← normEs f es
      pure (.table (.mk s a p ne es2))
  | f + 1, .array (.mk s tb items nh) => do
      let items2 ← normItems f items
      pure (.array (.mk s tb items2 nh))
  | f + 1, v => pure v

/-- Descent of the normalize worklist into array items (only nested arrays
and tables are touched). -/
def normItems : Nat → List ValueNode → R (List ValueNode)
  | 0, _ => throw .fuelOut
  | f + 1, [] => pure []
  | f + 1, v :: vs => do
      let v2 ← normV f v
      let rest ← normItems f vs
      pure (v2 :: rest)

end

/-! The span pass (dom.rs:621-706 and 1037-1083). -/

mutual

/-- Full text of a syntax element (rowan to_string). -/
def textStr : Stx → String
  | .tok _ _ t => t
  | .node _ _ _ cs => textList cs

/-- Concatenated text of a list of syntax elements. -/
def textList : List Stx → String
  | [] => ""
  | c :: cs => textStr c ++ textList cs

end

/-- str::trim_start_matches for one character. -/
def trimStartChar (s : String) (c : Char) : String :=
  String.mk (s.toList.dropWhile (fun x => x == c))

/-- str::trim_end_matches for one character. -/
def trimEndChar (s : String) (c : Char) : String :=
  String.mk ((s.toList.reverse.dropWhile (fun x => x == c)).reverse)

/-- Header text with the bracket characters stripped. -/
def stripBrackets (s : String) : String :=
  trimEndChar (trimStartChar s '[') ']'

/-- str::starts_with. -/
def startsWithStr (s pre : String) : Bool :=
  pre.toList.isPrefixOf s.toList

/-- The search of the span pass (dom.rs:630-651, 664-690, 1052-1075): the
first node child starting at or after the header's end whose kind matches
(tahOnly restricts to TABLE_ARRAY_HEADER) and whose stripped text does not
extend the header's stripped text (with eqTerminates, an equal full header
text also terminates the span). -/
def findSpanEnd (children : List Stx) (afterEnd : Nat) (entryText : String)
    (tahOnly : Bool) (eqTerminates : Bool) : Option Nat :=
  (children.find? (fun n =>
    decide (afterEnd ≤ n.startOff) &&
    (match n.kind with
     | .TABLE_HEADER => !tahOnly
     | .TABLE_ARRAY_HEADER => true
     | _ => false) &&
    (!startsWithStr (stripBrackets (textStr n)) (stripBrackets entryText) ||
      (eqTerminates && (textStr n == entryText))))).map Stx.startOff

mutual

/-- Entries::set_table_spans (dom.rs:621). -/
def spansEs : Nat → Stx → Option Nat → List EntryNode → R (List EntryNode)
  | 0, _, _, _ => throw .fuelOut
  | f + 1, root, endO, [] => pure []
  | f + 1, root, endO, e :: es => do
      let e2 ← spansE f root endO e
      let rest ← spansEs f root endO es
      pure (e2 :: rest)

/-- Span assignment for one entry: header entries get next_entry, the value
table inherits it, tables and arrays of tables are recursed into. -/
def spansE : Nat → Stx → Option Nat → EntryNode → R EntryNode
  | 0, _, _, _ => throw .fuelOut
  | f + 1, root, endO, .mk s k v ne => do
      let ne2 :=
        match s.kind with
        | .TABLE_HEADER =>
            match findSpanEnd root.childNodes s.endOff (textStr s) false false with
            | some o => some o
            | none => endO
        | .TABLE_ARRAY_HEADER =>
            match findSpanEnd root.childNodes s.endOff (textStr s) true false with
            | some o => some o
            | none => endO
        | _ => ne
      let v2 ←
        (match v with
          | .table (.mk ts ta tp tne tes) => do
              let tes2 ← spansEs f root endO tes
              pure (ValueNode.table (.mk ts ta tp ne2 tes2))
          | .array arr =>
              if arr.tables then do
                let arr2 ← spansArr f root endO arr
                pure (ValueNode.array arr2)
              else pure v
          | _ => pure v)
      pure (.mk s k v2 ne2)

/-- ArrayNode::set_table_spans (dom.rs:1037). -/
def spansArr : Nat → Stx → Option Nat → ArrayNode → R ArrayNode
  | 0, _, _, _ => throw .fuelOut
  | f + 1, root, endO, .mk s tb items nh =>
      if !tb then pure (.mk s tb items nh)
      else do
        let items2 ← spansItems f root endO items
        pure (.mk s tb items2 nh)

/-- The loop of ArrayNode::set_table_spans over the items, which must all be
tables. -/
def spansItems : Nat → Stx → Option Nat → List ValueNode → R (List ValueNode)
  | 0, _, _, _ => throw .fuelOut
  | f + 1, root, endO, [] => pure []
  | f + 1, root, endO, v :: vs => do
      match v with
      | .table (.mk ts ta tp tne tes) => do
          let ne2 :=
            match findSpanEnd root.childNodes ts.endOff (textStr ts) true true with
            | some o => some o
            | none => endO
          let tes2 ← spansEs f root endO tes
          let rest ← spansItems f root endO vs
          pure (ValueNode.table (.mk ts ta tp ne2 tes2) :: rest)
      | _ => throw (.panic "expected table")

end

/-- impl Cast for RootNode (dom.rs:236-482): lift, extra checks, merge and
normalize when no error was recorded, then span assignment across the whole
tree. -/
def rootCast (f : Nat) (s : Stx) : R (Option RootNode) :=
  match s with
  | .tok k _ _ =>
      if k = .ROOT then throw (.panic "into_node on a token") else pure none
  | .node k start stop cs =>
    if k = .ROOT then do
      let st ← liftPass f cs initState
      let errors1 := st.errors ++ extraChecks (groupByIndex st.entries)
      let fe := fromMap st.entries
      let (fe2, errors2) ←
        (if errors1.isEmpty then do
          let (m, errsM) ← mergeEntries f fe errors1
          let n ← normEs f m
          pure (n, errsM)
        else pure (fe, errors1))
      let out ← spansEs f (.node k start stop cs) (some (stop + 1)) fe2
      pure (some ⟨.node k start stop cs, errors2, out⟩)
    else pure none


/-! Claim C10: ValueNode::cast is total on VALUE elements. -/

/-- The value kinds recognized by the match in ValueNode::cast
(dom.rs:1581-1593). -/
def recognizedValueKind : SyntaxKind → Bool
  | .INLINE_TABLE | .ARRAY | .BOOL | .STRING | .STRING_LITERAL
  | .MULTI_LINE_STRING | .MULTI_LINE_STRING_LITERAL
  | .INTEGER | .INTEGER_BIN | .INTEGER_HEX | .INTEGER_OCT
  | .FLOAT | .DATE => true
  | _ => false

theorem except_bind_ok {α β : Type} {x : Except Fail α} {g : α → Except Fail β}
    {b : β} (h : (x >>= g) = .ok b) : ∃ a, x = .ok a ∧ g a = .ok b := by
  cases x with
  | ok a => exact ⟨a, rfl, h⟩
  | error e => simp [Bind.bind, Except.bind] at h

theorem castValueInner_none_of_unrecognized {f : Nat} {c : Stx}
    (hc : recognizedValueKind c.kind = false) {r : Option ValueNode}
    (h : castValueInner f c = .ok r) : r = none := by
  match f with
  | 0 => simp [castValueInner] at h
  | f + 1 =>
      rw [castValueInner] at h
      cases hk : c.kind <;> rw [hk] at h hc <;>
        simp_all [recognizedValueKind, pure, Except.pure]

theorem castBool_shape {c : Stx} {v : ValueNode}
    (h : castBool c = .ok (some v)) : ∃ t, v = .bool t := by
  unfold castBool at h
  cases c with
  | tok ck cst ctx =>
      cases ck <;>
        (simp_all [Stx.kind, asToken, Bind.bind, Except.bind, pure, Except.pure] <;>
          first
          | exact ⟨_, h.symm⟩
          | exact ⟨_, _, h.symm⟩
          | exact ⟨_, _, _, h.symm⟩)
  | node ck cst csp ccs =>
      cases ck <;>
        (simp_all [Stx.kind, asToken, Bind.bind, Except.bind, pure, Except.pure] <;>
          first
          | exact ⟨_, h.symm⟩
          | exact ⟨_, _, h.symm⟩
          | exact ⟨_, _, _, h.symm⟩)

theorem castFloat_shape {c : Stx} {v : ValueNode}
    (h : castFloat c = .ok (some v)) : ∃ t, v = .float t := by
  unfold castFloat at h
  cases c with
  | tok ck cst ctx =>
      cases ck <;>
        (simp_all [Stx.kind, asToken, Bind.bind, Except.bind, pure, Except.pure] <;>
          first
          | exact ⟨_, h.symm⟩
          | exact ⟨_, _, h.symm⟩
          | exact ⟨_, _, _, h.symm⟩)
  | node ck cst csp ccs =>
      cases ck <;>
        (simp_all [Stx.kind, asToken, Bind.bind, Except.bind, pure, Except.pure] <;>
          first
          | exact ⟨_, h.symm⟩
          | exact ⟨_, _, h.symm⟩
          | exact ⟨_, _, _, h.symm⟩)

theorem castDate_shape {c : Stx} {v : ValueNode}
    (h : castDate c = .ok (some v)) : ∃ t, v = .date t := by
  unfold castDate at h
  cases c with
  | tok ck cst ctx =>
      cases ck <;>
        (simp_all [Stx.kind, asToken, Bind.bind, Except.bind, pure, Except.pure] <;>
          first
          | exact ⟨_, h.symm⟩
          | exact ⟨_, _, h.symm⟩
          | exact ⟨_, _, _, h.symm⟩)
  | node ck cst csp ccs =>
      cases ck <;>
        (simp_all [Stx.kind, asToken, Bind.bind, Except.bind, pure, Except.pure] <;>
          first
          | exact ⟨_, h.symm⟩
          | exact ⟨_, _, h.symm⟩
          | exact ⟨_, _, _, h.symm⟩)

theorem castInteger_shape {c : Stx} {v : ValueNode}
    (h : castInteger c = .ok (some v)) : ∃ t r, v = .int t r := by
  unfold castInteger at h
  cases c with
  | tok ck cst ctx =>
      cases ck <;>
        (simp_all [Stx.kind, asToken, Bind.bind, Except.bind, pure, Except.pure] <;>
          first
          | exact ⟨_, h.symm⟩
          | exact ⟨_, _, h.symm⟩
          | exact ⟨_, _, _, h.symm⟩)
  | node ck cst csp ccs =>
      cases ck <;>
        (simp_all [Stx.kind, asToken, Bind.bind, Except.bind, pure, Except.pure] <;>
          first
          | exact ⟨_, h.symm⟩
          | exact ⟨_, _, h.symm⟩
          | exact ⟨_, _, _, h.symm⟩)

theorem castString_shape {c : Stx} {v : ValueNode}
    (h : castString c = .ok (some v)) : ∃ t k x, v = .str t k x := by
  unfold castString at h
  cases hk : c.kind <;> rw [hk] at h
  case STRING =>
    obtain ⟨t, ht, hg⟩ := except_bind_ok h
    generalize unescapeStr (removeSuffixStr (removePrefixStr t.tokText "\"") "\"") = u at hg
    cases u with
    | none => simp [pure, Except.pure] at hg
    | some x =>
        simp only [pure, Except.pure, Except.ok.injEq, Option.some.injEq] at hg
        exact ⟨_, _, _, hg.symm⟩
  case MULTI_LINE_STRING =>
    obtain ⟨t, ht, hg⟩ := except_bind_ok h
    generalize unescapeStr (removePrefixStr (removeSuffixStr
      (removePrefixStr t.tokText "\"\"\"") "\"\"\"") "\n") = u at hg
    cases u with
    | none => simp [pure, Except.pure] at hg
    | some x =>
        simp only [pure, Except.pure, Except.ok.injEq, Option.some.injEq] at hg
        exact ⟨_, _, _, hg.symm⟩
  case STRING_LITERAL =>
    obtain ⟨t, ht, hg⟩ := except_bind_ok h
    simp only [pure, Except.pure, Except.ok.injEq, Option.some.injEq] at hg
    exact ⟨_, _, _, hg.symm⟩
  case MULTI_LINE_STRING_LITERAL =>
    obtain ⟨t, ht, hg⟩ := except_bind_ok h
    simp only [pure, Except.pure, Except.ok.injEq, Option.some.injEq] at hg
    exact ⟨_, _, _, hg.symm⟩
  all_goals simp_all [pure, Except.pure]

theorem castValueInner_ne_empty {f : Nat} {c : Stx} {v : ValueNode}
    (h : castValueInner f c = .ok (some v)) : v ≠ .empty := by
  match f with
  | 0 => simp [castValueInner] at h
  | f + 1 =>
      rw [castValueInner] at h
      cases hk : c.kind <;> rw [hk] at h
      case INLINE_TABLE =>
        obtain ⟨t?, ht, hg⟩ := except_bind_ok h
        simp only [pure, Except.pure, Except.ok.injEq] at hg
        cases t? with
        | none => simp at hg
        | some t =>
            simp only [Option.map, Option.some.injEq] at hg
            rw [← hg]; simp
      case ARRAY =>
        obtain ⟨a?, ha, hg⟩ := except_bind_ok h
        simp only [pure, Except.pure, Except.ok.injEq] at hg
        cases a? with
        | none => simp at hg
        | some a =>
            simp only [Option.map, Option.some.injEq] at hg
            rw [← hg]; simp
      case BOOL => obtain ⟨t, rfl⟩ := castBool_shape h; simp
      case FLOAT => obtain ⟨t, rfl⟩ := castFloat_shape h; simp
      case DATE => obtain ⟨t, rfl⟩ := castDate_shape h; simp
      case STRING => obtain ⟨t, k, x, rfl⟩ := castString_shape h; simp
      case STRING_LITERAL => obtain ⟨t, k, x, rfl⟩ := castString_shape h; simp
      case MULTI_LINE_STRING => obtain ⟨t, k, x, rfl⟩ := castString_shape h; simp
      case MULTI_LINE_STRING_LITERAL =>
        obtain ⟨t, k, x, rfl⟩ := castString_shape h; simp
      case INTEGER => obtain ⟨t, r, rfl⟩ := castInteger_shape h; simp
      case INTEGER_BIN => obtain ⟨t, r, rfl⟩ := castInteger_shape h; simp
      case INTEGER_HEX => obtain ⟨t, r, rfl⟩ := castInteger_shape h; simp
      case INTEGER_OCT => obtain ⟨t, r, rfl⟩ := castInteger_shape h; simp
      all_goals simp_all [pure, Except.pure]

theorem castValue_ne_empty {f : Nat} {s : Stx} {v : ValueNode}
    (h : castValue f s = .ok (some v)) : v ≠ .empty := by
  match f, s with
  | 0, s => simp [castValue] at h
  | f + 1, .tok k st tx =>
      rw [castValue] at h
      by_cases hk : Stx.kind (.tok k st tx) = .VALUE
      · rw [if_pos hk] at h
        simp only [pure, Except.pure, Except.ok.injEq, Option.some.injEq] at h
        rw [← h]; simp
      · rw [if_neg hk] at h
        simp [pure, Except.pure] at h
  | f + 1, .node k st sp cs =>
      rw [castValue] at h
      by_cases hk : Stx.kind (.node k st sp cs) = .VALUE
      · rw [if_pos hk] at h
        cases hh : cs.head? with
        | none =>
            rw [hh] at h
            simp only [pure, Except.pure, Except.ok.injEq, Option.some.injEq] at h
            rw [← h]; simp
        | some c =>
            rw [hh] at h
            obtain ⟨a, ha, hg⟩ := except_bind_ok h
            cases a with
            | some v2 =>
                simp only [pure, Except.pure, Except.ok.injEq, Option.some.injEq] at hg
                rw [← hg]
                exact castValueInner_ne_empty ha
            | none =>
                simp only [pure, Except.pure, Except.ok.injEq, Option.some.injEq] at hg
                rw [← hg]; simp
      · rw [if_neg hk] at h
        simp [pure, Except.pure] at h

/-- C10: for every syntax element of kind VALUE, ValueNode::cast returns Some
(never None): when the first child or token is absent or not one of the
recognized value kinds the result is Invalid carrying the original element;
and every entry built by EntryNode::cast has a value (never Empty), with
Invalid(None) when there is no value node after the key. -/
theorem claim_c10 :
    (∀ (f : Nat) (s : Stx) (r : Option ValueNode), s.kind = .VALUE →
        castValue f s = .ok r → ∃ v, r = some v)
    ∧ (∀ (f : Nat) (s : Stx) (r : Option ValueNode), s.kind = .VALUE →
        (match s.firstChildOrToken with
          | none => True
          | some c => recognizedValueKind c.kind = false) →
        castValue f s = .ok r → r = some (.invalid (some s)))
    ∧ (∀ (f : Nat) (s : Stx) (e : EntryNode), castEntry f s = .ok (some e) →
        e.value ≠ .empty ∧
          (s.secondChildNode = none → e.value = .invalid none)) := by
  refine ⟨?_, ?_, ?_⟩
  · intro f s r hk h
    match f, s with
    | 0, s => simp [castValue] at h
    | f + 1, .tok k st tx =>
        rw [castValue, if_pos hk] at h
        simp only [pure, Except.pure, Except.ok.injEq] at h
        exact ⟨_, h.symm⟩
    | f + 1, .node k st sp cs =>
        rw [castValue, if_pos hk] at h
        cases hh : cs.head? with
        | none =>
            rw [hh] at h
            simp only [pure, Except.pure, Except.ok.injEq] at h
            exact ⟨_, h.symm⟩
        | some c =>
            rw [hh] at h
            obtain ⟨a, ha, hg⟩ := except_bind_ok h
            cases a with
            | some v =>
                simp only [pure, Except.pure, Except.ok.injEq] at hg
                exact ⟨v, hg.symm⟩
            | none =>
                simp only [pure, Except.pure, Except.ok.injEq] at hg
                exact ⟨_, hg.symm⟩
  · intro f s r hk hur h
    match f, s with
    | 0, s => simp [castValue] at h
    | f + 1, .tok k st tx =>
        rw [castValue, if_pos hk] at h
        simp only [pure, Except.pure, Except.ok.injEq] at h
        exact h.symm
    | f + 1, .node k st sp cs =>
        rw [castValue, if_pos hk] at h
        cases hh : cs.head? with
        | none =>
            rw [hh] at h
            simp only [pure, Except.pure, Except.ok.injEq] at h
            exact h.symm
        | some c =>
            rw [hh] at h
            simp only [Stx.firstChildOrToken, Stx.childrenWithTokens, hh] at hur
            obtain ⟨a, ha, hg⟩ := except_bind_ok h
            have hnone : a = none := castValueInner_none_of_unrecognized hur ha
            subst hnone
            simp only [pure, Except.pure, Except.ok.injEq] at hg
            exact hg.symm
  · intro f s e h
    match f, s with
    | 0, s => simp [castEntry] at h
    | f + 1, s =>
        rw [castEntry] at h
        by_cases hk : s.kind = .ENTRY
        · rw [if_pos hk] at h
          obtain ⟨n, hn, h2⟩ := except_bind_ok h
          have hsn : n = s := by
            revert hn
            cases s <;> simp [asNode, pure, Except.pure, throw, throwThe,
              MonadExceptOf.throw, Except.error]
            intro hn
            exact hn.symm
          subst hsn
          cases hck : n.firstChildOrToken.bind castKey with
          | none => rw [hck] at h2; simp [pure, Except.pure] at h2
          | some key =>
              rw [hck] at h2
              obtain ⟨v?, hv, h3⟩ := except_bind_ok h2
              simp only [pure, Except.pure, Except.ok.injEq, Option.some.injEq] at h3
              constructor
              · rw [← h3]
                cases hvv : v? with
                | none => simp [EntryNode.value, Option.getD]
                | some v =>
                    subst hvv
                    simp only [EntryNode.value, Option.getD]
                    revert hv
                    cases hsc : n.secondChildNode with
                    | none => simp [pure, Except.pure]
                    | some vn =>
                        intro hv
                        exact castValue_ne_empty hv
              · intro hnone
                rw [hnone] at hv
                simp only [pure, Except.pure, Except.ok.injEq] at hv
                rw [← h3, ← hv]
                simp [EntryNode.value, Option.getD]
        · rw [if_neg hk] at h
          simp [pure, Except.pure] at h


/-- A VALUE node whose only child is whitespace (an unrecognized kind). -/
def c10ValStx : Stx := .node .VALUE 0 1 [.tok .WHITESPACE 0 " "]

/-- An ENTRY node with a key but no value. -/
def c10EntStx : Stx := .node .ENTRY 0 1 [.node .KEY 0 1 [.tok .IDENT 0 "a"]]

/-- Extract the option result of a value cast. -/
def c10Res : Option ValueNode :=
  match castValue 5 c10ValStx with
  | .ok r => r
  | _ => none

/-- Extract an entry from a cast result. -/
def entryOfR : R (Option EntryNode) → EntryNode
  | .ok (some e) => e
  | _ => .mk (.tok .EQ 0 "") (mkKey ["z"] 0) .empty none

/-- Witness for C10 at concrete inputs. -/
theorem claim_c10_witness :
    c10Res = some (.invalid (some c10ValStx)) ∧
    (entryOfR (castEntry 5 c10EntStx)).value = .invalid none := by
  constructor
  · exact claim_c10.2.1 5 c10ValStx c10Res rfl rfl rfl
  · exact (claim_c10.2.2 5 c10EntStx (entryOfR (castEntry 5 c10EntStx)) rfl).2 rfl


/-! Claim C9: the keyless-header behavior of the lift pass. -/

/-- A valid TABLE_HEADER for the key a. -/
def c9HeaderA : Stx :=
  .node .TABLE_HEADER 0 3
    [.tok .BRACKET_START 0 "[", .node .KEY 1 2 [.tok .IDENT 1 "a"],
     .tok .BRACKET_END 2 "]"]

/-- A TABLE_HEADER with no KEY child (TOML source "[]"). -/
def c9Header : Stx :=
  .node .TABLE_HEADER 4 6 [.tok .BRACKET_START 4 "[", .tok .BRACKET_END 5 "]"]

/-- C9, evaluated at the failing input: processing a keyless header records
no error at all — TableNode::cast (dom.rs:562) already returns None for a
header without a castable key, so the lift loop skips it silently and the
Spanned "table has no key" branch (dom.rs:278) is unreachable.  The header is
indeed skipped without an entry and the prefix keeps its previous value. -/
theorem claim_c9 :
    (liftPass 10 [c9HeaderA, c9Header] initState).map
      (fun st => (st.errors, st.pfx.map (fun k => k.keysStr), st.entries.length))
      = .ok ([], some ["a"], 1) := rfl

/-! Claim C4: the header collision trichotomy of the lift pass. -/

theorem castTable_header_shape {f : Nat} {s : Stx} {t : TableNode}
    (hk : s.kind = .TABLE_HEADER ∨ s.kind = .TABLE_ARRAY_HEADER)
    (h : castTable f s = .ok (some t)) :
    t.stx = s ∧ t.array = (s.kind == SyntaxKind.TABLE_ARRAY_HEADER) ∧
      t.pseudo = false ∧ t.nextEntry = none ∧ t.entries = [] := by
  match f, s with
  | 0, s => simp [castTable] at h
  | f + 1, .tok k st tx =>
      rw [castTable] at h
      rcases hk with hk | hk <;> simp only [Stx.kind] at hk <;> subst hk <;>
        simp [Stx.kind, asNode, Bind.bind, Except.bind, throw, throwThe,
          MonadExceptOf.throw] at h
  | f + 1, .node k st sp cs =>
      rw [castTable] at h
      rcases hk with hk | hk <;> simp only [Stx.kind] at hk <;> subst hk <;>
        (simp only [Stx.kind, asNode, Bind.bind, Except.bind, pure,
           Except.pure] at h
         split at h
         · simp [pure, Except.pure] at h
         · simp only [pure, Except.pure, Except.ok.injEq, Option.some.injEq] at h
           rw [← h]
           simp [TableNode.stx, TableNode.array, TableNode.pseudo,
             TableNode.nextEntry, TableNode.entries, Stx.kind])

/-- The entry inserted for a header (dom.rs:319-338). -/
def headerEntry (t : TableNode) (k : KeyNode) : EntryNode :=
  .mk t.stx k (.table t) none

theorem liftChild_header_decomp {f : Nat} {st : LiftState} {child : Stx}
    {t : TableNode} {key0 : KeyNode} {st2 : LiftState}
    (hkind : child.kind = .TABLE_HEADER ∨ child.kind = .TABLE_ARRAY_HEADER)
    (hcast : castTable f child = .ok (some t))
    (hkey : t.stx.firstChildNode.bind castKey = some key0)
    (hrun : liftChild f st child = .ok st2) :
    ∃ scanErrs tables2,
      pushTables st.tables (liftHeaderDecision st.entries t key0).2.2
          = .ok tables2 ∧
      st2 = { entries := (liftHeaderDecision st.entries t key0).1
              prefixes := st.prefixes ++ [none]
              pfx := some (liftHeaderDecision st.entries t key0).2.2
              tables := tables2
              errors := st.errors ++ (liftHeaderDecision st.entries t key0).2.1
                ++ scanErrs } := by
  unfold liftChild at hrun
  rcases hkind with hk | hk <;> rw [hk] at hrun <;>
    (obtain ⟨t2, ht2, hrun2⟩ := except_bind_ok hrun
     rw [hcast] at ht2
     have ht2x : t2 = some t := by
       have := ht2.symm
       simpa [pure, Except.pure] using this
     subst ht2x
     obtain ⟨tr, htr, hrun3⟩ := except_bind_ok hrun2
     rw [hkey] at hrun3
     obtain ⟨scanErrs, hscan, hrun4⟩ := except_bind_ok hrun3
     obtain ⟨tables2, htb, hrun5⟩ := except_bind_ok hrun4
     simp only [pure, Except.pure, Except.ok.injEq] at hrun5
     exact ⟨scanErrs, tables2, htb, hrun5.symm⟩)

/-- C4: when a header's key matches, by eq_keys and searching the entries in
reverse order, the key of an existing entry: if both the existing entry and
the new header are arrays-of-tables a fresh entry is inserted keyed with the
existing index plus one; if exactly one of the two is an array-of-tables an
ExpectedTableArray error is emitted and nothing is inserted; if both are
plain, a DuplicateKey error is emitted and nothing is inserted.  The lift
loop's resulting state carries exactly the decision's entry map and errors. -/
theorem claim_c4 (f : Nat) (st : LiftState) (child : Stx) (t : TableNode)
    (key0 ek : KeyNode) (ee : EntryNode) (st2 : LiftState)
    (hkind : child.kind = .TABLE_HEADER ∨ child.kind = .TABLE_ARRAY_HEADER)
    (hcast : castTable f child = .ok (some t))
    (hkey : t.stx.firstChildNode.bind castKey = some key0)
    (hfind : findRevEqKeys st.entries key0 = some (ek, ee))
    (hrun : liftChild f st child = .ok st2) :
    (isTableArrayV ee.value = true → t.array = true →
      (liftHeaderDecision st.entries t key0).1 =
        insertIM st.entries (key0.withIndex (ek.index + 1))
          (headerEntry t (key0.withIndex (ek.index + 1))) ∧
      (liftHeaderDecision st.entries t key0).2.1 = [])
    ∧ (isTableArrayV ee.value = true → t.array = false →
        (liftHeaderDecision st.entries t key0).1 = st.entries ∧
        (liftHeaderDecision st.entries t key0).2.1 =
          [Error.expectedTableArray ee.key key0])
    ∧ (isTableArrayV ee.value = false → t.array = true →
        (liftHeaderDecision st.entries t key0).1 = st.entries ∧
        (liftHeaderDecision st.entries t key0).2.1 =
          [Error.expectedTableArray key0 ee.key])
    ∧ (isTableArrayV ee.value = false → t.array = false →
        (liftHeaderDecision st.entries t key0).1 = st.entries ∧
        (liftHeaderDecision st.entries t key0).2.1 =
          [Error.duplicateKey ee.key key0])
    ∧ st2.entries = (liftHeaderDecision st.entries t key0).1
    ∧ (∀ e ∈ (liftHeaderDecision st.entries t key0).2.1, e ∈ st2.errors) := by
  obtain ⟨scanErrs, tables2, htb, hst2⟩ :=
    liftChild_header_decomp hkind hcast hkey hrun
  refine ⟨?_, ?_, ?_, ?_, ?_, ?_⟩
  · intro h1 h2
    unfold liftHeaderDecision
    rw [hfind]
    simp [h1, h2, headerEntry]
  · intro h1 h2
    unfold liftHeaderDecision
    rw [hfind]
    simp [h1, h2]
  · intro h1 h2
    unfold liftHeaderDecision
    rw [hfind]
    simp [h1, h2]
  · intro h1 h2
    unfold liftHeaderDecision
    rw [hfind]
    simp [h1, h2]
  · rw [hst2]
  · intro e he
    rw [hst2]
    simp only [List.mem_append]
    exact Or.inl (Or.inr he)

/-- First array-of-tables header for x. -/
def c4Hdr1 : Stx :=
  .node .TABLE_ARRAY_HEADER 0 7
    [.tok .BRACKET_START 0 "[[", .node .KEY 2 3 [.tok .IDENT 2 "x"],
     .tok .BRACKET_END 3 "]]"]

/-- Second array-of-tables header for x. -/
def c4Hdr2 : Stx :=
  .node .TABLE_ARRAY_HEADER 8 15
    [.tok .BRACKET_START 8 "[[", .node .KEY 10 11 [.tok .IDENT 10 "x"],
     .tok .BRACKET_END 11 "]]"]

/-- Extract a lift state from a result. -/
def stOfR : R LiftState → LiftState
  | .ok st => st
  | _ => initState

/-- The lift state after the first header. -/
def c4St : LiftState := stOfR (liftPass 20 [c4Hdr1] initState)

/-- The table node cast from the second header. -/
def c4T : TableNode := .mk c4Hdr2 true false none []

/-- The key of the second header. -/
def c4Key : KeyNode :=
  ⟨.node .KEY 10 11 [.tok .IDENT 10 "x"], 0, 0, 1, [.tok .IDENT 10 "x"], 0⟩

/-- The key under which the first header was inserted. -/
def c4EK : KeyNode :=
  ⟨.node .KEY 2 3 [.tok .IDENT 2 "x"], 0, 0, 1, [.tok .IDENT 2 "x"], 0⟩

/-- The entry the first header inserted. -/
def c4EE : EntryNode :=
  .mk c4Hdr1 c4EK (.table (.mk c4Hdr1 true false none [])) none

/-- Witness for C4 at two successive array-of-tables headers for x. -/
theorem claim_c4_witness :
    (liftHeaderDecision c4St.entries c4T c4Key).1 =
      insertIM c4St.entries (c4Key.withIndex 1)
        (headerEntry c4T (c4Key.withIndex 1)) ∧
    (stOfR (liftChild 20 c4St c4Hdr2)).entries =
      (liftHeaderDecision c4St.entries c4T c4Key).1 := by
  have h := claim_c4 20 c4St c4Hdr2 c4T c4Key c4EK c4EE
    (stOfR (liftChild 20 c4St c4Hdr2)) (Or.inr rfl) rfl rfl rfl rfl
  exact ⟨(h.1 rfl rfl).1, h.2.2.2.2.1⟩


/-! Invariants of cast-produced DOM trees. -/

/-- A value that is a table with array = false (the items of every merged
array of tables). -/
def isNonArrTable : ValueNode → Prop
  | .table t => t.array = false
  | _ => False

/-- The invariant of every cast-produced DOM value: keys are mask-consistent,
no Empty values, arrays never have tables = true, tables are never pseudo. -/
def LP : NodePred where
  key := KeyNode.Wf
  emptyOk := False
  arr := fun tb _ => tb = false
  tbl := fun _ ps => ps = false

/-- The invariant established and preserved by the merge pass: keys
mask-consistent, no Empty values, every tables = true array is nonempty and
holds only tables with array = false. -/
def MP : NodePred where
  key := KeyNode.Wf
  emptyOk := False
  arr := fun tb items => tb = true → items ≠ [] ∧ ∀ v ∈ items, isNonArrTable v
  tbl := fun _ _ => True

theorem lp_le_mp : NodePredLE LP MP := by
  constructor
  · exact fun _ h => h
  · exact fun h => h.elim
  · intro tb its h htb
    rw [h] at htb
    cases htb
  · intro _ _ _
    trivial

/-! Mask-consistency is preserved by every key operation. -/

theorem wf_inner {k : KeyNode} (h : k.Wf) (n : Nat) : (KeyNode.inner k n).Wf := by
  obtain ⟨hsum, hvis⟩ := h
  have hmin : Nat.min (k.maskVisible - 1) n ≤ k.maskVisible - 1 :=
    Nat.min_le_left _ _
  unfold KeyNode.inner KeyNode.Wf
  constructor <;> simp only [] <;> omega

theorem wf_outer {k : KeyNode} (h : k.Wf) (n : Nat) : (KeyNode.outer k n).Wf := by
  obtain ⟨hsum, hvis⟩ := h
  have hmin : Nat.min (k.maskVisible - 1) (k.maskVisible - n) ≤ k.maskVisible - 1 :=
    Nat.min_le_left _ _
  unfold KeyNode.outer KeyNode.Wf
  constructor <;> simp only [] <;> omega

theorem wf_withIndex {k : KeyNode} (h : k.Wf) (i : Nat) :
    (KeyNode.withIndex k i).Wf := h

theorem wf_withoutPrefix {k : KeyNode} (h : k.Wf) (p : KeyNode) :
    (KeyNode.withoutPrefix k p).Wf := by
  simp only [KeyNode.withoutPrefix]
  split
  · exact wf_inner h _
  · exact h

theorem wf_withPrefix {k p : KeyNode} (hk : k.Wf) (hp : p.Wf) :
    (KeyNode.withPrefix k p).Wf := by
  have hkl := KeyNode.visIdents_length_of_wf k hk
  have hpl := KeyNode.visIdents_length_of_wf p hp
  unfold KeyNode.withPrefix KeyNode.Wf
  simp only [List.length_append]
  constructor
  · omega
  · have := hp.2
    omega

theorem wf_prefixKey {k : KeyNode} (h : k.Wf) : (KeyNode.prefixKey k).Wf :=
  wf_outer h _

theorem wf_lastKey {k : KeyNode} (h : k.Wf) : (KeyNode.lastKey k).Wf :=
  wf_inner h _

theorem lastKey_count {k : KeyNode} (h : 1 ≤ k.maskVisible) :
    (KeyNode.lastKey k).maskVisible = 1 := by
  unfold KeyNode.lastKey KeyNode.inner KeyNode.keyCount
  simp only []
  have : Nat.min (k.maskVisible - 1) k.maskVisible = k.maskVisible - 1 := by
    show min (k.maskVisible - 1) k.maskVisible = k.maskVisible - 1
    omega
  rw [this]
  omega

theorem prefixKey_count {k : KeyNode} (h : 2 ≤ k.maskVisible) :
    (KeyNode.prefixKey k).maskVisible = k.maskVisible - 1 := by
  unfold KeyNode.prefixKey KeyNode.outer KeyNode.keyCount
  simp only []
  have : Nat.min (k.maskVisible - 1) (k.maskVisible - (k.maskVisible - 1)) = 1 := by
    show min (k.maskVisible - 1) (k.maskVisible - (k.maskVisible - 1)) = 1
    omega
  rw [this]

theorem castKey_wf {s : Stx} {k : KeyNode} (h : castKey s = some k) :
    k.Wf ∧ k.index = 0 := by
  unfold castKey at h
  cases s with
  | tok ck cst ctx => cases h
  | node ck cst csp cs =>
      cases ck
      case KEY =>
        dsimp only [] at h
        by_cases he : (cs.filter fun c =>
            !c.isNode && c.kind == SyntaxKind.IDENT).isEmpty = true
        · rw [if_pos he] at h; cases h
        · rw [if_neg he] at h
          simp only [Option.some.injEq] at h
          subst h
          simp only [List.isEmpty_iff] at he
          exact ⟨⟨by simp, List.length_pos.mpr he⟩, rfl⟩
      all_goals cases h

/-- Every successfully cast DOM node satisfies the lift invariant LP: all
keys mask-consistent, no Empty values, no tables arrays, no pseudo tables. -/
theorem castInv : ∀ f : Nat,
    (∀ s v, castValue f s = .ok (some v) → VOk LP v)
    ∧ (∀ s v, castValueInner f s = .ok (some v) → VOk LP v)
    ∧ (∀ s a, castArray f s = .ok (some a) → VOk LP (.array a))
    ∧ (∀ s t, castTable f s = .ok (some t) → VOk LP (.table t))
    ∧ (∀ s e, castEntry f s = .ok (some e) → EOk LP e)
    ∧ (∀ cs vs, castValuesList f cs = .ok vs → ItemsOk LP vs)
    ∧ (∀ cs es, castEntriesList f cs = .ok es → EsOk LP es) := by
  intro f
  induction f with
  | zero =>
      refine ⟨?_, ?_, ?_, ?_, ?_, ?_, ?_⟩ <;> intro a b h <;>
        simp [castValue, castValueInner, castArray, castTable, castEntry,
          castValuesList, castEntriesList, throw, throwThe,
          MonadExceptOf.throw] at h
  | succ f ih =>
      obtain ⟨ihV, ihVI, ihA, ihT, ihE, ihVL, ihEL⟩ := ih
      refine ⟨?_, ?_, ?_, ?_, ?_, ?_, ?_⟩
      · -- castValue
        intro s v h
        cases s with
        | tok k st tx =>
            rw [castValue] at h
            by_cases hk : Stx.kind (.tok k st tx) = .VALUE
            · rw [if_pos hk] at h
              simp only [pure, Except.pure, Except.ok.injEq, Option.some.injEq] at h
              rw [← h]; exact .invalid _
            · rw [if_neg hk] at h; simp [pure, Except.pure] at h
        | node k st sp cs =>
            rw [castValue] at h
            by_cases hk : Stx.kind (.node k st sp cs) = .VALUE
            · rw [if_pos hk] at h
              cases hh : cs.head? with
              | none =>
                  rw [hh] at h
                  simp only [pure, Except.pure, Except.ok.injEq,
                    Option.some.injEq] at h
                  rw [← h]; exact .invalid _
              | some c =>
                  rw [hh] at h
                  obtain ⟨a, ha, hg⟩ := except_bind_ok h
                  cases a with
                  | some v2 =>
                      simp only [pure, Except.pure, Except.ok.injEq,
                        Option.some.injEq] at hg
                      rw [← hg]; exact ihVI c v2 ha
                  | none =>
                      simp only [pure, Except.pure, Except.ok.injEq,
                        Option.some.injEq] at hg
                      rw [← hg]; exact .invalid _
            · rw [if_neg hk] at h; simp [pure, Except.pure] at h
      · -- castValueInner
        intro s v h
        rw [castValueInner] at h
        cases hk : s.kind <;> rw [hk] at h
        case INLINE_TABLE =>
          obtain ⟨t?, ht, hg⟩ := except_bind_ok h
          simp only [pure, Except.pure, Except.ok.injEq] at hg
          cases t? with
          | none => simp at hg
          | some t =>
              simp only [Option.map, Option.some.injEq] at hg
              rw [← hg]; exact ihT s t ht
        case ARRAY =>
          obtain ⟨a?, ha, hg⟩ := except_bind_ok h
          simp only [pure, Except.pure, Except.ok.injEq] at hg
          cases a? with
          | none => simp at hg
          | some a =>
              simp only [Option.map, Option.some.injEq] at hg
              rw [← hg]; exact ihA s a ha
        case BOOL => obtain ⟨t, rfl⟩ := castBool_shape h; exact .bool _
        case FLOAT => obtain ⟨t, rfl⟩ := castFloat_shape h; exact .float _
        case DATE => obtain ⟨t, rfl⟩ := castDate_shape h; exact .date _
        case STRING =>
          obtain ⟨t, k2, x, rfl⟩ := castString_shape h; exact .str _ _ _
        case STRING_LITERAL =>
          obtain ⟨t, k2, x, rfl⟩ := castString_shape h; exact .str _ _ _
        case MULTI_LINE_STRING =>
          obtain ⟨t, k2, x, rfl⟩ := castString_shape h; exact .str _ _ _
        case MULTI_LINE_STRING_LITERAL =>
          obtain ⟨t, k2, x, rfl⟩ := castString_shape h; exact .str _ _ _
        case INTEGER =>
          obtain ⟨t, r, rfl⟩ := castInteger_shape h; exact .int _ _
        case INTEGER_BIN =>
          obtain ⟨t, r, rfl⟩ := castInteger_shape h; exact .int _ _
        case INTEGER_HEX =>
          obtain ⟨t, r, rfl⟩ := castInteger_shape h; exact .int _ _
        case INTEGER_OCT =>
          obtain ⟨t, r, rfl⟩ := castInteger_shape h; exact .int _ _
        all_goals simp_all [pure, Except.pure]
      · -- castArray
        intro s a h
        rw [castArray] at h
        cases hk : s.kind <;> rw [hk] at h
        case ARRAY =>
          obtain ⟨n, hn, hg⟩ := except_bind_ok h
          obtain ⟨items, hitems, hg2⟩ := except_bind_ok hg
          simp only [pure, Except.pure, Except.ok.injEq, Option.some.injEq] at hg2
          rw [← hg2]
          exact .array _ _ _ _ rfl (ihVL _ items hitems)
        case TABLE_ARRAY_HEADER =>
          obtain ⟨n, hn, hg⟩ := except_bind_ok h
          simp only [pure, Except.pure, Except.ok.injEq, Option.some.injEq] at hg
          rw [← hg]
          exact .array _ _ _ _ rfl .nil
        all_goals simp_all [pure, Except.pure]
      · -- castTable
        intro s t h
        rw [castTable] at h
        cases hk : s.kind <;> rw [hk] at h
        case TABLE_HEADER =>
          obtain ⟨n, hn, hg⟩ := except_bind_ok h
          split at hg
          · simp [pure, Except.pure] at hg
          · simp only [pure, Except.pure, Except.ok.injEq, Option.some.injEq] at hg
            rw [← hg]
            exact .table _ _ _ _ _ rfl .nil
        case TABLE_ARRAY_HEADER =>
          obtain ⟨n, hn, hg⟩ := except_bind_ok h
          split at hg
          · simp [pure, Except.pure] at hg
          · simp only [pure, Except.pure, Except.ok.injEq, Option.some.injEq] at hg
            rw [← hg]
            exact .table _ _ _ _ _ rfl .nil
        case INLINE_TABLE =>
          obtain ⟨n, hn, hg⟩ := except_bind_ok h
          obtain ⟨es, hes, hg2⟩ := except_bind_ok hg
          simp only [pure, Except.pure, Except.ok.injEq, Option.some.injEq] at hg2
          rw [← hg2]
          exact .table _ _ _ _ _ rfl (ihEL _ es hes)
        all_goals simp_all [pure, Except.pure]
      · -- castEntry
        intro s e h
        rw [castEntry] at h
        by_cases hk : s.kind = .ENTRY
        · rw [if_pos hk] at h
          obtain ⟨n, hn, h2⟩ := except_bind_ok h
          split at h2
          · simp [pure, Except.pure] at h2
          · rename_i key hkey
            obtain ⟨v?, hv, h3⟩ := except_bind_ok h2
            simp only [pure, Except.pure, Except.ok.injEq, Option.some.injEq] at h3
            rw [← h3]
            obtain ⟨c, hc, hck⟩ := Option.bind_eq_some.mp hkey
            have hkwf := (castKey_wf hck).1
            refine EOk.mk _ _ _ _ hkwf ?_
            cases v? with
            | none => exact .invalid _
            | some v2 =>
                revert hv
                cases hsc : n.secondChildNode with
                | none => intro hv; simp [pure, Except.pure] at hv
                | some vn => intro hv; exact ihV vn v2 hv
        · rw [if_neg hk] at h; simp [pure, Except.pure] at h
      · -- castValuesList
        intro cs vs h
        cases cs with
        | nil =>
            rw [castValuesList] at h
            simp only [pure, Except.pure, Except.ok.injEq] at h
            rw [← h]; exact .nil
        | cons c cs2 =>
            rw [castValuesList] at h
            obtain ⟨v?, hv, h2⟩ := except_bind_ok h
            obtain ⟨rest, hrest, h3⟩ := except_bind_ok h2
            have hrestOk := ihVL cs2 rest hrest
            cases v? with
            | some v =>
                simp only [pure, Except.pure, Except.ok.injEq] at h3
                rw [← h3]
                exact .cons (ihV c v hv) hrestOk
            | none =>
                simp only [pure, Except.pure, Except.ok.injEq] at h3
                rw [← h3]; exact hrestOk
      · -- castEntriesList
        intro cs es h
        cases cs with
        | nil =>
            rw [castEntriesList] at h
            simp only [pure, Except.pure, Except.ok.injEq] at h
            rw [← h]; exact .nil
        | cons c cs2 =>
            rw [castEntriesList] at h
            obtain ⟨e?, he, h2⟩ := except_bind_ok h
            obtain ⟨rest, hrest, h3⟩ := except_bind_ok h2
            have hrestOk := ihEL cs2 rest hrest
            cases e? with
            | some e2 =>
                simp only [pure, Except.pure, Except.ok.injEq] at h3
                rw [← h3]
                exact .cons (ihE c e2 he) hrestOk
            | none =>
                simp only [pure, Except.pure, Except.ok.injEq] at h3
                rw [← h3]; exact hrestOk


/-! Helper lemmas about the lift-state containers. -/

theorem insertIM_mem {m : List (KeyNode × EntryNode)} {k : KeyNode}
    {e : EntryNode} {ke : KeyNode × EntryNode} (h : ke ∈ insertIM m k e) :
    ke ∈ m ∨ (ke.2 = e ∧ (ke.1 = k ∨
      (KeyNode.keyEqB ke.1 k = true ∧ ∃ e0, (ke.1, e0) ∈ m))) := by
  induction m with
  | nil =>
      simp only [insertIM, List.mem_singleton] at h
      subst h
      exact Or.inr ⟨rfl, Or.inl rfl⟩
  | cons p rest ih =>
      rw [insertIM] at h
      by_cases hc : KeyNode.keyEqB p.1 k
      · rw [if_pos hc] at h
        rcases List.mem_cons.1 h with h | h
        · subst h
          exact Or.inr ⟨rfl, Or.inr ⟨hc, p.2, by simp⟩⟩
        · exact Or.inl (List.mem_cons.2 (Or.inr h))
      · rw [if_neg hc] at h
        rcases List.mem_cons.1 h with h | h
        · exact Or.inl (h ▸ List.mem_cons.2 (Or.inl rfl))
        · rcases ih h with h2 | ⟨h2, h3⟩
          · exact Or.inl (List.mem_cons.2 (Or.inr h2))
          · refine Or.inr ⟨h2, ?_⟩
            rcases h3 with h3 | ⟨heq, e0, h3⟩
            · exact Or.inl h3
            · exact Or.inr ⟨heq, e0, List.mem_cons.2 (Or.inr h3)⟩

theorem insertIM_length {m : List (KeyNode × EntryNode)} {k : KeyNode}
    {e : EntryNode} :
    m.length ≤ (insertIM m k e).length ∧
      (insertIM m k e).length ≤ m.length + 1 := by
  induction m with
  | nil => simp [insertIM]
  | cons p rest ih =>
      rw [insertIM]
      by_cases hc : KeyNode.keyEqB p.1 k
      · rw [if_pos hc]; simp
      · rw [if_neg hc]
        simp only [List.length_cons]
        omega

theorem findRevEqKeys_mem {m : List (KeyNode × EntryNode)} {k : KeyNode}
    {p : KeyNode × EntryNode} (h : findRevEqKeys m k = some p) : p ∈ m := by
  unfold findRevEqKeys at h
  have := List.find?_mem h
  exact List.mem_reverse.mp this

theorem pushTables_spec {tables : List (List KeyNode)} {key : KeyNode}
    {t2 : List (List KeyNode)} (h : pushTables tables key = .ok t2) :
    tables.length ≤ t2.length ∧ key.index < t2.length ∧
      ((∀ g ∈ tables, g ≠ []) → ∀ g ∈ t2, g ≠ []) := by
  unfold pushTables at h
  split at h
  · simp only [pure, Except.pure, Except.ok.injEq] at h
    subst h
    rename_i hlen
    refine ⟨by simp, by simp [← hlen], ?_⟩
    intro hne g hg
    rcases List.mem_append.1 hg with hg | hg
    · exact hne g hg
    · simp only [List.mem_singleton] at hg
      subst hg
      simp
  · split at h
    · simp only [pure, Except.pure, Except.ok.injEq] at h
      subst h
      rename_i hlen g0 hget
      have hidx : key.index < tables.length := by
        rcases Nat.lt_or_ge key.index tables.length with h2 | h2
        · exact h2
        · exfalso
          have := List.get?_eq_none.mpr h2
          rw [this] at hget
          cases hget
      refine ⟨by simp, by simp [hidx], ?_⟩
      intro hne g hg
      rcases List.mem_or_eq_of_mem_set hg with hg | hg
      · exact hne g hg
      · subst hg
        intro habs
        simp at habs
    · cases h

/-- Inline-table casts always come back with array = false and
pseudo = false. -/
theorem castTable_inline_shape {f : Nat} {s : Stx} {t : TableNode}
    (hk : s.kind = .INLINE_TABLE) (h : castTable f s = .ok (some t)) :
    t.array = false ∧ t.pseudo = false := by
  match f with
  | 0 => simp [castTable] at h
  | f + 1 =>
      rw [castTable, hk] at h
      obtain ⟨n, hn, hg⟩ := except_bind_ok h
      obtain ⟨es, hes, hg2⟩ := except_bind_ok hg
      simp only [pure, Except.pure, Except.ok.injEq, Option.some.injEq] at hg2
      rw [← hg2]
      exact ⟨rfl, rfl⟩

/-- The top-level value of a cast never belongs to an array of tables. -/
theorem castValueInner_not_ta {f : Nat} {c : Stx} {v : ValueNode}
    (h : castValueInner f c = .ok (some v)) : isTableArrayV v = false := by
  match f with
  | 0 => simp [castValueInner] at h
  | f + 1 =>
      rw [castValueInner] at h
      cases hk : c.kind <;> rw [hk] at h
      case INLINE_TABLE =>
        obtain ⟨t?, ht, hg⟩ := except_bind_ok h
        simp only [pure, Except.pure, Except.ok.injEq] at hg
        cases t? with
        | none => simp at hg
        | some t =>
            simp only [Option.map, Option.some.injEq] at hg
            rw [← hg]
            simp only [isTableArrayV]
            exact (castTable_inline_shape hk ht).1
      case ARRAY =>
        obtain ⟨a?, ha, hg⟩ := except_bind_ok h
        simp only [pure, Except.pure, Except.ok.injEq] at hg
        cases a? with
        | none => simp at hg
        | some a =>
            simp only [Option.map, Option.some.injEq] at hg
            rw [← hg]; rfl
      case BOOL => obtain ⟨t, rfl⟩ := castBool_shape h; rfl
      case FLOAT => obtain ⟨t, rfl⟩ := castFloat_shape h; rfl
      case DATE => obtain ⟨t, rfl⟩ := castDate_shape h; rfl
      case STRING => obtain ⟨t, k2, x, rfl⟩ := castString_shape h; rfl
      case STRING_LITERAL => obtain ⟨t, k2, x, rfl⟩ := castString_shape h; rfl
      case MULTI_LINE_STRING => obtain ⟨t, k2, x, rfl⟩ := castString_shape h; rfl
      case MULTI_LINE_STRING_LITERAL =>
        obtain ⟨t, k2, x, rfl⟩ := castString_shape h; rfl
      case INTEGER => obtain ⟨t, r, rfl⟩ := castInteger_shape h; rfl
      case INTEGER_BIN => obtain ⟨t, r, rfl⟩ := castInteger_shape h; rfl
      case INTEGER_HEX => obtain ⟨t, r, rfl⟩ := castInteger_shape h; rfl
      case INTEGER_OCT => obtain ⟨t, r, rfl⟩ := castInteger_shape h; rfl
      all_goals simp_all [pure, Except.pure]

/-- The value of a cast entry never belongs to an array of tables. -/
theorem castEntry_value_not_ta {f : Nat} {s : Stx} {e : EntryNode}
    (h : castEntry f s = .ok (some e)) : isTableArrayV e.value = false := by
  match f with
  | 0 => simp [castEntry] at h
  | f + 1 =>
      rw [castEntry] at h
      by_cases hk : s.kind = .ENTRY
      · rw [if_pos hk] at h
        obtain ⟨n, hn, h2⟩ := except_bind_ok h
        split at h2
        · simp [pure, Except.pure] at h2
        · obtain ⟨v?, hv, h3⟩ := except_bind_ok h2
          simp only [pure, Except.pure, Except.ok.injEq, Option.some.injEq] at h3
          rw [← h3]
          cases v? with
          | none => rfl
          | some v2 =>
              revert hv
              cases hsc : n.secondChildNode with
              | none => intro hv; simp [pure, Except.pure] at hv
              | some vn =>
                  intro hv
                  show isTableArrayV v2 = false
                  match f, vn with
                  | 0, vn => simp [castValue] at hv
                  | f + 1, .tok k st tx =>
                      unfold castValue at hv
                      dsimp only [] at hv
                      split at hv
                      · simp only [pure, Except.pure, Except.ok.injEq,
                          Option.some.injEq] at hv
                        rw [← hv]; rfl
                      · simp [pure, Except.pure] at hv
                  | f + 1, .node k st sp cs =>
                      unfold castValue at hv
                      dsimp only [] at hv
                      split at hv
                      · revert hv
                        cases hh : cs.head? with
                        | none =>
                            intro hv
                            simp only [pure, Except.pure, Except.ok.injEq,
                              Option.some.injEq] at hv
                            rw [← hv]; rfl
                        | some c =>
                            intro hv
                            obtain ⟨a, ha, hg⟩ := except_bind_ok hv
                            cases a with
                            | some v3 =>
                                simp only [pure, Except.pure, Except.ok.injEq,
                                  Option.some.injEq] at hg
                                rw [← hg]
                                exact castValueInner_not_ta ha
                            | none =>
                                simp only [pure, Except.pure, Except.ok.injEq,
                                  Option.some.injEq] at hg
                                rw [← hg]; rfl
                      · simp [pure, Except.pure] at hv
      · rw [if_neg hk] at h; simp [pure, Except.pure] at h


/-- PartialEq keys share their index. -/
theorem keyEqB_index {a b : KeyNode} (h : KeyNode.keyEqB a b = true) :
    a.index = b.index := by
  unfold KeyNode.keyEqB at h
  simp only [Bool.and_eq_true, beq_iff_eq] at h
  exact h.2

/-- Case split of the header collision decision: either nothing is inserted
and the key is unchanged, or a header entry is inserted under a key that is
the original or the bumped key of an existing array-of-tables entry. -/
theorem liftHeaderDecision_spec (entries : List (KeyNode × EntryNode))
    (t : TableNode) (key0 : KeyNode) :
    ((liftHeaderDecision entries t key0).1 = entries ∧
      (liftHeaderDecision entries t key0).2.2 = key0)
    ∨ ∃ k2, (liftHeaderDecision entries t key0).2.2 = k2
        ∧ (liftHeaderDecision entries t key0).1 =
            insertIM entries k2 (.mk t.stx k2 (.table t) none)
        ∧ (k2 = key0 ∨ ∃ ek ee, (ek, ee) ∈ entries ∧
            isTableArrayV ee.value = true ∧
            k2 = key0.withIndex (ek.index + 1)) := by
  unfold liftHeaderDecision
  cases hf : findRevEqKeys entries key0 with
  | none => exact Or.inr ⟨key0, rfl, rfl, Or.inl rfl⟩
  | some p =>
      obtain ⟨ek, ee⟩ := p
      dsimp only []
      by_cases h1 : (isTableArrayV ee.value && !t.array) = true
      · rw [if_pos h1]
        exact Or.inl ⟨rfl, rfl⟩
      · rw [if_neg h1]
        by_cases h2 : (!isTableArrayV ee.value && t.array) = true
        · rw [if_pos h2]
          exact Or.inl ⟨rfl, rfl⟩
        · rw [if_neg h2]
          by_cases h3 : (!isTableArrayV ee.value && !t.array) = true
          · rw [if_pos h3]
            exact Or.inl ⟨rfl, rfl⟩
          · rw [if_neg h3]
            have hex : isTableArrayV ee.value = true := by
              rcases hA : isTableArrayV ee.value <;>
                rcases hB : t.array <;> simp_all
            exact Or.inr ⟨key0.withIndex (ek.index + 1), rfl, rfl,
              Or.inr ⟨ek, ee, findRevEqKeys_mem hf, hex, rfl⟩⟩

/-- Invariant of the lift state: all stored keys are mask-consistent, entries
satisfy the cast invariant, the prefix vector is long enough, the prefix key
is mask-consistent, table-registry groups are nonempty and every
array-of-tables entry's index lies inside the registry. -/
structure LiftStInv (st : LiftState) : Prop where
  entriesOk : ∀ ke ∈ st.entries, ke.1.Wf ∧ EOk LP ke.2
  prefLen : st.entries.length ≤ st.prefixes.length
  pfxWf : ∀ k, st.pfx = some k → k.Wf
  tablesNE : ∀ g ∈ st.tables, g ≠ []
  tablesInv : ∀ ke ∈ st.entries, isTableArrayV ke.2.value = true →
    ke.1.index < st.tables.length

theorem initState_inv : LiftStInv initState := by
  constructor <;> simp [initState]

/-- The lift loop body preserves the lift-state invariant. -/
theorem liftChild_pres {f : Nat} {st : LiftState} {child : Stx}
    {st2 : LiftState} (hI : LiftStInv st)
    (hrun : liftChild f st child = .ok st2) : LiftStInv st2 := by
  unfold liftChild at hrun
  cases hk : child.kind <;> rw [hk] at hrun
  case TABLE_HEADER | TABLE_ARRAY_HEADER =>
    obtain ⟨t?, ht, hrun2⟩ := except_bind_ok hrun
    cases t? with
    | none =>
        simp only [pure, Except.pure, Except.ok.injEq] at hrun2
        rw [← hrun2]; exact hI
    | some t =>
        obtain ⟨tr, htr, hrun3⟩ := except_bind_ok hrun2
        cases hkc : t.stx.firstChildNode.bind castKey with
        | none =>
            rw [hkc] at hrun3
            simp only [pure, Except.pure, Except.ok.injEq] at hrun3
            rw [← hrun3]
            exact ⟨hI.entriesOk, hI.prefLen, hI.pfxWf, hI.tablesNE, hI.tablesInv⟩
        | some key0 =>
            rw [hkc] at hrun3
            obtain ⟨c0, hc0, hck⟩ := Option.bind_eq_some.mp hkc
            obtain ⟨hk0wf, hk0idx⟩ := castKey_wf hck
            obtain ⟨scanErrs, hscan, hrun4⟩ := except_bind_ok hrun3
            obtain ⟨tables2, htb, hrun5⟩ := except_bind_ok hrun4
            simp only [pure, Except.pure, Except.ok.injEq] at hrun5
            rw [← hrun5]
            obtain ⟨hle, hidx, hne⟩ := pushTables_spec htb
            have hTok : VOk LP (.table t) := (castInv f).2.2.2.1 child t ht
            rcases liftHeaderDecision_spec st.entries t key0 with
              ⟨hsame, hkey2⟩ | ⟨k2, hkey2, hins, hk2src⟩
            · constructor
              · intro ke hke
                rw [hsame] at hke
                exact hI.entriesOk ke hke
              · simp only [hsame, List.length_append]
                have := hI.prefLen
                simp only [List.length_append, List.length_cons,
                  List.length_nil]
                omega
              · intro k hkk
                simp only [Option.some.injEq] at hkk
                rw [← hkk, hkey2]
                exact hk0wf
              · exact hne hI.tablesNE
              · intro ke hke hta
                rw [hsame] at hke
                exact Nat.lt_of_lt_of_le (hI.tablesInv ke hke hta) hle
            · have hk2wf : k2.Wf := by
                rcases hk2src with h | ⟨ek, ee, hmem, hta, h⟩
                · rw [h]; exact hk0wf
                · rw [h]; exact wf_withIndex hk0wf _
              constructor
              · intro ke hke
                rw [hins] at hke
                rcases insertIM_mem hke with hke | ⟨hv2, hsrc⟩
                · exact hI.entriesOk ke hke
                · have hkeWf : ke.1.Wf := by
                    rcases hsrc with h | ⟨heq, e0, hmem⟩
                    · rw [h]; exact hk2wf
                    · exact (hI.entriesOk (ke.1, e0) hmem).1
                  refine ⟨hkeWf, ?_⟩
                  rw [hv2]
                  exact EOk.mk _ _ _ _ hk2wf hTok
              · rw [hins]
                have h1 := (@insertIM_length st.entries k2
                  (.mk t.stx k2 (.table t) none)).2
                have := hI.prefLen
                simp only [List.length_append, List.length_cons,
                  List.length_nil]
                omega
              · intro k hkk
                simp only [Option.some.injEq] at hkk
                rw [← hkk, hkey2]
                exact hk2wf
              · exact hne hI.tablesNE
              · intro ke hke hta
                rw [hins] at hke
                rcases insertIM_mem hke with hke | ⟨hv2, hsrc⟩
                · exact Nat.lt_of_lt_of_le (hI.tablesInv ke hke hta) hle
                · have hkeidx : ke.1.index = k2.index := by
                    rcases hsrc with h | ⟨heq, e0, hmem⟩
                    · rw [h]
                    · exact keyEqB_index heq
                  rw [hkeidx]
                  rw [hkey2] at hidx
                  exact hidx
  case ENTRY =>
    obtain ⟨e?, he, hrun2⟩ := except_bind_ok hrun
    cases e? with
    | none =>
        simp only [pure, Except.pure, Except.ok.injEq] at hrun2
        rw [← hrun2]; exact hI
    | some entry =>
        have hEk : EOk LP entry := (castInv f).2.2.2.2.1 child entry he
        have hvta : isTableArrayV entry.value = false := castEntry_value_not_ta he
        obtain ⟨tce, htce, hrun3⟩ := except_bind_ok hrun2
        have hinsWf : (liftInsertKey st.pfx entry).Wf := by
          unfold liftInsertKey
          cases hp : st.pfx with
          | none => exact eok_key hEk
          | some p => exact wf_withPrefix (eok_key hEk) (hI.pfxWf p hp)
        cases tce with
        | some tk =>
            simp only [pure, Except.pure, Except.ok.injEq] at hrun3
            rw [← hrun3]
            exact ⟨hI.entriesOk, hI.prefLen, hI.pfxWf, hI.tablesNE, hI.tablesInv⟩
        | none =>
            revert hrun3
            cases hgm : getIM st.entries (liftInsertKey st.pfx entry) with
            | some ex =>
                intro hrun3
                simp only [pure, Except.pure, Except.ok.injEq] at hrun3
                rw [← hrun3]
                exact ⟨hI.entriesOk, hI.prefLen, hI.pfxWf, hI.tablesNE,
                  hI.tablesInv⟩
            | none =>
                intro hrun3
                simp only [pure, Except.pure, Except.ok.injEq] at hrun3
                rw [← hrun3]
                constructor
                · intro ke hke
                  rcases insertIM_mem hke with hke | ⟨hv2, hsrc⟩
                  · exact hI.entriesOk ke hke
                  · have hkeWf : ke.1.Wf := by
                      rcases hsrc with h | ⟨heq, e0, hmem⟩
                      · rw [h]; exact hinsWf
                      · exact (hI.entriesOk (ke.1, e0) hmem).1
                    refine ⟨hkeWf, ?_⟩
                    rw [hv2]; exact hEk
                · have h1 := (@insertIM_length st.entries
                    (liftInsertKey st.pfx entry) entry).2
                  have := hI.prefLen
                  simp only [List.length_append, List.length_cons,
                    List.length_nil]
                  omega
                · exact hI.pfxWf
                · exact hI.tablesNE
                · intro ke hke hta
                  rcases insertIM_mem hke with hke | ⟨hv2, hsrc⟩
                  · exact hI.tablesInv ke hke hta
                  · rw [hv2, hvta] at hta
                    cases hta
  all_goals
    (simp only [pure, Except.pure, Except.ok.injEq] at hrun
     rw [← hrun]; exact hI)


/-- The whole lift loop preserves the lift-state invariant. -/
theorem liftPass_inv {f : Nat} : ∀ {cs : List Stx} {st st2 : LiftState},
    LiftStInv st → liftPass f cs st = .ok st2 → LiftStInv st2 := by
  intro cs
  induction cs with
  | nil =>
      intro st st2 hI h
      rw [liftPass] at h
      simp only [pure, Except.pure, Except.ok.injEq] at h
      rw [← h]; exact hI
  | cons c cs ih =>
      intro st st2 hI h
      rw [liftPass] at h
      obtain ⟨st1, h1, h2⟩ := except_bind_ok h
      exact ih (liftChild_pres hI h1) h2

/-! Support lemmas for the merge-pass invariant. -/

theorem vok_table_inv {P : NodePred} {s : Stx} {a ps : Bool} {ne : Option Nat}
    {es : List EntryNode} (h : VOk P (.table (.mk s a ps ne es))) :
    P.tbl a ps ∧ EsOk P es := by
  cases h with
  | table _ _ _ _ _ ht hes => exact ⟨ht, hes⟩

theorem vok_array_inv {P : NodePred} {s : Stx} {tb : Bool}
    {items : List ValueNode} {nh : Option Nat}
    (h : VOk P (.array (.mk s tb items nh))) :
    P.arr tb items ∧ ItemsOk P items := by
  cases h with
  | array _ _ _ _ ha hits => exact ⟨ha, hits⟩

theorem esOk_append {P : NodePred} {l1 l2 : List EntryNode}
    (h1 : EsOk P l1) (h2 : EsOk P l2) : EsOk P (l1 ++ l2) := by
  rw [esOk_iff_forall] at h1 h2 ⊢
  intro e he
  rcases List.mem_append.1 he with he | he
  · exact h1 e he
  · exact h2 e he

theorem itemsOk_append {P : NodePred} {l1 l2 : List ValueNode}
    (h1 : ItemsOk P l1) (h2 : ItemsOk P l2) : ItemsOk P (l1 ++ l2) := by
  rw [itemsOk_iff_forall] at h1 h2 ⊢
  intro v hv
  rcases List.mem_append.1 hv with hv | hv
  · exact h1 v hv
  · exact h2 v hv

theorem eok_withKey {P : NodePred} {e : EntryNode} {k : KeyNode}
    (h : VOk P e.value) (hk : P.key k) : EOk P (e.withKey k) := by
  cases e with
  | mk s k0 v ne => exact EOk.mk _ _ _ _ hk h

theorem eok_withValue {P : NodePred} {e : EntryNode} {v : ValueNode}
    (h : P.key e.key) (hv : VOk P v) : EOk P (e.withValue v) := by
  cases e with
  | mk s k0 v0 ne => exact EOk.mk _ _ _ _ h hv

/-- MP is preserved by the unmerged-insert transformation. -/
theorem arrayTransform_mp {v : ValueNode} (h : VOk MP v) :
    VOk MP (arrayTransform v) := by
  unfold arrayTransform
  split
  · obtain ⟨ht, hes⟩ := vok_table_inv h
    refine VOk.array _ _ _ _ ?_ ?_
    · intro _
      refine ⟨by simp, ?_⟩
      intro v2 hv2
      simp only [List.mem_singleton] at hv2
      subst hv2
      simp [isNonArrTable, TableNode.array]
    · exact ItemsOk.cons (VOk.table _ _ _ _ _ trivial hes) ItemsOk.nil
  · exact h

theorem dropLast_itemsOk {P : NodePred} {l : List ValueNode}
    (h : ItemsOk P l) : ItemsOk P l.dropLast := by
  rw [itemsOk_iff_forall] at h ⊢
  intro v hv
  exact h v (List.dropLast_subset l hv)

theorem getLast?_mem' {α : Type} {l : List α} {a : α}
    (h : l.getLast? = some a) : a ∈ l := by
  induction l with
  | nil => cases h
  | cons x xs ih =>
      cases xs with
      | nil =>
          simp only [List.getLast?_singleton, Option.some.injEq] at h
          simp [h]
      | cons y ys =>
          rw [List.getLast?_cons_cons] at h
          exact List.mem_cons.2 (Or.inr (ih h))


theorem vok_table_inv2 {P : NodePred} {t : TableNode} (h : VOk P (.table t)) :
    P.tbl t.array t.pseudo ∧ EsOk P t.entries := by
  cases t with
  | mk s a ps ne es => exact vok_table_inv h

theorem vok_array_inv2 {P : NodePred} {a : ArrayNode} (h : VOk P (.array a)) :
    P.arr a.tables a.items ∧ ItemsOk P a.items := by
  cases a with
  | mk s tb items nh => exact vok_array_inv h

/-- The merge pass establishes and preserves the invariant MP: every
tables = true array is nonempty and holds only tables with array = false,
keys stay mask-consistent and no Empty value appears. -/
theorem mergeInv : ∀ f : Nat,
    (∀ es errs out errs2, EsOk MP es →
        mergeEntries f es errs = .ok (out, errs2) → EsOk MP out)
    ∧ (∀ es acc errs out errs2, EsOk MP es → EsOk MP acc →
        mergeLoop f es acc errs = .ok (out, errs2) → EsOk MP out)
    ∧ (∀ acc e errs out ins errs2, EsOk MP acc → EOk MP e →
        mergeInto f acc e errs = .ok (out, ins, errs2) → EsOk MP out)
    ∧ (∀ old new errs old2 errs2 stp, EOk MP old → EOk MP new →
        mergeEntry f old new errs = .ok (old2, errs2, stp) → EOk MP old2)
    ∧ (∀ oldE oldArr newE oldKey newKey errs old2 errs2 stp,
        EOk MP oldE → EOk MP newE → VOk MP (.array oldArr) → newKey.Wf →
        mergeIntoLastItem f oldE oldArr newE oldKey newKey errs
          = .ok (old2, errs2, stp) → EOk MP old2) := by
  intro f
  induction f with
  | zero =>
      refine ⟨?_, ?_, ?_, ?_, ?_⟩ <;> intros <;>
        simp_all [mergeEntries, mergeLoop, mergeInto, mergeEntry,
          mergeIntoLastItem, throw, throwThe, MonadExceptOf.throw]
  | succ f ih =>
      obtain ⟨ihEs, ihLoop, ihInto, ihEntry, ihLast⟩ := ih
      refine ⟨?_, ?_, ?_, ?_, ?_⟩
      · -- mergeEntries
        intro es errs out errs2 hes h
        rw [mergeEntries] at h
        exact ihLoop es [] errs out errs2 hes EsOk.nil h
      · -- mergeLoop
        intro es acc errs out errs2 hes hacc h
        cases es with
        | nil =>
            rw [mergeLoop] at h
            simp only [pure, Except.pure, Except.ok.injEq, Prod.mk.injEq] at h
            rw [← h.1]; exact hacc
        | cons e rest =>
            rw [mergeLoop] at h
            obtain ⟨hek, hrest⟩ : EOk MP e ∧ EsOk MP rest := by
              cases hes with
              | cons h1 h2 => exact ⟨h1, h2⟩
            have he2 : EOk MP (e.withKey (e.key.withIndex 0)) :=
              eok_withKey (eok_value hek) (wf_withIndex (eok_key hek) 0)
            obtain ⟨tri, hinto, h2⟩ := except_bind_ok h
            obtain ⟨acc2, inserted, errs3⟩ := tri
            have hacc2 : EsOk MP acc2 :=
              ihInto acc (e.withKey (e.key.withIndex 0)) errs acc2 inserted
                errs3 hacc he2 hinto
            have hacc3 : EsOk MP (if inserted
                then acc2 ++ [(e.withKey (e.key.withIndex 0)).withValue
                  (arrayTransform (e.withKey (e.key.withIndex 0)).value)]
                else acc2) := by
              cases inserted
              · simpa using hacc2
              · simp only [if_true]
                refine esOk_append hacc2 (EsOk.cons ?_ EsOk.nil)
                exact eok_withValue (eok_key he2)
                  (arrayTransform_mp (eok_value he2))
            exact ihLoop rest _ errs3 out errs2 hrest hacc3 h2
      · -- mergeInto
        intro acc e errs out ins errs2 hacc he h
        cases acc with
        | nil =>
            rw [mergeInto] at h
            simp only [pure, Except.pure, Except.ok.injEq, Prod.mk.injEq] at h
            rw [← h.1]; exact EsOk.nil
        | cons x xs =>
            rw [mergeInto] at h
            obtain ⟨hx, hxs⟩ : EOk MP x ∧ EsOk MP xs := by
              cases hacc with
              | cons h1 h2 => exact ⟨h1, h2⟩
            obtain ⟨tri, hme, h2⟩ := except_bind_ok h
            obtain ⟨x2, errs3, step⟩ := tri
            have hx2 : EOk MP x2 :=
              ihEntry x e errs x2 errs3 step hx he hme
            cases step with
            | ok merged =>
                cases merged
                · obtain ⟨tri2, hinto, h3⟩ := except_bind_ok h2
                  obtain ⟨xs2, ins2, errs4⟩ := tri2
                  simp only [pure, Except.pure, Except.ok.injEq,
                    Prod.mk.injEq] at h3
                  rw [← h3.1]
                  exact EsOk.cons hx2 (ihInto xs e errs3 xs2 ins2 errs4 hxs he hinto)
                · simp only [pure, Except.pure, Except.ok.injEq,
                    Prod.mk.injEq] at h2
                  rw [← h2.1]
                  exact EsOk.cons hx2 hxs
            | err er =>
                simp only [pure, Except.pure, Except.ok.injEq,
                  Prod.mk.injEq] at h2
                rw [← h2.1]
                exact EsOk.cons hx2 hxs
      · -- mergeEntry
        intro old new errs old2 errs2 stp hOld hNew h
        rw [mergeEntry] at h
        by_cases hpo : KeyNode.isPartOf old.key new.key = true
        · rw [if_pos hpo] at h
          cases hov : old.value with
          | table t =>
              rw [hov] at h
              dsimp only [] at h
              by_cases hin : t.isInline = true
              · rw [if_pos hin] at h
                simp only [pure, Except.pure, Except.ok.injEq,
                  Prod.mk.injEq] at h
                rw [← h.1]; exact hOld
              · rw [if_neg hin] at h
                obtain ⟨pr, hm, h2⟩ := except_bind_ok h
                obtain ⟨merged, errs3⟩ := pr
                simp only [pure, Except.pure, Except.ok.injEq,
                  Prod.mk.injEq] at h2
                rw [← h2.1]
                have hvt : VOk MP (.table t) := hov ▸ eok_value hOld
                obtain ⟨htb, htes⟩ := vok_table_inv2 hvt
                have hti : EOk MP (new.withKey
                    (new.key.withoutPrefix old.key)) :=
                  eok_withKey (eok_value hNew)
                    (wf_withoutPrefix (eok_key hNew) _)
                have hin2 : EsOk MP (t.entries ++ [new.withKey
                    (new.key.withoutPrefix old.key)]) :=
                  esOk_append htes (EsOk.cons hti EsOk.nil)
                have hmerged : EsOk MP merged :=
                  ihEs _ _ merged errs3 hin2 hm
                exact eok_withValue (eok_key hOld)
                  (VOk.table _ _ _ _ _ trivial hmerged)
          | array oldArr =>
              rw [hov] at h
              dsimp only [] at h
              have hva : VOk MP (.array oldArr) := hov ▸ eok_value hOld
              by_cases hta : oldArr.tables = true
              · rw [if_neg (by simp [hta])] at h
                cases hnv : new.value with
                | table newT =>
                    rw [hnv] at h
                    dsimp only [] at h
                    by_cases heq :
                        (KeyNode.eqKeys old.key new.key && newT.array) = true
                    · rw [if_pos heq] at h
                      simp only [pure, Except.pure, Except.ok.injEq,
                        Prod.mk.injEq] at h
                      rw [← h.1]
                      refine eok_withValue (eok_key hOld) ?_
                      obtain ⟨hap, hio⟩ := vok_array_inv2 hva
                      refine VOk.array _ _ _ _ ?_ ?_
                      · intro htb
                        obtain ⟨hne2, hall⟩ := hap htb
                        refine ⟨by simp, ?_⟩
                        intro v hv
                        rcases List.mem_append.1 hv with hv | hv
                        · exact hall v hv
                        · simp only [List.mem_singleton] at hv
                          subst hv
                          simp [isNonArrTable, TableNode.array]
                      · refine itemsOk_append hio (ItemsOk.cons ?_ ItemsOk.nil)
                        refine VOk.table _ _ _ _ _ trivial ?_
                        have hvt : VOk MP (.table newT) := hnv ▸ eok_value hNew
                        exact (vok_table_inv2 hvt).2
                    · rw [if_neg heq] at h
                      exact ihLast old oldArr new old.key new.key errs old2
                        errs2 stp hOld hNew hva (eok_key hNew) h
                | empty =>
                    rw [hnv] at h
                    dsimp only [] at h
                    simp [throw, throwThe, MonadExceptOf.throw] at h
                | bool s =>
                    rw [hnv] at h
                    dsimp only [] at h
                    exact ihLast old oldArr new old.key new.key errs old2
                      errs2 stp hOld hNew hva (eok_key hNew) h
                | str s k2 c =>
                    rw [hnv] at h
                    dsimp only [] at h
                    exact ihLast old oldArr new old.key new.key errs old2
                      errs2 stp hOld hNew hva (eok_key hNew) h
                | int s r =>
                    rw [hnv] at h
                    dsimp only [] at h
                    exact ihLast old oldArr new old.key new.key errs old2
                      errs2 stp hOld hNew hva (eok_key hNew) h
                | float s =>
                    rw [hnv] at h
                    dsimp only [] at h
                    exact ihLast old oldArr new old.key new.key errs old2
                      errs2 stp hOld hNew hva (eok_key hNew) h
                | date s =>
                    rw [hnv] at h
                    dsimp only [] at h
                    exact ihLast old oldArr new old.key new.key errs old2
                      errs2 stp hOld hNew hva (eok_key hNew) h
                | array a2 =>
                    rw [hnv] at h
                    dsimp only [] at h
                    exact ihLast old oldArr new old.key new.key errs old2
                      errs2 stp hOld hNew hva (eok_key hNew) h
                | invalid o =>
                    rw [hnv] at h
                    dsimp only [] at h
                    exact ihLast old oldArr new old.key new.key errs old2
                      errs2 stp hOld hNew hva (eok_key hNew) h
              · have hfa : oldArr.tables = false := by
                  revert hta; cases oldArr.tables <;> simp
                rw [if_pos (by simp [hfa])] at h
                simp only [pure, Except.pure, Except.ok.injEq,
                  Prod.mk.injEq] at h
                rw [← h.1]; exact hOld
          | empty =>
              rw [hov] at h
              dsimp only [] at h
              simp [throw, throwThe, MonadExceptOf.throw] at h
          | bool s =>
              rw [hov] at h
              dsimp only [] at h
              simp only [pure, Except.pure, Except.ok.injEq, Prod.mk.injEq] at h
              rw [← h.1]; exact hOld
          | str s k2 c =>
              rw [hov] at h
              dsimp only [] at h
              simp only [pure, Except.pure, Except.ok.injEq, Prod.mk.injEq] at h
              rw [← h.1]; exact hOld
          | int s r =>
              rw [hov] at h
              dsimp only [] at h
              simp only [pure, Except.pure, Except.ok.injEq, Prod.mk.injEq] at h
              rw [← h.1]; exact hOld
          | float s =>
              rw [hov] at h
              dsimp only [] at h
              simp only [pure, Except.pure, Except.ok.injEq, Prod.mk.injEq] at h
              rw [← h.1]; exact hOld
          | date s =>
              rw [hov] at h
              dsimp only [] at h
              simp only [pure, Except.pure, Except.ok.injEq, Prod.mk.injEq] at h
              rw [← h.1]; exact hOld
          | invalid o =>
              rw [hov] at h
              dsimp only [] at h
              simp only [pure, Except.pure, Except.ok.injEq, Prod.mk.injEq] at h
              rw [← h.1]; exact hOld
        · rw [if_neg hpo] at h
          by_cases hpo2 : KeyNode.isPartOf new.key old.key = true
          · rw [if_pos hpo2] at h
            obtain ⟨tri, hme, h2⟩ := except_bind_ok h
            obtain ⟨newOld, errs3, step⟩ := tri
            have hnoOk : EOk MP newOld :=
              ihEntry new old errs newOld errs3 step hNew hOld hme
            cases step with
            | ok merged =>
                cases merged
                · simp only [pure, Except.pure, Except.ok.injEq,
                    Prod.mk.injEq] at h2
                  rw [← h2.1]; exact hOld
                · simp only [pure, Except.pure, Except.ok.injEq,
                    Prod.mk.injEq] at h2
                  rw [← h2.1]; exact hnoOk
            | err er =>
                simp only [pure, Except.pure, Except.ok.injEq,
                  Prod.mk.injEq] at h2
                rw [← h2.1]; exact hOld
          · rw [if_neg hpo2] at h
            by_cases hcc : 0 < KeyNode.commonPrefixCount old.key new.key
            · rw [if_pos hcc] at h
              simp only [pure, Except.pure, Except.ok.injEq, Prod.mk.injEq] at h
              rw [← h.1]
              refine EOk.mk _ _ _ _ (wf_outer (eok_key hOld) _) ?_
              refine VOk.table _ _ _ _ _ trivial ?_
              refine EsOk.cons ?_ (EsOk.cons ?_ EsOk.nil)
              · exact eok_withKey (eok_value hOld)
                  (wf_withoutPrefix (eok_key hOld) _)
              · exact eok_withKey (eok_value hNew)
                  (wf_withoutPrefix (eok_key hNew) _)
            · rw [if_neg hcc] at h
              simp only [pure, Except.pure, Except.ok.injEq, Prod.mk.injEq] at h
              rw [← h.1]; exact hOld
      · -- mergeIntoLastItem
        intro oldE oldArr newE oldKey newKey errs old2 errs2 stp
          hOld hNew hva hnk h
        rw [mergeIntoLastItem] at h
        cases hlast : oldArr.items.getLast? with
        | none =>
            rw [hlast] at h
            simp [throw, throwThe, MonadExceptOf.throw] at h
        | some lastV =>
            rw [hlast] at h
            obtain ⟨hap, hio⟩ := vok_array_inv2 hva
            have hlmem : lastV ∈ oldArr.items := getLast?_mem' hlast
            cases lastV with
            | table arrT =>
                obtain ⟨pr, hm, h2⟩ := except_bind_ok h
                obtain ⟨merged, errs3⟩ := pr
                simp only [pure, Except.pure, Except.ok.injEq,
                  Prod.mk.injEq] at h2
                rw [← h2.1]
                have hvt : VOk MP (.table arrT) :=
                  itemsOk_iff_forall.1 hio _ hlmem
                obtain ⟨htb, htes⟩ := vok_table_inv2 hvt
                have hti : EOk MP (newE.withKey
                    (newKey.withoutPrefix oldKey)) :=
                  eok_withKey (eok_value hNew) (wf_withoutPrefix hnk _)
                have hmerged : EsOk MP merged :=
                  ihEs _ _ merged errs3 (esOk_append htes
                    (EsOk.cons hti EsOk.nil)) hm
                refine eok_withValue (eok_key hOld) ?_
                refine VOk.array _ _ _ _ ?_ ?_
                · intro htb2
                  obtain ⟨hne2, hall⟩ := hap htb2
                  refine ⟨by simp, ?_⟩
                  intro v hv
                  rcases List.mem_append.1 hv with hv | hv
                  · exact hall v (List.dropLast_subset _ hv)
                  · simp only [List.mem_singleton] at hv
                    subst hv
                    have : isNonArrTable (.table arrT) := hall _ hlmem
                    simpa [isNonArrTable, TableNode.array] using this
                · refine itemsOk_append (dropLast_itemsOk hio)
                    (ItemsOk.cons ?_ ItemsOk.nil)
                  exact VOk.table _ _ _ _ _ trivial hmerged
            | bool s => simp [throw, throwThe, MonadExceptOf.throw] at h
            | str s k2 c => simp [throw, throwThe, MonadExceptOf.throw] at h
            | int s r => simp [throw, throwThe, MonadExceptOf.throw] at h
            | float s => simp [throw, throwThe, MonadExceptOf.throw] at h
            | date s => simp [throw, throwThe, MonadExceptOf.throw] at h
            | array a => simp [throw, throwThe, MonadExceptOf.throw] at h
            | invalid o => simp [throw, throwThe, MonadExceptOf.throw] at h
            | empty => simp [throw, throwThe, MonadExceptOf.throw] at h


/-- The invariant after the normalize pass: additionally every key has
exactly one visible segment. -/
def NP : NodePred where
  key := fun k => k.Wf ∧ k.keyCount = 1
  emptyOk := False
  arr := MP.arr
  tbl := fun _ _ => True

theorem keyCount_eq (k : KeyNode) : k.keyCount = k.maskVisible := rfl

theorem entryNormStep_spec (e : EntryNode) :
    (entryNormStep e).key = e.key.prefixKey ∧
    (entryNormStep e).value = .table (.mk e.key.lastKey.stx
      (isTableArrayV e.value) true none
      [.mk e.stx e.key.lastKey e.value none]) :=
  ⟨rfl, rfl⟩

/-- The while loop of EntryNode::normalize (dom.rs:1168) ends with exactly
one visible segment, a well-formed key and a value still satisfying the
merge invariant, given enough fuel. -/
theorem entryNormLoop_inv : ∀ n : Nat, ∀ e : EntryNode, e.key.Wf →
    VOk MP e.value → e.key.keyCount ≤ n →
    (entryNormLoop n e).key.Wf ∧ (entryNormLoop n e).key.keyCount = 1 ∧
      VOk MP (entryNormLoop n e).value := by
  intro n
  induction n with
  | zero =>
      intro e hk hv hle
      rw [keyCount_eq] at hle
      exact absurd hk.2 (by omega)
  | succ n ih =>
      intro e hk hv hle
      rw [entryNormLoop]
      by_cases hc : 1 < e.key.keyCount
      · rw [if_pos hc]
        obtain ⟨hkeq, hveq⟩ := entryNormStep_spec e
        have h2le : 2 ≤ e.key.maskVisible := by
          rw [keyCount_eq] at hc; omega
        refine ih (entryNormStep e) ?_ ?_ ?_
        · rw [hkeq]; exact wf_prefixKey hk
        · rw [hveq]
          refine VOk.table _ _ _ _ _ trivial (EsOk.cons ?_ EsOk.nil)
          exact EOk.mk _ _ _ _ (wf_lastKey hk) hv
        · rw [hkeq, keyCount_eq, prefixKey_count h2le]
          rw [keyCount_eq] at hle
          omega
      · rw [if_neg hc]
        have h1 : e.key.keyCount = 1 := by
          rw [keyCount_eq] at hc ⊢
          have := hk.2
          omega
        exact ⟨hk, h1, hv⟩

theorem vok_mp_not_empty {v : ValueNode} (h : VOk MP v) : v ≠ .empty := by
  intro he
  subst he
  cases h with
  | empty hf => exact hf.elim

/-- The normalize pass turns the merge invariant into NP: every key ends up
with key_count = 1 and the array-of-tables shape is kept. -/
theorem normInv : ∀ f : Nat,
    (∀ es out, EsOk MP es → normEs f es = .ok out → EsOk NP out)
    ∧ (∀ e out, EOk MP e → normE f e = .ok out → EOk NP out)
    ∧ (∀ v out, VOk MP v → normV f v = .ok out →
        VOk NP out ∧ (isNonArrTable v → isNonArrTable out))
    ∧ (∀ items out, ItemsOk MP items → normItems f items = .ok out →
        ItemsOk NP out ∧ (out = [] → items = []) ∧
        ((∀ v ∈ items, isNonArrTable v) → ∀ v ∈ out, isNonArrTable v)) := by
  intro f
  induction f with
  | zero =>
      refine ⟨?_, ?_, ?_, ?_⟩ <;> intros <;>
        simp_all [normEs, normE, normV, normItems, throw, throwThe,
          MonadExceptOf.throw]
  | succ f ih =>
      obtain ⟨ihEs, ihE, ihV, ihItems⟩ := ih
      refine ⟨?_, ?_, ?_, ?_⟩
      · -- normEs
        intro es out hes h
        cases es with
        | nil =>
            rw [normEs] at h
            simp only [pure, Except.pure, Except.ok.injEq] at h
            rw [← h]; exact EsOk.nil
        | cons e rest =>
            rw [normEs] at h
            obtain ⟨hek, hrest⟩ : EOk MP e ∧ EsOk MP rest := by
              cases hes with
              | cons h1 h2 => exact ⟨h1, h2⟩
            obtain ⟨e2, hme, h2⟩ := except_bind_ok h
            obtain ⟨rest2, hmr, h3⟩ := except_bind_ok h2
            simp only [pure, Except.pure, Except.ok.injEq] at h3
            rw [← h3]
            exact EsOk.cons (ihE e e2 hek hme) (ihEs rest rest2 hrest hmr)
      · -- normE
        intro e out he h
        rw [normE] at h
        obtain ⟨v2, hm, h2⟩ := except_bind_ok h
        simp only [pure, Except.pure, Except.ok.injEq] at h2
        rw [← h2]
        obtain ⟨hw, hc1, hv⟩ := entryNormLoop_inv e.key.keyCount e
          (eok_key he) (eok_value he) le_rfl
        exact eok_withValue ⟨hw, hc1⟩ (ihV _ v2 hv hm).1
      · -- normV
        intro v out hv h
        cases v with
        | table t =>
            cases t with
            | mk s a p ne es =>
                rw [normV] at h
                obtain ⟨es2, hm, h2⟩ := except_bind_ok h
                simp only [pure, Except.pure, Except.ok.injEq] at h2
                rw [← h2]
                obtain ⟨htb, hes⟩ := vok_table_inv hv
                refine ⟨VOk.table _ _ _ _ _ trivial (ihEs es es2 hes hm), ?_⟩
                intro hna
                simpa [isNonArrTable, TableNode.array] using hna
        | array a =>
            cases a with
            | mk s tb items nh =>
                rw [normV] at h
                obtain ⟨items2, hm, h2⟩ := except_bind_ok h
                simp only [pure, Except.pure, Except.ok.injEq] at h2
                rw [← h2]
                obtain ⟨hap, hio⟩ := vok_array_inv hv
                obtain ⟨hok, hemp, htrans⟩ := ihItems items items2 hio hm
                refine ⟨VOk.array _ _ _ _ ?_ hok, fun hna => hna.elim⟩
                intro htb2
                obtain ⟨hne2, hall⟩ := hap htb2
                exact ⟨fun hh => hne2 (hemp hh), htrans hall⟩
        | empty => exact (vok_mp_not_empty hv rfl).elim
        | bool s =>
            simp only [normV, pure, Except.pure, Except.ok.injEq] at h
            rw [← h]; exact ⟨VOk.bool s, fun hh => hh⟩
        | str s k2 c =>
            simp only [normV, pure, Except.pure, Except.ok.injEq] at h
            rw [← h]; exact ⟨VOk.str s k2 c, fun hh => hh⟩
        | int s r =>
            simp only [normV, pure, Except.pure, Except.ok.injEq] at h
            rw [← h]; exact ⟨VOk.int s r, fun hh => hh⟩
        | float s =>
            simp only [normV, pure, Except.pure, Except.ok.injEq] at h
            rw [← h]; exact ⟨VOk.float s, fun hh => hh⟩
        | date s =>
            simp only [normV, pure, Except.pure, Except.ok.injEq] at h
            rw [← h]; exact ⟨VOk.date s, fun hh => hh⟩
        | invalid o =>
            simp only [normV, pure, Except.pure, Except.ok.injEq] at h
            rw [← h]; exact ⟨VOk.invalid o, fun hh => hh⟩
      · -- normItems
        intro items out hio h
        cases items with
        | nil =>
            rw [normItems] at h
            simp only [pure, Except.pure, Except.ok.injEq] at h
            rw [← h]
            exact ⟨ItemsOk.nil, fun _ => rfl, by intro _ v hv; simp at hv⟩
        | cons v vs =>
            rw [normItems] at h
            obtain ⟨hvk, hvs⟩ : VOk MP v ∧ ItemsOk MP vs := by
              cases hio with
              | cons h1 h2 => exact ⟨h1, h2⟩
            obtain ⟨v2, hmv, h2⟩ := except_bind_ok h
            obtain ⟨vs2, hms, h3⟩ := except_bind_ok h2
            simp only [pure, Except.pure, Except.ok.injEq] at h3
            rw [← h3]
            obtain ⟨hv2, hvtr⟩ := ihV v v2 hvk hmv
            obtain ⟨hvs2, hemp, htr⟩ := ihItems vs vs2 hvs hms
            refine ⟨ItemsOk.cons hv2 hvs2, ?_, ?_⟩
            · intro hh; simp at hh
            intro hall w hw
            rcases List.mem_cons.1 hw with hw | hw
            · subst hw
              exact hvtr (hall v (List.mem_cons_self v vs))
            · exact htr (fun u hu => hall u (List.mem_cons_of_mem v hu)) w hw


/-- The span pass only rewrites next_entry / next_header_start fields: it
preserves any of the structural invariants, provided the invariant's array
condition only depends on emptiness and the non-array-table shape of the
items. -/
theorem spansInv (P : NodePred)
    (harr : ∀ tb (items items2 : List ValueNode), P.arr tb items →
      items2.length = items.length →
      ((∀ v ∈ items, isNonArrTable v) → ∀ v ∈ items2, isNonArrTable v) →
      P.arr tb items2) :
    ∀ f : Nat,
    (∀ root endO es out, EsOk P es → spansEs f root endO es = .ok out →
        EsOk P out)
    ∧ (∀ root endO e out, EOk P e → spansE f root endO e = .ok out →
        EOk P out)
    ∧ (∀ root endO a out, VOk P (.array a) → spansArr f root endO a = .ok out →
        VOk P (.array out))
    ∧ (∀ root endO items out, ItemsOk P items →
        spansItems f root endO items = .ok out →
        ItemsOk P out ∧ out.length = items.length ∧
        ((∀ v ∈ items, isNonArrTable v) → ∀ v ∈ out, isNonArrTable v)) := by
  intro f
  induction f with
  | zero =>
      refine ⟨?_, ?_, ?_, ?_⟩ <;> intros <;>
        simp_all [spansEs, spansE, spansArr, spansItems, throw, throwThe,
          MonadExceptOf.throw]
  | succ f ih =>
      obtain ⟨ihEs, ihE, ihArr, ihItems⟩ := ih
      refine ⟨?_, ?_, ?_, ?_⟩
      · -- spansEs
        intro root endO es out hes h
        cases es with
        | nil =>
            rw [spansEs] at h
            simp only [pure, Except.pure, Except.ok.injEq] at h
            rw [← h]; exact EsOk.nil
        | cons e rest =>
            rw [spansEs] at h
            obtain ⟨hek, hrest⟩ : EOk P e ∧ EsOk P rest := by
              cases hes with
              | cons h1 h2 => exact ⟨h1, h2⟩
            obtain ⟨e2, hme, h2⟩ := except_bind_ok h
            obtain ⟨rest2, hmr, h3⟩ := except_bind_ok h2
            simp only [pure, Except.pure, Except.ok.injEq] at h3
            rw [← h3]
            exact EsOk.cons (ihE root endO e e2 hek hme)
              (ihEs root endO rest rest2 hrest hmr)
      · -- spansE
        intro root endO e out he h
        cases e with
        | mk s k v ne =>
            have hk : P.key k := eok_key he
            have hv : VOk P v := eok_value he
            cases v with
            | table t =>
                cases t with
                | mk ts ta tp tne tes =>
                    rw [spansE] at h
                    obtain ⟨v2, hm, h2⟩ := except_bind_ok h
                    obtain ⟨tes2, hms, h3⟩ := except_bind_ok hm
                    simp only [pure, Except.pure, Except.ok.injEq] at h2 h3
                    rw [← h2, ← h3]
                    obtain ⟨htb, htes⟩ := vok_table_inv hv
                    exact EOk.mk _ _ _ _ hk (VOk.table _ _ _ _ _ htb
                      (ihEs root endO tes tes2 htes hms))
            | array arr =>
                rw [spansE] at h
                by_cases hta : arr.tables = true
                · rw [if_pos hta] at h
                  obtain ⟨v2, hm, h2⟩ := except_bind_ok h
                  obtain ⟨arr2, hma, h3⟩ := except_bind_ok hm
                  simp only [pure, Except.pure, Except.ok.injEq] at h2 h3
                  rw [← h2, ← h3]
                  exact EOk.mk _ _ _ _ hk (ihArr root endO arr arr2 hv hma)
                · rw [if_neg hta] at h
                  obtain ⟨v2, hm, h2⟩ := except_bind_ok h
                  simp only [pure, Except.pure, Except.ok.injEq] at h2 hm
                  rw [← h2, ← hm]
                  exact EOk.mk _ _ _ _ hk hv
            | empty =>
                simp only [spansE] at h
                obtain ⟨v2, hm, h2⟩ := except_bind_ok h
                simp only [pure, Except.pure, Except.ok.injEq] at h2 hm
                rw [← h2, ← hm]
                exact EOk.mk _ _ _ _ hk hv
            | bool st =>
                simp only [spansE] at h
                obtain ⟨v2, hm, h2⟩ := except_bind_ok h
                simp only [pure, Except.pure, Except.ok.injEq] at h2 hm
                rw [← h2, ← hm]
                exact EOk.mk _ _ _ _ hk hv
            | str st k2 c =>
                simp only [spansE] at h
                obtain ⟨v2, hm, h2⟩ := except_bind_ok h
                simp only [pure, Except.pure, Except.ok.injEq] at h2 hm
                rw [← h2, ← hm]
                exact EOk.mk _ _ _ _ hk hv
            | int st r =>
                simp only [spansE] at h
                obtain ⟨v2, hm, h2⟩ := except_bind_ok h
                simp only [pure, Except.pure, Except.ok.injEq] at h2 hm
                rw [← h2, ← hm]
                exact EOk.mk _ _ _ _ hk hv
            | float st =>
                simp only [spansE] at h
                obtain ⟨v2, hm, h2⟩ := except_bind_ok h
                simp only [pure, Except.pure, Except.ok.injEq] at h2 hm
                rw [← h2, ← hm]
                exact EOk.mk _ _ _ _ hk hv
            | date st =>
                simp only [spansE] at h
                obtain ⟨v2, hm, h2⟩ := except_bind_ok h
                simp only [pure, Except.pure, Except.ok.injEq] at h2 hm
                rw [← h2, ← hm]
                exact EOk.mk _ _ _ _ hk hv
            | invalid o =>
                simp only [spansE] at h
                obtain ⟨v2, hm, h2⟩ := except_bind_ok h
                simp only [pure, Except.pure, Except.ok.injEq] at h2 hm
                rw [← h2, ← hm]
                exact EOk.mk _ _ _ _ hk hv
      · -- spansArr
        intro root endO a out hv h
        cases a with
        | mk s tb items nh =>
            rw [spansArr] at h
            by_cases htb : tb = true
            · rw [if_neg (by simp [htb])] at h
              obtain ⟨items2, hms, h2⟩ := except_bind_ok h
              simp only [pure, Except.pure, Except.ok.injEq] at h2
              rw [← h2]
              obtain ⟨hap, hio⟩ := vok_array_inv hv
              obtain ⟨hok, hlen, htr⟩ := ihItems root endO items items2 hio hms
              exact VOk.array _ _ _ _ (harr tb items items2 hap hlen htr) hok
            · have hf : tb = false := by revert htb; cases tb <;> simp
              rw [if_pos (by simp [hf])] at h
              simp only [pure, Except.pure, Except.ok.injEq] at h
              rw [← h]; exact hv
      · -- spansItems
        intro root endO items out hio h
        cases items with
        | nil =>
            rw [spansItems] at h
            simp only [pure, Except.pure, Except.ok.injEq] at h
            rw [← h]
            exact ⟨ItemsOk.nil, rfl, by intro _ v hv; simp at hv⟩
        | cons v vs =>
            obtain ⟨hvk, hvs⟩ : VOk P v ∧ ItemsOk P vs := by
              cases hio with
              | cons h1 h2 => exact ⟨h1, h2⟩
            cases v with
            | table t =>
                cases t with
                | mk ts ta tp tne tes =>
                    rw [spansItems] at h
                    obtain ⟨tes2, hms, h2⟩ := except_bind_ok h
                    obtain ⟨vs2, hmr, h3⟩ := except_bind_ok h2
                    simp only [pure, Except.pure, Except.ok.injEq] at h3
                    rw [← h3]
                    obtain ⟨htb, htes⟩ := vok_table_inv hvk
                    obtain ⟨hok, hlen, htr⟩ := ihItems root endO vs vs2 hvs hmr
                    refine ⟨ItemsOk.cons (VOk.table _ _ _ _ _ htb
                      (ihEs root endO tes tes2 htes hms)) hok, by simp [hlen], ?_⟩
                    intro hall w hw
                    rcases List.mem_cons.1 hw with hw | hw
                    · subst hw
                      have : isNonArrTable (.table (.mk ts ta tp tne tes)) :=
                        hall _ (List.mem_cons_self _ _)
                      simpa [isNonArrTable, TableNode.array] using this
                    · exact htr (fun u hu =>
                        hall u (List.mem_cons_of_mem _ hu)) w hw
            | bool st => simp [spansItems, throw, throwThe, MonadExceptOf.throw] at h
            | str st k2 c => simp [spansItems, throw, throwThe, MonadExceptOf.throw] at h
            | int st r => simp [spansItems, throw, throwThe, MonadExceptOf.throw] at h
            | float st => simp [spansItems, throw, throwThe, MonadExceptOf.throw] at h
            | date st => simp [spansItems, throw, throwThe, MonadExceptOf.throw] at h
            | array a2 => simp [spansItems, throw, throwThe, MonadExceptOf.throw] at h
            | invalid o => simp [spansItems, throw, throwThe, MonadExceptOf.throw] at h
            | empty => simp [spansItems, throw, throwThe, MonadExceptOf.throw] at h

/-! Assembly of the pipeline claims. -/

theorem isEmpty_false_of_ne_nil {α : Type} {l : List α} (h : l ≠ []) :
    l.isEmpty = false := by
  cases l with
  | nil => exact absurd rfl h
  | cons x xs => rfl

/-- The entries handed to the merge pass satisfy the cast invariant. -/
theorem fromMap_lp {st : LiftState} (hI : LiftStInv st) :
    EsOk LP (fromMap st.entries) := by
  rw [esOk_iff_forall]
  intro e he
  simp only [fromMap, List.mem_map] at he
  obtain ⟨ke, hke, hee⟩ := he
  rw [← hee]
  obtain ⟨hw, hek⟩ := hI.entriesOk ke hke
  exact eok_withKey (eok_value hek) hw

/-- Decomposition of RootNode::cast on a ROOT node: the lift state, the
conditional merge + normalize, and the span pass. -/
theorem rootCast_decomp {f : Nat} {start stop : Nat}
    {cs : List Stx} {root : RootNode}
    (h : rootCast f (.node .ROOT start stop cs) = .ok (some root)) :
    ∃ st, liftPass f cs initState = .ok st ∧
      root.stx = .node .ROOT start stop cs ∧
      ((st.errors ++ extraChecks (groupByIndex st.entries)).isEmpty = true →
        ∃ m errsM n,
          mergeEntries f (fromMap st.entries)
            (st.errors ++ extraChecks (groupByIndex st.entries))
            = .ok (m, errsM) ∧
          normEs f m = .ok n ∧
          spansEs f (.node .ROOT start stop cs) (some (stop + 1)) n
            = .ok root.entries ∧ root.errors = errsM)
      ∧ ((st.errors ++ extraChecks (groupByIndex st.entries)).isEmpty = false →
        spansEs f (.node .ROOT start stop cs) (some (stop + 1))
          (fromMap st.entries) = .ok root.entries ∧
        root.errors = st.errors ++ extraChecks (groupByIndex st.entries)) := by
  rw [rootCast] at h
  rw [if_pos rfl] at h
  obtain ⟨st, hst, h2⟩ := except_bind_ok h
  dsimp only [] at h2
  refine ⟨st, hst, ?_⟩
  by_cases he : (st.errors ++ extraChecks (groupByIndex st.entries)).isEmpty
      = true
  · rw [if_pos he] at h2
    obtain ⟨pr, hmn, h3⟩ := except_bind_ok h2
    obtain ⟨pr2, hmg, h4⟩ := except_bind_ok hmn
    obtain ⟨m, errsM⟩ := pr2
    obtain ⟨n, hn, h5⟩ := except_bind_ok h4
    simp only [pure, Except.pure, Except.ok.injEq] at h5
    rw [← h5] at h3
    obtain ⟨out, hout, h6⟩ := except_bind_ok h3
    simp only [pure, Except.pure, Except.ok.injEq, Option.some.injEq] at h6
    rw [← h6]
    refine ⟨rfl, ?_, ?_⟩
    · intro _
      exact ⟨m, errsM, n, hmg, hn, hout, rfl⟩
    · intro hcon
      rw [he] at hcon
      cases hcon
  · rw [if_neg he] at h2
    have hef : (st.errors ++ extraChecks (groupByIndex st.entries)).isEmpty
        = false := by
      revert he
      cases (st.errors ++ extraChecks (groupByIndex st.entries)).isEmpty <;>
        simp
    obtain ⟨pr, hpr, h3⟩ := except_bind_ok h2
    simp only [pure, Except.pure, Except.ok.injEq] at hpr
    rw [← hpr] at h3
    obtain ⟨out, hout, h6⟩ := except_bind_ok h3
    simp only [pure, Except.pure, Except.ok.injEq, Option.some.injEq] at h6
    rw [← h6]
    refine ⟨rfl, ?_, ?_⟩
    · intro hcon
      rw [hef] at hcon
      cases hcon
    · intro _
      exact ⟨hout, rfl⟩

/-- Absence of pseudo tables, as a structural condition on the tree. -/
def PseudoFree : NodePred where
  key := fun _ => True
  emptyOk := True
  arr := fun _ _ => True
  tbl := fun _ ps => ps = false

theorem lp_le_pseudoFree : NodePredLE LP PseudoFree where
  key := fun _ _ => trivial
  emptyOk := fun _ => trivial
  arr := fun _ _ _ => trivial
  tbl := fun _ _ hp => hp

/-- Every entry key has exactly one visible segment, as a structural
condition on the tree. -/
def KeyCount1 : NodePred where
  key := fun k => k.keyCount = 1
  emptyOk := True
  arr := fun _ _ => True
  tbl := fun _ _ => True

theorem np_le_kc1 : NodePredLE NP KeyCount1 where
  key := fun _ h => h.2
  emptyOk := fun _ => trivial
  arr := fun _ _ _ => trivial
  tbl := fun _ _ _ => trivial

/-- Every tables = true array holds only tables with array = false, as a
structural condition on the tree. -/
def ArrOfTables : NodePred where
  key := fun _ => True
  emptyOk := True
  arr := fun tb items => tb = true → ∀ v ∈ items, isNonArrTable v
  tbl := fun _ _ => True

theorem mp_le_arrOfTables : NodePredLE MP ArrOfTables where
  key := fun _ _ => trivial
  emptyOk := fun _ => trivial
  arr := fun _ _ h htb => (h htb).2
  tbl := fun _ _ _ => trivial

theorem lp_harr : ∀ tb (items items2 : List ValueNode), LP.arr tb items →
    items2.length = items.length →
    ((∀ v ∈ items, isNonArrTable v) → ∀ v ∈ items2, isNonArrTable v) →
    LP.arr tb items2 :=
  fun _ _ _ hp _ _ => hp

theorem np_harr : ∀ tb (items items2 : List ValueNode), NP.arr tb items →
    items2.length = items.length →
    ((∀ v ∈ items, isNonArrTable v) → ∀ v ∈ items2, isNonArrTable v) →
    NP.arr tb items2 := by
  intro tb items items2 hp hlen htr htb
  obtain ⟨hne, hall⟩ := hp htb
  refine ⟨?_, htr hall⟩
  intro h0
  rw [h0] at hlen
  exact hne (List.eq_nil_of_length_eq_zero hlen.symm)

/-- C1: when the lift pass records an error, the merge and normalize passes
do not run: the resulting entries are the span pass applied directly to the
lifted entries, and no table in the tree is pseudo; when the lift pass
records no error, merge and normalize both run before the span pass. -/
theorem claim_c1 (f start stop : Nat) (cs : List Stx) (st : LiftState)
    (root : RootNode)
    (hroot : rootCast f (.node .ROOT start stop cs) = .ok (some root))
    (hlift : liftPass f cs initState = .ok st) :
    ((st.errors ++ extraChecks (groupByIndex st.entries)) ≠ [] →
      spansEs f (.node .ROOT start stop cs) (some (stop + 1))
        (fromMap st.entries) = .ok root.entries ∧
      EsOk PseudoFree root.entries)
    ∧ ((st.errors ++ extraChecks (groupByIndex st.entries)) = [] →
      ∃ m errsM n,
        mergeEntries f (fromMap st.entries) [] = .ok (m, errsM) ∧
        normEs f m = .ok n ∧
        spansEs f (.node .ROOT start stop cs) (some (stop + 1)) n
          = .ok root.entries) := by
  obtain ⟨st2, hst2, hstx, hthen, helse⟩ := rootCast_decomp hroot
  rw [hlift] at hst2
  simp only [Except.ok.injEq] at hst2
  rw [← hst2] at hthen helse
  constructor
  · intro hne
    obtain ⟨hspans, herrs⟩ := helse (isEmpty_false_of_ne_nil hne)
    refine ⟨hspans, ?_⟩
    have hlp : EsOk LP (fromMap st.entries) :=
      fromMap_lp (liftPass_inv initState_inv hlift)
    exact esOkMono lp_le_pseudoFree
      ((spansInv LP lp_harr f).1 _ _ _ _ hlp hspans)
  · intro heq
    obtain ⟨m, errsM, n, hmg, hn, hout, _⟩ := hthen (by rw [heq]; rfl)
    rw [heq] at hmg
    exact ⟨m, errsM, n, hmg, hn, hout⟩

/-- C2: when the lift pass records no error, every entry key anywhere in the
resulting tree has key_count exactly 1 after RootNode::cast completes. -/
theorem claim_c2 (f start stop : Nat) (cs : List Stx) (st : LiftState)
    (root : RootNode)
    (hroot : rootCast f (.node .ROOT start stop cs) = .ok (some root))
    (hlift : liftPass f cs initState = .ok st)
    (herr : st.errors ++ extraChecks (groupByIndex st.entries) = []) :
    EsOk KeyCount1 root.entries := by
  obtain ⟨st2, hst2, hstx, hthen, helse⟩ := rootCast_decomp hroot
  rw [hlift] at hst2
  simp only [Except.ok.injEq] at hst2
  rw [← hst2] at hthen
  obtain ⟨m, errsM, n, hmg, hn, hout, _⟩ := hthen (by rw [herr]; rfl)
  have hlp : EsOk LP (fromMap st.entries) :=
    fromMap_lp (liftPass_inv initState_inv hlift)
  have hmp : EsOk MP m :=
    (mergeInv f).1 _ _ _ _ (esOkMono lp_le_mp hlp) hmg
  have hnp : EsOk NP n := (normInv f).1 _ _ hmp hn
  exact esOkMono np_le_kc1 ((spansInv NP np_harr f).1 _ _ _ _ hnp hout)

/-- C3: the merge pass leaves every tables = true array holding only tables
with array = false, for any entry list satisfying the lift-pass invariant. -/
theorem claim_c3 (f : Nat) (es out : List EntryNode) (errs errs2 : List Error)
    (hes : EsOk LP es)
    (h : mergeEntries f es errs = .ok (out, errs2)) :
    EsOk ArrOfTables out :=
  esOkMono mp_le_arrOfTables
    ((mergeInv f).1 es errs out errs2 (esOkMono lp_le_mp hes) h)


/-- Extract the root node of a successful cast. -/
def rootOfR : R (Option RootNode) → RootNode
  | .ok (some r) => r
  | _ => ⟨.tok .EQ 0 "", [], []⟩

/-- First plain header for d. -/
def c1Hdr1 : Stx :=
  .node .TABLE_HEADER 0 3
    [.tok .BRACKET_START 0 "[", .node .KEY 1 2 [.tok .IDENT 1 "d"],
     .tok .BRACKET_END 2 "]"]

/-- Second plain header for d, a duplicate. -/
def c1Hdr2 : Stx :=
  .node .TABLE_HEADER 4 7
    [.tok .BRACKET_START 4 "[", .node .KEY 5 6 [.tok .IDENT 5 "d"],
     .tok .BRACKET_END 6 "]"]

/-- The lift state for the duplicated header document. -/
def c1St : LiftState := stOfR (liftPass 20 [c1Hdr1, c1Hdr2] initState)

/-- The cast result for the duplicated header document. -/
def c1Root : RootNode :=
  rootOfR (rootCast 20 (.node .ROOT 0 8 [c1Hdr1, c1Hdr2]))

/-- Witness for C1 at a document with two [d] headers: the lift pass records
a DuplicateKey error, so the entries are the span pass applied directly to
the lifted entries and the tree is pseudo-free. -/
theorem claim_c1_witness :
    spansEs 20 (.node .ROOT 0 8 [c1Hdr1, c1Hdr2]) (some 9)
      (fromMap c1St.entries) = .ok c1Root.entries ∧
    EsOk PseudoFree c1Root.entries :=
  (claim_c1 20 0 8 [c1Hdr1, c1Hdr2] c1St c1Root rfl rfl).1
    (fun hcon => absurd (congrArg List.length hcon) (by decide))

/-- An entry a.b = 1. -/
def c2Entry : Stx :=
  .node .ENTRY 0 7
    [.node .KEY 0 3
      [.tok .IDENT 0 "a", .tok .PERIOD 1 ".", .tok .IDENT 2 "b"],
     .tok .EQ 4 "=", .node .VALUE 6 7 [.tok .INTEGER 6 "1"]]

/-- The lift state for the dotted-entry document. -/
def c2St : LiftState := stOfR (liftPass 30 [c2Entry] initState)

/-- The cast result for the dotted-entry document. -/
def c2Root : RootNode := rootOfR (rootCast 30 (.node .ROOT 0 8 [c2Entry]))

/-- Witness for C2 on a.b = 1: the lift records no error and every key in
the result has exactly one visible segment. -/
theorem claim_c2_witness : EsOk KeyCount1 c2Root.entries :=
  claim_c2 30 0 8 [c2Entry] c2St c2Root rfl rfl rfl

/-- Key for the merge witness. -/
def c3Key : KeyNode := mkKey ["t"] 0

/-- An entry as the lift pass produces it for a [[t]] header: a table
flagged as an array member. -/
def c3Entry : EntryNode :=
  .mk (mkIdent "t") c3Key (.table (.mk (mkIdent "t") true false none [])) none

/-- Extract a successful merge result. -/
def mergeOfR : R (List EntryNode × List Error) → List EntryNode × List Error
  | .ok pr => pr
  | _ => ([], [])

/-- The merged entries for the single [[t]] header. -/
def c3Out : List EntryNode := (mergeOfR (mergeEntries 5 [c3Entry] [])).1

/-- Witness for C3: merging the lifted [[t]] entry creates the tables = true
array, and the invariant holds on the output. -/
theorem claim_c3_witness : EsOk ArrOfTables c3Out :=
  claim_c3 5 [c3Entry] c3Out [] (mergeOfR (mergeEntries 5 [c3Entry] [])).2
    (EsOk.cons (EOk.mk _ _ _ _ (show c3Key.Wf by decide)
      (VOk.table _ _ _ _ _ rfl EsOk.nil)) EsOk.nil)
    rfl


/-! Claim C5: panic freedom of the whole cast pipeline on well-formed syntax
trees. -/

/-- The syntax kinds represented as nodes by the parser; all other kinds are
tokens. -/
def nodeKind : SyntaxKind → Bool
  | .ROOT | .TABLE_HEADER | .TABLE_ARRAY_HEADER | .ENTRY | .KEY | .VALUE
  | .ARRAY | .INLINE_TABLE => true
  | _ => false

mutual

/-- A well-formed syntax element: node kinds are nodes, token kinds are
tokens, recursively. -/
def wfStx : Stx → Bool
  | .tok k _ _ => !nodeKind k
  | .node k _ _ cs => nodeKind k && wfList cs

/-- All elements of the list are well-formed. -/
def wfList : List Stx → Bool
  | [] => true
  | c :: cs => wfStx c && wfList cs

end

theorem wfList_mem : ∀ {cs : List Stx}, wfList cs = true →
    ∀ {c : Stx}, c ∈ cs → wfStx c = true := by
  intro cs
  induction cs with
  | nil => intro _ c hc; cases hc
  | cons x xs ih =>
      intro hw c hc
      rw [wfList, Bool.and_eq_true] at hw
      rcases List.mem_cons.1 hc with hc | hc
      · rw [hc]; exact hw.1
      · exact ih hw.2 hc

theorem wf_node_iff {k : SyntaxKind} {a b : Nat} {cs : List Stx} :
    wfStx (.node k a b cs) = true ↔ nodeKind k = true ∧ wfList cs = true := by
  rw [wfStx, Bool.and_eq_true]

theorem wf_childrenWithTokens {s : Stx} (hw : wfStx s = true) :
    wfList s.childrenWithTokens = true := by
  cases s with
  | tok k st t => rfl
  | node k a b cs => exact (wf_node_iff.1 hw).2

theorem wf_mem_children {s c : Stx} (hw : wfStx s = true)
    (hc : c ∈ s.childrenWithTokens) : wfStx c = true :=
  wfList_mem (wf_childrenWithTokens hw) hc

/-- The embedding's failure discipline: a result that is an error can only be
fuel exhaustion, never a Rust panic. -/
def fuelErrOnly {α : Type} (x : R α) : Prop :=
  ∀ e, x = .error e → e = Fail.fuelOut

theorem fe_pure {α : Type} (a : α) : fuelErrOnly (pure a) := by
  intro e h
  simp [pure, Except.pure] at h

theorem fe_ok {α : Type} (a : α) : fuelErrOnly (Except.ok a : R α) := by
  intro e h
  cases h

theorem fe_throwFuel {α : Type} : fuelErrOnly (throw Fail.fuelOut : R α) := by
  intro e h
  simp only [throw, throwThe, MonadExceptOf.throw, Except.error.injEq] at h
  exact h.symm

theorem fe_bind {α β : Type} {x : R α} {g : α → R β} (hx : fuelErrOnly x)
    (hg : ∀ a, x = .ok a → fuelErrOnly (g a)) : fuelErrOnly (x >>= g) := by
  intro e h
  cases hx2 : x with
  | ok a =>
      rw [hx2] at h
      have hge : g a = .error e := by
        simpa [Bind.bind, Except.bind] using h
      exact hg a hx2 e hge
  | error e2 =>
      rw [hx2] at h
      have he2 : e2 = e := by
        simpa [Bind.bind, Except.bind, Except.error.injEq] using h
      exact he2 ▸ hx e2 hx2

theorem castInteger_fe {s : Stx} (hw : wfStx s = true) :
    fuelErrOnly (castInteger s) := by
  intro e h
  cases s with
  | tok k st t =>
      unfold castInteger at h
      split at h <;>
        simp_all [Stx.kind, asToken, Bind.bind, Except.bind, pure, Except.pure]
  | node k a b cs =>
      unfold castInteger at h
      split at h <;>
        simp_all [Stx.kind, asToken, Bind.bind, Except.bind, pure, Except.pure,
          wfStx, nodeKind]

theorem castBool_fe {s : Stx} (hw : wfStx s = true) :
    fuelErrOnly (castBool s) := by
  intro e h
  cases s with
  | tok k st t =>
      unfold castBool at h
      split at h <;>
        simp_all [Stx.kind, asToken, Bind.bind, Except.bind, pure, Except.pure]
  | node k a b cs =>
      unfold castBool at h
      split at h <;>
        simp_all [Stx.kind, asToken, Bind.bind, Except.bind, pure, Except.pure,
          wfStx, nodeKind]

theorem castFloat_fe {s : Stx} (hw : wfStx s = true) :
    fuelErrOnly (castFloat s) := by
  intro e h
  cases s with
  | tok k st t =>
      unfold castFloat at h
      split at h <;>
        simp_all [Stx.kind, asToken, Bind.bind, Except.bind, pure, Except.pure]
  | node k a b cs =>
      unfold castFloat at h
      split at h <;>
        simp_all [Stx.kind, asToken, Bind.bind, Except.bind, pure, Except.pure,
          wfStx, nodeKind]

theorem castDate_fe {s : Stx} (hw : wfStx s = true) :
    fuelErrOnly (castDate s) := by
  intro e h
  cases s with
  | tok k st t =>
      unfold castDate at h
      split at h <;>
        simp_all [Stx.kind, asToken, Bind.bind, Except.bind, pure, Except.pure]
  | node k a b cs =>
      unfold castDate at h
      split at h <;>
        simp_all [Stx.kind, asToken, Bind.bind, Except.bind, pure, Except.pure,
          wfStx, nodeKind]

theorem castString_fe {s : Stx} (hw : wfStx s = true) :
    fuelErrOnly (castString s) := by
  intro e h
  cases s with
  | tok k st t =>
      unfold castString at h
      split at h <;>
        simp_all [Stx.kind, asToken, Bind.bind, Except.bind, pure,
          Except.pure] <;>
        split at h <;> simp_all
  | node k a b cs =>
      unfold castString at h
      split at h <;>
        simp_all [Stx.kind, asToken, Bind.bind, Except.bind, pure, Except.pure,
          wfStx, nodeKind] <;>
        split at h <;> simp_all


theorem head?_mem {α : Type} {l : List α} {a : α} (h : l.head? = some a) :
    a ∈ l := by
  cases l with
  | nil => cases h
  | cons x xs =>
      simp only [List.head?, Option.some.injEq] at h
      rw [← h]
      exact List.mem_cons_self x xs

theorem asNode_ok_of_wf {s : Stx} (hw : wfStx s = true)
    (hk : nodeKind s.kind = true) : asNode s = .ok s := by
  cases s with
  | tok k st t =>
      rw [wfStx] at hw
      rw [Stx.kind] at hk
      rw [hk] at hw
      cases hw
  | node k a b cs => rfl

theorem wf_secondChild {s vn : Stx} (hw : wfStx s = true)
    (h : s.secondChildNode = some vn) : wfStx vn = true := by
  have hmem : vn ∈ s.childNodes := by
    unfold Stx.secondChildNode at h
    exact List.get?_mem h
  unfold Stx.childNodes at hmem
  exact wf_mem_children hw (List.mem_of_mem_filter hmem)

/-- None of the casts can panic on a well-formed syntax element: the only
possible failure is fuel exhaustion of the embedding. -/
theorem castNoPanic : ∀ f : Nat,
    (∀ s, wfStx s = true → fuelErrOnly (castValue f s))
    ∧ (∀ s, wfStx s = true → fuelErrOnly (castValueInner f s))
    ∧ (∀ s, wfStx s = true → fuelErrOnly (castArray f s))
    ∧ (∀ s, wfStx s = true → fuelErrOnly (castTable f s))
    ∧ (∀ s, wfStx s = true → fuelErrOnly (castEntry f s))
    ∧ (∀ cs, wfList cs = true → fuelErrOnly (castValuesList f cs))
    ∧ (∀ cs, wfList cs = true → fuelErrOnly (castEntriesList f cs)) := by
  intro f
  induction f with
  | zero =>
      refine ⟨?_, ?_, ?_, ?_, ?_, ?_, ?_⟩ <;> intro x hx e h <;>
        simp_all [castValue, castValueInner, castArray, castTable, castEntry,
          castValuesList, castEntriesList, throw, throwThe,
          MonadExceptOf.throw, Except.error.injEq]
  | succ f ih =>
      obtain ⟨ihV, ihVI, ihA, ihT, ihE, ihVL, ihEL⟩ := ih
      refine ⟨?_, ?_, ?_, ?_, ?_, ?_, ?_⟩
      · -- castValue
        intro s hw
        unfold castValue
        split
        · split
          · exact fe_pure _
          · split
            · exact fe_pure _
            · rename_i k a b cs c heq
              refine fe_bind (ihVI c ?_) ?_
              · exact wf_mem_children hw (by
                  rw [Stx.childrenWithTokens]
                  exact head?_mem heq)
              · intro r _
                split
                · exact fe_pure _
                · exact fe_pure _
        · exact fe_pure _
      · -- castValueInner
        intro s hw
        rw [castValueInner]
        split
        all_goals first
          | exact fe_bind (ihT s hw) (fun _ _ => fe_pure _)
          | exact fe_bind (ihA s hw) (fun _ _ => fe_pure _)
          | exact castBool_fe hw
          | exact castString_fe hw
          | exact castInteger_fe hw
          | exact castFloat_fe hw
          | exact castDate_fe hw
          | exact fe_pure _
      · -- castArray
        intro s hw
        rw [castArray]
        split
        all_goals try exact fe_pure _
        all_goals rename_i heq
        all_goals
          have hnk : nodeKind s.kind = true := by
            first
              | (rw [heq]; rfl)
              | (rw [← heq]; rfl)
        all_goals rw [asNode_ok_of_wf hw hnk]
        all_goals refine fe_bind (fe_ok s) ?_
        all_goals intro n hn
        all_goals simp only [Except.ok.injEq] at hn
        all_goals subst hn
        all_goals first
          | exact fe_bind (ihVL _ (wf_childrenWithTokens hw))
              (fun _ _ => fe_pure _)
          | exact fe_pure _
      · -- castTable
        intro s hw
        rw [castTable]
        split
        all_goals try exact fe_pure _
        all_goals rename_i heq
        all_goals
          have hnk : nodeKind s.kind = true := by
            first
              | (rw [heq]; rfl)
              | (rw [← heq]; rfl)
        all_goals rw [asNode_ok_of_wf hw hnk]
        all_goals refine fe_bind (fe_ok s) ?_
        all_goals intro n hn
        all_goals simp only [Except.ok.injEq] at hn
        all_goals subst hn
        all_goals first
          | (split <;> exact fe_pure _)
          | exact fe_bind (ihEL _ (wf_childrenWithTokens hw))
              (fun _ _ => fe_pure _)
      · -- castEntry
        intro s hw
        rw [castEntry]
        split
        · rename_i heq
          rw [asNode_ok_of_wf hw (by rw [heq]; rfl)]
          refine fe_bind (fe_ok s) ?_
          intro n hn
          simp only [Except.ok.injEq] at hn
          subst hn
          split
          · exact fe_pure _
          · refine fe_bind ?_ ?_
            · split
              · exact fe_pure _
              · rename_i vn hvn
                exact ihV vn (wf_secondChild hw hvn)
            · intro v _
              exact fe_pure _
        · exact fe_pure _
      · -- castValuesList
        intro cs hw
        cases cs with
        | nil => rw [castValuesList]; exact fe_pure _
        | cons c rest =>
            rw [castValuesList]
            rw [wfList, Bool.and_eq_true] at hw
            refine fe_bind (ihV c hw.1) ?_
            intro v? _
            refine fe_bind (ihVL rest hw.2) ?_
            intro r _
            split
            · exact fe_pure _
            · exact fe_pure _
      · -- castEntriesList
        intro cs hw
        cases cs with
        | nil => rw [castEntriesList]; exact fe_pure _
        | cons c rest =>
            rw [castEntriesList]
            rw [wfList, Bool.and_eq_true] at hw
            refine fe_bind (ihE c hw.1) ?_
            intro e? _
            refine fe_bind (ihEL rest hw.2) ?_
            intro r _
            split
            · exact fe_pure _
            · exact fe_pure _


theorem fe_of_ok {α : Type} {x : R α} {a : α} (h : x = .ok a) :
    fuelErrOnly x := by
  intro e he
  rw [h] at he
  cases he

theorem getLast?_isSome_of_find {α : Type} {g : List α} {p : α → Bool}
    {a : α} (h : g.find? p = some a) : ∃ b, g.getLast? = some b := by
  cases g with
  | nil => simp [List.find?] at h
  | cons x xs =>
      exact ⟨(x :: xs).getLast (by simp), List.getLast?_eq_getLast _ (by simp)⟩

theorem tableTextRange_nil_ok {s : Stx} {ar ps : Bool} {ne : Option Nat} :
    ∃ r, tableTextRange (.mk s ar ps ne []) = .ok r :=
  ⟨(match ne with
    | some o => coverOff (s.startOff, s.endOff) o
    | none => (s.startOff, s.endOff)), rfl⟩

/-- The clash scan of the lift pass stays in bounds, hence cannot panic. -/
theorem topScanGo_ok {entries : List (KeyNode × EntryNode)}
    {prefixes : List (Option KeyNode)} {key : KeyNode} :
    ∀ n, n ≤ entries.length → n ≤ prefixes.length →
    ∃ errs, topScanGo entries prefixes key n = .ok errs := by
  intro n
  induction n with
  | zero => exact fun _ _ => ⟨[], rfl⟩
  | succ i ih =>
      intro h1 h2
      obtain ⟨p, hp⟩ : ∃ p, entries.get? i = some p := by
        cases hp : entries.get? i with
        | none =>
            have := List.get?_eq_none.1 hp
            omega
        | some p => exact ⟨p, rfl⟩
      obtain ⟨q, hq⟩ : ∃ q, prefixes.get? i = some q := by
        cases hq : prefixes.get? i with
        | none =>
            have := List.get?_eq_none.1 hq
            omega
        | some q => exact ⟨q, rfl⟩
      obtain ⟨rest, hrest⟩ := ih (by omega) (by omega)
      cases hrun : topScanGo entries prefixes key (i + 1) with
      | ok errs => exact ⟨errs, rfl⟩
      | error e =>
          rw [topScanGo, hp, hq, hrest] at hrun
          simp [Bind.bind, Except.bind, pure, Except.pure] at hrun

/-- The per-index table registry access of the lift pass stays in bounds. -/
theorem pushTables_ok {tables : List (List KeyNode)} {key : KeyNode}
    (h : key.index ≤ tables.length) :
    ∃ t2, pushTables tables key = .ok t2 := by
  unfold pushTables
  by_cases he : tables.length = key.index
  · rw [if_pos he]
    exact ⟨_, rfl⟩
  · rw [if_neg he]
    obtain ⟨g, hg⟩ : ∃ g, tables.get? key.index = some g := by
      cases hg : tables.get? key.index with
      | none =>
          have := List.get?_eq_none.1 hg
          omega
      | some g => exact ⟨g, rfl⟩
    rw [hg]
    exact ⟨_, rfl⟩


/-- One lift-loop iteration cannot panic on a well-formed child when the
lift-state invariant holds. -/
theorem liftChild_fe {f : Nat} {st : LiftState} {child : Stx}
    (hI : LiftStInv st) (hw : wfStx child = true) :
    fuelErrOnly (liftChild f st child) := by
  unfold liftChild
  split
  case h_1 heq | h_2 heq =>
    refine fe_bind ((castNoPanic f).2.2.2.1 child hw) ?_
    intro t? ht
    split
    · exact fe_pure _
    · rename_i t
      have hsh := castTable_header_shape
        (by first
          | exact Or.inl heq
          | exact Or.inr heq
          | exact Or.inl heq.symm
          | exact Or.inr heq.symm) ht
      cases t with
      | mk ts ta tps tne tes =>
          have htes : tes = [] := hsh.2.2.2.2
          subst htes
          obtain ⟨r0, hr0⟩ := @tableTextRange_nil_ok ts ta tps tne
          refine fe_bind (fe_of_ok hr0) ?_
          intro trange _
          split
          · exact fe_pure _
          · rename_i key0 hkey
            dsimp only [] at hkey ⊢
            have hidx0 : key0.index = 0 := by
              obtain ⟨kn, hkn, hck⟩ := Option.bind_eq_some.1 hkey
              exact (castKey_wf hck).2
            have hlen : (liftHeaderDecision st.entries
                (TableNode.mk ts ta tps tne []) key0).1.length
                ≤ st.entries.length + 1 := by
              rcases liftHeaderDecision_spec st.entries
                  (TableNode.mk ts ta tps tne []) key0 with
                ⟨he1, _⟩ | ⟨k2, _, hins, _⟩
              · rw [he1]; omega
              · rw [hins]; exact insertIM_length.2
            have hidx : (liftHeaderDecision st.entries
                (TableNode.mk ts ta tps tne []) key0).2.2.index
                ≤ st.tables.length := by
              rcases liftHeaderDecision_spec st.entries
                  (TableNode.mk ts ta tps tne []) key0 with
                ⟨_, hk⟩ | ⟨k2, hk, _, hcase⟩
              · rw [hk, hidx0]; omega
              · rw [hk]
                rcases hcase with hk2 | ⟨ek, ee, hmem, harr, hk2⟩
                · rw [hk2, hidx0]; omega
                · rw [hk2]
                  have h5 := hI.tablesInv (ek, ee) hmem harr
                  dsimp only [] at h5
                  simp only [KeyNode.withIndex]
                  omega
            obtain ⟨scanErrs, hscan⟩ := @topScanGo_ok
              (liftHeaderDecision st.entries
                (TableNode.mk ts ta tps tne []) key0).1
              st.prefixes
              (liftHeaderDecision st.entries
                (TableNode.mk ts ta tps tne []) key0).2.2
              ((liftHeaderDecision st.entries
                (TableNode.mk ts ta tps tne []) key0).1.length - 1)
              (by omega)
              (by have := hI.prefLen; omega)
            refine fe_bind (fe_of_ok hscan) ?_
            intro scanErrs2 _
            obtain ⟨tables2, hpush⟩ := pushTables_ok hidx
            refine fe_bind (fe_of_ok hpush) ?_
            intro tables3 _
            exact fe_pure _
  case h_3 heq =>
    refine fe_bind ((castNoPanic f).2.2.2.2.1 child hw) ?_
    intro e? he
    split
    · exact fe_pure _
    · rename_i entry
      refine fe_bind ?_ ?_
      · split
        · exact fe_pure _
        · split
          · exact fe_pure _
          · split
            · exact fe_pure _
            · rename_i g tk hfind
              split
              · rename_i hlast
                obtain ⟨b, hb⟩ := getLast?_isSome_of_find hfind
                rw [hb] at hlast
                cases hlast
              · exact fe_pure _
      · intro tce _
        split
        · exact fe_pure _
        · split
          · exact fe_pure _
          · exact fe_pure _
  case h_4 => exact fe_pure _

/-- The lift pass cannot panic on well-formed children. -/
theorem liftPass_fe {f : Nat} : ∀ {cs : List Stx} {st : LiftState},
    LiftStInv st → wfList cs = true → fuelErrOnly (liftPass f cs st) := by
  intro cs
  induction cs with
  | nil =>
      intro st _ _
      rw [liftPass]
      exact fe_pure _
  | cons c rest ih =>
      intro st hI hw
      rw [wfList, Bool.and_eq_true] at hw
      rw [liftPass]
      refine fe_bind (liftChild_fe hI hw.1) ?_
      intro st1 h1
      exact ih (liftChild_pres hI h1) hw.2


/-- The merge pass cannot panic on entries satisfying the merge invariant:
the Empty-value and non-table-array-item panic branches are unreachable. -/
theorem mergeNoPanic : ∀ f : Nat,
    (∀ es errs, EsOk MP es → fuelErrOnly (mergeEntries f es errs))
    ∧ (∀ es acc errs, EsOk MP es → EsOk MP acc →
        fuelErrOnly (mergeLoop f es acc errs))
    ∧ (∀ acc e errs, EsOk MP acc → EOk MP e →
        fuelErrOnly (mergeInto f acc e errs))
    ∧ (∀ old new errs, EOk MP old → EOk MP new →
        fuelErrOnly (mergeEntry f old new errs))
    ∧ (∀ oldE oldArr newE oldKey newKey errs, EOk MP oldE → EOk MP newE →
        VOk MP (.array oldArr) → oldArr.tables = true → newKey.Wf →
        fuelErrOnly (mergeIntoLastItem f oldE oldArr newE oldKey newKey errs)) := by
  intro f
  induction f with
  | zero =>
      refine ⟨?_, ?_, ?_, ?_, ?_⟩ <;> intros <;>
        first
          | (rw [mergeEntries]; exact fe_throwFuel)
          | (rw [mergeLoop]; exact fe_throwFuel)
          | (rw [mergeInto]; exact fe_throwFuel)
          | (rw [mergeEntry]; exact fe_throwFuel)
          | (rw [mergeIntoLastItem]; exact fe_throwFuel)
  | succ f ih =>
      obtain ⟨ihEs, ihLoop, ihInto, ihEntry, ihLast⟩ := ih
      refine ⟨?_, ?_, ?_, ?_, ?_⟩
      · -- mergeEntries
        intro es errs hes
        rw [mergeEntries]
        exact ihLoop es [] errs hes EsOk.nil
      · -- mergeLoop
        intro es acc errs hes hacc
        cases es with
        | nil => rw [mergeLoop]; exact fe_pure _
        | cons e rest =>
            rw [mergeLoop]
            obtain ⟨hek, hrest⟩ : EOk MP e ∧ EsOk MP rest := by
              cases hes with
              | cons h1 h2 => exact ⟨h1, h2⟩
            have he2 : EOk MP (e.withKey (e.key.withIndex 0)) :=
              eok_withKey (eok_value hek) (wf_withIndex (eok_key hek) 0)
            refine fe_bind (ihInto acc _ errs hacc he2) ?_
            intro tri htri
            obtain ⟨acc2, ins, errs2⟩ := tri
            dsimp only []
            have hacc2 : EsOk MP acc2 :=
              (mergeInv f).2.2.1 acc _ errs acc2 ins errs2 hacc he2 htri
            cases ins
            · rw [if_neg (by simp)]
              exact ihLoop rest acc2 errs2 hrest hacc2
            · rw [if_pos rfl]
              refine ihLoop rest _ errs2 hrest ?_
              refine esOk_append hacc2 (EsOk.cons ?_ EsOk.nil)
              exact eok_withValue (eok_key he2)
                (arrayTransform_mp (eok_value he2))
      · -- mergeInto
        intro acc e errs hacc he
        cases acc with
        | nil => rw [mergeInto]; exact fe_pure _
        | cons x xs =>
            rw [mergeInto]
            obtain ⟨hx, hxs⟩ : EOk MP x ∧ EsOk MP xs := by
              cases hacc with
              | cons h1 h2 => exact ⟨h1, h2⟩
            refine fe_bind (ihEntry x e errs hx he) ?_
            intro tri htri
            obtain ⟨x2, errs2, step⟩ := tri
            dsimp only []
            split
            · exact fe_pure _
            · refine fe_bind (ihInto xs e errs2 hxs he) ?_
              intro tri2 _
              exact fe_pure _
            · exact fe_pure _
      · -- mergeEntry
        intro old new errs hOld hNew
        rw [mergeEntry]
        dsimp only []
        split
        · split
          · -- table
            rename_i t heq
            split
            · exact fe_pure _
            · have hvt : VOk MP (.table t) := heq ▸ eok_value hOld
              obtain ⟨_, htes⟩ := vok_table_inv2 hvt
              refine fe_bind (ihEs _ errs ?_) ?_
              · refine esOk_append htes (EsOk.cons ?_ EsOk.nil)
                exact eok_withKey (eok_value hNew)
                  (wf_withoutPrefix (eok_key hNew) _)
              · intro pr _
                exact fe_pure _
          · -- array
            rename_i oldArr heq
            have hva : VOk MP (.array oldArr) := heq ▸ eok_value hOld
            split
            · exact fe_pure _
            · rename_i hnt
              have hta : oldArr.tables = true := by
                revert hnt
                cases oldArr.tables <;> simp
              split
              · split
                · exact fe_pure _
                · exact ihLast old oldArr new old.key new.key errs hOld hNew
                    hva hta (eok_key hNew)
              · rename_i newT hnv
                exact absurd rfl
                  (vok_mp_not_empty (hnv ▸ eok_value hNew))
              · exact ihLast old oldArr new old.key new.key errs hOld hNew
                  hva hta (eok_key hNew)
          · -- empty
            rename_i heq
            exact absurd rfl (vok_mp_not_empty (heq ▸ eok_value hOld))
          · exact fe_pure _
        · split
          · refine fe_bind (ihEntry new old errs hNew hOld) ?_
            intro tri _
            obtain ⟨newOld, errs2, step⟩ := tri
            dsimp only []
            split
            · exact fe_pure _
            · exact fe_pure _
            · exact fe_pure _
          · split
            · exact fe_pure _
            · exact fe_pure _
      · -- mergeIntoLastItem
        intro oldE oldArr newE oldKey newKey errs hOld hNew hva hta hnk
        rw [mergeIntoLastItem]
        obtain ⟨hap, hio⟩ := vok_array_inv2 hva
        obtain ⟨hne, hall⟩ := hap hta
        split
        · rename_i arrT hlast
          have hvt : VOk MP (.table arrT) :=
            itemsOk_iff_forall.1 hio _ (getLast?_mem' hlast)
          obtain ⟨_, htes⟩ := vok_table_inv2 hvt
          refine fe_bind (ihEs _ errs ?_) ?_
          · refine esOk_append htes (EsOk.cons ?_ EsOk.nil)
            exact eok_withKey (eok_value hNew) (wf_withoutPrefix hnk _)
          · intro pr _
            exact fe_pure _
        all_goals rename_i hlast
        all_goals try
          exact absurd (hall _ (getLast?_mem' hlast)) (by simp [isNonArrTable])
        all_goals
          exact absurd (List.getLast?_eq_none_iff.1 hlast) hne


/-- The normalize pass never panics: its only failure is fuel exhaustion. -/
theorem normNoPanic : ∀ f : Nat,
    (∀ es, fuelErrOnly (normEs f es))
    ∧ (∀ e, fuelErrOnly (normE f e))
    ∧ (∀ v, fuelErrOnly (normV f v))
    ∧ (∀ items, fuelErrOnly (normItems f items)) := by
  intro f
  induction f with
  | zero =>
      refine ⟨?_, ?_, ?_, ?_⟩ <;> intros <;>
        first
          | (rw [normEs]; exact fe_throwFuel)
          | (rw [normE]; exact fe_throwFuel)
          | (rw [normV]; exact fe_throwFuel)
          | (rw [normItems]; exact fe_throwFuel)
  | succ f ih =>
      obtain ⟨ihEs, ihE, ihV, ihItems⟩ := ih
      refine ⟨?_, ?_, ?_, ?_⟩
      · intro es
        cases es with
        | nil => rw [normEs]; exact fe_pure _
        | cons e rest =>
            rw [normEs]
            exact fe_bind (ihE e) (fun _ _ =>
              fe_bind (ihEs rest) (fun _ _ => fe_pure _))
      · intro e
        rw [normE]
        exact fe_bind (ihV _) (fun _ _ => fe_pure _)
      · intro v
        cases v with
        | table t =>
            cases t with
            | mk s a p ne es =>
                rw [normV]
                exact fe_bind (ihEs es) (fun _ _ => fe_pure _)
        | array a =>
            cases a with
            | mk s tb items nh =>
                rw [normV]
                exact fe_bind (ihItems items) (fun _ _ => fe_pure _)
        | empty => simp only [normV]; exact fe_pure _
        | bool s => simp only [normV]; exact fe_pure _
        | str s k c => simp only [normV]; exact fe_pure _
        | int s r => simp only [normV]; exact fe_pure _
        | float s => simp only [normV]; exact fe_pure _
        | date s => simp only [normV]; exact fe_pure _
        | invalid o => simp only [normV]; exact fe_pure _
      · intro items
        cases items with
        | nil => rw [normItems]; exact fe_pure _
        | cons v vs =>
            rw [normItems]
            exact fe_bind (ihV v) (fun _ _ =>
              fe_bind (ihItems vs) (fun _ _ => fe_pure _))

/-- The span pass never panics on a tree whose tables = true arrays hold
only tables: the expected-table panic branch is unreachable. -/
theorem spansNoPanic (P : NodePred)
    (hypP : ∀ tb items, P.arr tb items → tb = true →
      ∀ v ∈ items, isNonArrTable v) :
    ∀ f : Nat,
    (∀ root endO es, EsOk P es → fuelErrOnly (spansEs f root endO es))
    ∧ (∀ root endO e, EOk P e → fuelErrOnly (spansE f root endO e))
    ∧ (∀ root endO a, VOk P (.array a) → fuelErrOnly (spansArr f root endO a))
    ∧ (∀ root endO items, ItemsOk P items →
        (∀ v ∈ items, isNonArrTable v) →
        fuelErrOnly (spansItems f root endO items)) := by
  intro f
  induction f with
  | zero =>
      refine ⟨?_, ?_, ?_, ?_⟩ <;> intros <;>
        first
          | (rw [spansEs]; exact fe_throwFuel)
          | (rw [spansE]; exact fe_throwFuel)
          | (rw [spansArr]; exact fe_throwFuel)
          | (rw [spansItems]; exact fe_throwFuel)
  | succ f ih =>
      obtain ⟨ihEs, ihE, ihArr, ihItems⟩ := ih
      refine ⟨?_, ?_, ?_, ?_⟩
      · intro root endO es hes
        cases es with
        | nil => rw [spansEs]; exact fe_pure _
        | cons e rest =>
            rw [spansEs]
            obtain ⟨hek, hrest⟩ : EOk P e ∧ EsOk P rest := by
              cases hes with
              | cons h1 h2 => exact ⟨h1, h2⟩
            exact fe_bind (ihE root endO e hek) (fun _ _ =>
              fe_bind (ihEs root endO rest hrest) (fun _ _ => fe_pure _))
      · intro root endO e he
        cases e with
        | mk s k v ne =>
            have hv : VOk P v := eok_value he
            cases v with
            | table t =>
                cases t with
                | mk ts ta tp tne tes =>
                    rw [spansE]
                    obtain ⟨_, htes⟩ := vok_table_inv hv
                    exact fe_bind (fe_bind (ihEs root endO tes htes)
                        (fun _ _ => fe_pure _))
                      (fun _ _ => fe_pure _)
            | array arr =>
                rw [spansE]
                refine fe_bind ?_ (fun _ _ => fe_pure _)
                split
                · exact fe_bind (ihArr root endO arr hv)
                    (fun _ _ => fe_pure _)
                · exact fe_pure _
            | empty =>
                simp only [spansE]
                exact fe_bind (fe_pure _) (fun _ _ => fe_pure _)
            | bool st =>
                simp only [spansE]
                exact fe_bind (fe_pure _) (fun _ _ => fe_pure _)
            | str st k2 c =>
                simp only [spansE]
                exact fe_bind (fe_pure _) (fun _ _ => fe_pure _)
            | int st r =>
                simp only [spansE]
                exact fe_bind (fe_pure _) (fun _ _ => fe_pure _)
            | float st =>
                simp only [spansE]
                exact fe_bind (fe_pure _) (fun _ _ => fe_pure _)
            | date st =>
                simp only [spansE]
                exact fe_bind (fe_pure _) (fun _ _ => fe_pure _)
            | invalid o =>
                simp only [spansE]
                exact fe_bind (fe_pure _) (fun _ _ => fe_pure _)
      · intro root endO a hv
        cases a with
        | mk s tb items nh =>
            rw [spansArr]
            split
            · exact fe_pure _
            · rename_i hnt
              have htb : tb = true := by
                revert hnt
                cases tb <;> simp
              obtain ⟨hap, hio⟩ := vok_array_inv hv
              refine fe_bind (ihItems root endO items hio ?_)
                (fun _ _ => fe_pure _)
              exact hypP tb items hap htb
      · intro root endO items hio hall
        cases items with
        | nil => rw [spansItems]; exact fe_pure _
        | cons v vs =>
            obtain ⟨hvk, hvs⟩ : VOk P v ∧ ItemsOk P vs := by
              cases hio with
              | cons h1 h2 => exact ⟨h1, h2⟩
            cases v with
            | table t =>
                cases t with
                | mk ts ta tp tne tes =>
                    rw [spansItems]
                    obtain ⟨_, htes⟩ := vok_table_inv hvk
                    refine fe_bind (ihEs root endO tes htes) ?_
                    intro tes2 _
                    refine fe_bind (ihItems root endO vs hvs ?_)
                      (fun _ _ => fe_pure _)
                    exact fun u hu => hall u (List.mem_cons_of_mem _ hu)
            | bool st =>
                exact absurd (hall _ (List.mem_cons_self _ _))
                  (by simp [isNonArrTable])
            | str st k2 c =>
                exact absurd (hall _ (List.mem_cons_self _ _))
                  (by simp [isNonArrTable])
            | int st r =>
                exact absurd (hall _ (List.mem_cons_self _ _))
                  (by simp [isNonArrTable])
            | float st =>
                exact absurd (hall _ (List.mem_cons_self _ _))
                  (by simp [isNonArrTable])
            | date st =>
                exact absurd (hall _ (List.mem_cons_self _ _))
                  (by simp [isNonArrTable])
            | array a2 =>
                exact absurd (hall _ (List.mem_cons_self _ _))
                  (by simp [isNonArrTable])
            | invalid o =>
                exact absurd (hall _ (List.mem_cons_self _ _))
                  (by simp [isNonArrTable])
            | empty =>
                exact absurd (hall _ (List.mem_cons_self _ _))
                  (by simp [isNonArrTable])

theorem np_hypT : ∀ tb items, NP.arr tb items → tb = true →
    ∀ v ∈ items, isNonArrTable v :=
  fun _ _ h htb => (h htb).2

theorem lp_hypT : ∀ tb items, LP.arr tb items → tb = true →
    ∀ v ∈ items, isNonArrTable v := by
  intro tb items h htb
  rw [h] at htb
  cases htb

/-- RootNode::cast on a well-formed ROOT node: the only possible failure of
the embedding is fuel exhaustion — every panic branch is unreachable. -/
theorem rootCast_fe {f start stop : Nat} {cs : List Stx}
    (hw : wfList cs = true) :
    fuelErrOnly (rootCast f (.node .ROOT start stop cs)) := by
  rw [rootCast]
  rw [if_pos rfl]
  refine fe_bind (liftPass_fe initState_inv hw) ?_
  intro st hst
  have hI : LiftStInv st := liftPass_inv initState_inv hst
  dsimp only []
  refine fe_bind ?_ ?_
  · split
    · refine fe_bind ((mergeNoPanic f).1 _ _
        (esOkMono lp_le_mp (fromMap_lp hI))) ?_
      intro pr _
      obtain ⟨m, errsM⟩ := pr
      dsimp only []
      exact fe_bind ((normNoPanic f).1 m) (fun _ _ => fe_pure _)
    · exact fe_pure _
  · intro pr hpr
    by_cases hemp : (st.errors ++ extraChecks (groupByIndex st.entries)).isEmpty
        = true
    · rw [if_pos hemp] at hpr
      obtain ⟨pr2, hmg, h4⟩ := except_bind_ok hpr
      obtain ⟨m, errsM⟩ := pr2
      obtain ⟨n, hn, h5⟩ := except_bind_ok h4
      simp only [pure, Except.pure, Except.ok.injEq] at h5
      have hmp : EsOk MP m := (mergeInv f).1 _ _ _ _
        (esOkMono lp_le_mp (fromMap_lp hI)) hmg
      have hnp : EsOk NP n := (normInv f).1 _ _ hmp hn
      refine fe_bind ?_ (fun _ _ => fe_pure _)
      rw [← h5]
      exact (spansNoPanic NP np_hypT f).1 _ _ _ hnp
    · rw [if_neg hemp] at hpr
      simp only [pure, Except.pure, Except.ok.injEq] at hpr
      refine fe_bind ?_ (fun _ _ => fe_pure _)
      rw [← hpr]
      exact (spansNoPanic LP lp_hypT f).1 _ _ _ (fromMap_lp hI)

theorem rootCast_some {f start stop : Nat} {cs : List Stx}
    {x : Option RootNode}
    (h : rootCast f (.node .ROOT start stop cs) = .ok x) :
    ∃ root, x = some root := by
  rw [rootCast, if_pos rfl] at h
  obtain ⟨st, _, h2⟩ := except_bind_ok h
  dsimp only [] at h2
  obtain ⟨pr, _, h3⟩ := except_bind_ok h2
  obtain ⟨out, _, h4⟩ := except_bind_ok h3
  simp only [pure, Except.pure, Except.ok.injEq] at h4
  exact ⟨_, h4.symm⟩

/-- C5: on every well-formed syntax tree whose root has kind ROOT,
RootNode::cast never panics (the only failure of the embedding is fuel
exhaustion) and every successful run returns Some: all semantic problems are
reported through the error vector alone, including through the merge pass,
whose panic branches for non-table array items and Empty values are
unreachable. -/
theorem claim_c5 (f start stop : Nat) (cs : List Stx)
    (hw : wfList cs = true) :
    (∀ e, rootCast f (.node .ROOT start stop cs) = .error e →
      e = Fail.fuelOut)
    ∧ (∀ x, rootCast f (.node .ROOT start stop cs) = .ok x →
      ∃ root, x = some root) :=
  ⟨rootCast_fe hw, fun _ h => rootCast_some h⟩

/-- Witness for C5 on the document [d]. -/
theorem claim_c5_witness :
    wfList [c1Hdr1] = true ∧
    ∃ root, rootCast 20 (.node .ROOT 0 4 [c1Hdr1]) = .ok (some root) := by
  have h := claim_c5 20 0 4 [c1Hdr1] (by decide)
  refine ⟨by decide, ?_⟩
  obtain ⟨root, hroot⟩ := h.2
    (some (rootOfR (rootCast 20 (.node .ROOT 0 4 [c1Hdr1])))) (by rfl)
  refine ⟨root, ?_⟩
  rw [← hroot]
  rfl


end TaploDom
